import Mathlib

/-! # UModel pak archive reader (`Unreal/UnArchivePak.h`)

A shallow embedding of the pak virtual file system of UModel: the footer and
index codecs (`FPakInfo`, `FPakEntry`), the per-entry stream reader
(`FPakFile`) and the archive facade (`FPakVFS`), followed by theorems about
them.

Conventions of the embedding.

* A byte is a natural number; decoders reduce it modulo 256.
* C++ `int`/`int32` values are integers; every 32-bit operation whose result
  can leave the range is followed by `toInt32` (two's complement wrap).
  64-bit offsets are kept as unbounded integers.
* A fatal stop (`appError`, a failed `assert`, a failed read of the byte
  source) is `Outcome.fatal`, carrying the state at the moment of the stop.
* Pointers to entries of `FileInfos` are indices into that array.
-/

namespace UModel

/-! ## Outcomes and machine integers -/

/-- Result of running a piece of the program: a normal return with a value, or
a fatal stop carrying the state reached when the program stopped. -/
inductive Outcome (ε α : Type) where
  | ok : α → Outcome ε α
  | fatal : ε → Outcome ε α
deriving DecidableEq, Repr

/-- The value of a normal return, `none` for a fatal stop. -/
def Outcome.toOption {ε α : Type} : Outcome ε α → Option α
  | .ok a => some a
  | .fatal _ => none

/-- Largest value of a C++ `int`. -/
def INT_MAX : Int := 2147483647

/-- Conversion of an integer to a 32-bit two's complement `int`. -/
def toInt32 (x : Int) : Int := (x + 2147483648) % 4294967296 - 2147483648

/-- The integer `x` is a value of the C++ type `int`. -/
def IsInt32 (x : Int) : Prop := -2147483648 ≤ x ∧ x ≤ 2147483647

instance (x : Int) : Decidable (IsInt32 x) := by
  unfold IsInt32
  infer_instance

/-! ## The byte source -/

/-- Modelled from the spec: the random-access byte source (`FArchive`, declared
outside `UnArchivePak.h`), which "exposes `seek(absoluteOffset)`,
`read(buffer, n)`, `sizeInBytes()`". `data` is the content, `ArPos` the cursor
and `ArLicenseeVer` the field the pak code borrows for the format version. -/
structure FArchive where
  data : List Nat
  ArPos : Int
  ArLicenseeVer : Int
deriving DecidableEq, Repr

/-- Macro `PakVer`: the pak version travels in `ArLicenseeVer`. -/
def FArchive.PakVer (Ar : FArchive) : Int := Ar.ArLicenseeVer

/-- Modelled from the spec: `seek(absoluteOffset)` of the byte source. -/
def FArchive.Seek64 (Ar : FArchive) (Pos : Int) : FArchive := { Ar with ArPos := Pos }

/-- Modelled from the spec: current cursor of the byte source. -/
def FArchive.Tell64 (Ar : FArchive) : Int := Ar.ArPos

/-- Modelled from the spec: `sizeInBytes()` of the byte source. -/
def FArchive.GetFileSize64 (Ar : FArchive) : Int := Ar.data.length

/-- Modelled from the spec: `read(buffer, n)` of the byte source. The bytes
under the cursor are delivered and the cursor advances; a read that the source
cannot serve in full (a "short read") is a fatal stop. -/
def FArchive.Serialize (Ar : FArchive) (size : Int) : Outcome FArchive (List Nat × FArchive) :=
  if 0 ≤ Ar.ArPos ∧ 0 ≤ size ∧ Ar.ArPos + size ≤ Ar.data.length then
    .ok ((Ar.data.drop Ar.ArPos.toNat).take size.toNat, { Ar with ArPos := Ar.ArPos + size })
  else
    .fatal Ar

/-! ## Collaborators of the stream reader -/

/-- External collaborators of the stream reader. `appDecompress data outLen
method` is the decompression routine; `heap` gives the (unspecified) content of
freshly allocated memory. -/
structure Env where
  appDecompress : List Nat → Int → Int → Option (List Nat)
  heap : Nat → Nat

/-- Modelled from the spec: the decompressor "produces exactly the computed
uncompressed length"; any other result is a decompression failure. -/
def Env.decompress (env : Env) (data : List Nat) (outLen : Int) (method : Int) :
    Option (List Nat) :=
  match env.appDecompress data outLen method with
  | some out => if (out.length : Int) = outLen then some out else none
  | none => none

/-- Memory returned by `appMalloc(size)`: `size` bytes of unspecified content. -/
def Env.appMalloc (env : Env) (size : Int) : List Nat :=
  (List.range size.toNat).map env.heap

/-- Writing `out` at the start of the buffer `buf`. -/
def writePrefix (out buf : List Nat) : List Nat := out ++ buf.drop out.length

/-- The bytes `memcpy(data, buf + offset, count)` delivers; `none` when the
range leaves the buffer. -/
def memcpyFrom (buf : List Nat) (offset count : Int) : Option (List Nat) :=
  if 0 ≤ offset ∧ 0 ≤ count ∧ offset + count ≤ buf.length then
    some ((buf.drop offset.toNat).take count.toNat)
  else
    none

/-! ## Entries -/

/-- One compression block: the span of the source holding its compressed bytes. -/
structure FPakCompressedBlock where
  CompressedStart : Int
  CompressedEnd : Int
deriving DecidableEq, Repr

/-- Directory entry. `Name` is a C string (list of character codes);
`HashNext` is represented by the bucket chains of the hash table. -/
structure FPakEntry where
  Name : List Nat
  Pos : Int
  Size : Int
  UncompressedSize : Int
  CompressionMethod : Int
  Hash : List Nat
  bEncrypted : Nat
  CompressionBlocks : List FPakCompressedBlock
  CompressionBlockSize : Int
  StructSize : Int
deriving DecidableEq, Repr

/-! ## The stream reader `FPakFile` -/

/-- State of one `FPakFile`. The shared `Reader` is passed to each operation.
`UncompressedBuffer = none` is the null pointer. -/
structure FPakFile where
  Info : FPakEntry
  ArPos : Int
  ArStopper : Int
  UncompressedBuffer : Option (List Nat)
  UncompressedBufferPos : Int
deriving DecidableEq, Repr

/-- Constructor `FPakFile(info, reader)`: position 0, no stopper, no buffer;
`UncompressedBufferPos` is left uninitialised (`junk`). -/
def FPakFile.create (info : FPakEntry) (junk : Int) : FPakFile :=
  { Info := info, ArPos := 0, ArStopper := 0, UncompressedBuffer := none,
    UncompressedBufferPos := junk }

/-- What a read has produced: the bytes written to `data` so far, the reader
and the shared source. -/
structure ReadResult where
  data : List Nat
  file : FPakFile
  reader : FArchive
deriving DecidableEq, Repr

/-- Put already delivered bytes in front of the result of the rest of a read. -/
def ReadResult.prepend (bytes : List Nat) :
    Outcome ReadResult ReadResult → Outcome ReadResult ReadResult
  | .ok r => .ok { r with data := bytes ++ r.data }
  | .fatal r => .fatal { r with data := bytes ++ r.data }

/-- Sequencing of two reads: the second one runs on the state the first one
left, and its bytes follow those of the first; a fatal stop of the first read
ends the sequence. -/
def ReadResult.andThen (first : Outcome ReadResult ReadResult)
    (next : FPakFile → FArchive → Outcome ReadResult ReadResult) :
    Outcome ReadResult ReadResult :=
  match first with
  | .ok r1 => ReadResult.prepend r1.data (next r1.file r1.reader)
  | .fatal x => .fatal x

/-- `FPakFile::Seek`. -/
def FPakFile.Seek (f : FPakFile) (Pos : Int) : Outcome FPakFile FPakFile :=
  if Pos ≥ 0 ∧ Pos < f.Info.UncompressedSize then
    .ok { f with ArPos := Pos }
  else
    .fatal f

/-- `Seek(Pos)` followed by the reads `next`; a failed seek ends the sequence. -/
def FPakFile.seekThen (f : FPakFile) (Reader : FArchive) (Pos : Int)
    (next : FPakFile → FArchive → Outcome ReadResult ReadResult) :
    Outcome ReadResult ReadResult :=
  match f.Seek Pos with
  | .ok f => next f Reader
  | .fatal f => .fatal ⟨[], f, Reader⟩

/-- `FPakFile::GetFileSize`. -/
def FPakFile.GetFileSize (f : FPakFile) : Int := toInt32 f.Info.UncompressedSize

/-- The "buffer is not ready" test of the compressed read loop. -/
def FPakFile.bufferNotReady (f : FPakFile) : Bool :=
  f.UncompressedBuffer.isNone ||
    decide (f.ArPos < f.UncompressedBufferPos) ||
    decide (f.ArPos ≥ toInt32 (f.UncompressedBufferPos + f.Info.CompressionBlockSize))

/-- Body of the "buffer is not ready" branch: allocate the buffer if it is
null, then fetch and decompress the block holding `ArPos`. Division by a zero
block size and an index outside `CompressionBlocks` are fatal stops. -/
def FPakFile.fetchBlock (env : Env) (f : FPakFile) (Reader : FArchive) :
    Outcome (FPakFile × FArchive) (FPakFile × FArchive) :=
  let buf := f.UncompressedBuffer.getD (env.appMalloc f.Info.CompressionBlockSize)
  let f := { f with UncompressedBuffer := some buf }
  if f.Info.CompressionBlockSize = 0 then .fatal (f, Reader) else
  let BlockIndex := Int.tdiv f.ArPos f.Info.CompressionBlockSize
  let f := { f with UncompressedBufferPos := toInt32 (f.Info.CompressionBlockSize * BlockIndex) }
  if BlockIndex < 0 then .fatal (f, Reader) else
  match f.Info.CompressionBlocks[BlockIndex.toNat]? with
  | none => .fatal (f, Reader)
  | some Block =>
    let CompressedBlockSize := toInt32 (Block.CompressedEnd - Block.CompressedStart)
    let UncompressedBlockSize :=
      min f.Info.CompressionBlockSize
        (toInt32 (toInt32 f.Info.UncompressedSize - f.UncompressedBufferPos))
    match (Reader.Seek64 Block.CompressedStart).Serialize CompressedBlockSize with
    | .fatal Reader => .fatal (f, Reader)
    | .ok (CompressedData, Reader) =>
      match env.decompress CompressedData UncompressedBlockSize f.Info.CompressionMethod with
      | none => .fatal (f, Reader)
      | some out => .ok ({ f with UncompressedBuffer := some (writePrefix out buf) }, Reader)

/-- First half of an iteration of the compressed read loop: refill the buffer
when it is not ready. -/
def FPakFile.prepareBuffer (env : Env) (f : FPakFile) (Reader : FArchive) :
    Outcome (FPakFile × FArchive) (FPakFile × FArchive) :=
  if f.bufferNotReady then f.fetchBlock env Reader else .ok (f, Reader)

/-- Body of the `while (size > 0)` loop of the compressed branch: make the
buffer ready, then copy the bytes up to the end of the buffer or of the request.
The result holds the bytes copied, the advanced reader and the remaining
`size`. -/
def FPakFile.loopBody (env : Env) (f : FPakFile) (Reader : FArchive) (size : Int) :
    Outcome ReadResult (ReadResult × Int) :=
  match f.prepareBuffer env Reader with
  | .fatal (f, Reader) => .fatal ⟨[], f, Reader⟩
  | .ok (f, Reader) =>
    let BytesToCopy :=
      toInt32 (toInt32 (f.UncompressedBufferPos + f.Info.CompressionBlockSize) - f.ArPos)
    let BytesToCopy := if BytesToCopy > size then size else BytesToCopy
    if BytesToCopy > 0 then
      let OffsetInBuffer := toInt32 (f.ArPos - f.UncompressedBufferPos)
      match memcpyFrom (f.UncompressedBuffer.getD []) OffsetInBuffer BytesToCopy with
      | none => .fatal ⟨[], f, Reader⟩
      | some bytes =>
        .ok (⟨bytes, { f with ArPos := toInt32 (f.ArPos + BytesToCopy) }, Reader⟩,
          toInt32 (size - BytesToCopy))
    else
      .fatal ⟨[], f, Reader⟩

/-- The `while (size > 0)` loop of the compressed branch. Every iteration
delivers at least one byte (`assert(BytesToCopy > 0)`), so `size` iterations
always suffice; `fuel` counts the iterations still allowed. -/
def FPakFile.SerializeCompressed (env : Env) :
    Nat → FPakFile → FArchive → Int → Outcome ReadResult ReadResult
  | 0, f, Reader, size =>
    if size > 0 then .fatal ⟨[], f, Reader⟩ else .ok ⟨[], f, Reader⟩
  | fuel + 1, f, Reader, size =>
    if size > 0 then
      match f.loopBody env Reader size with
      | .fatal r => .fatal r
      | .ok (r, size) =>
        ReadResult.prepend r.data (FPakFile.SerializeCompressed env fuel r.file r.reader size)
    else
      .ok ⟨[], f, Reader⟩

/-- The uncompressed branch of `FPakFile::Serialize`. -/
def FPakFile.SerializeUncompressed (f : FPakFile) (Reader : FArchive) (size : Int) :
    Outcome ReadResult ReadResult :=
  let Reader := Reader.Seek64 (f.Info.Pos + f.Info.StructSize + f.ArPos)
  match Reader.Serialize size with
  | .fatal Reader => .fatal ⟨[], f, Reader⟩
  | .ok (bytes, Reader) => .ok ⟨bytes, { f with ArPos := toInt32 (f.ArPos + size) }, Reader⟩

/-- `FPakFile::Serialize(data, size)`: stopper check, then the compressed or
the uncompressed branch. -/
def FPakFile.Serialize (env : Env) (f : FPakFile) (Reader : FArchive) (size : Int) :
    Outcome ReadResult ReadResult :=
  if f.ArStopper > 0 ∧ toInt32 (f.ArPos + size) > f.ArStopper then
    .fatal ⟨[], f, Reader⟩
  else if f.Info.CompressionMethod ≠ 0 then
    f.SerializeCompressed env size.toNat Reader size
  else
    f.SerializeUncompressed Reader size

/-! ## Content of a compressed entry -/

/-- Block `i` of a compressed entry: the decompression of the bytes
`[CompressedStart_i, CompressedEnd_i)` of the source `src`, with output length
`min(compressionBlockSize, uncompressedSize - i * compressionBlockSize)`. -/
def blockBytes (env : Env) (src : List Nat) (E : FPakEntry) (i : Nat) : Option (List Nat) :=
  match E.CompressionBlocks[i]? with
  | none => none
  | some B =>
    if 0 ≤ B.CompressedStart ∧ B.CompressedStart ≤ B.CompressedEnd ∧
        B.CompressedEnd ≤ src.length then
      env.decompress
        ((src.drop B.CompressedStart.toNat).take (B.CompressedEnd - B.CompressedStart).toNat)
        (min E.CompressionBlockSize (E.UncompressedSize - i * E.CompressionBlockSize))
        E.CompressionMethod
    else
      none

/-- Concatenation of the first `n` decompressed blocks of an entry. -/
def contentUpTo (env : Env) (src : List Nat) (E : FPakEntry) : Nat → Option (List Nat)
  | 0 => some []
  | n + 1 =>
    match contentUpTo env src E n, blockBytes env src E n with
    | some c, some d => some (c ++ d)
    | _, _ => none

/-- The logical content of a compressed entry: the concatenation of all its
decompressed blocks. -/
def entryContent (env : Env) (src : List Nat) (E : FPakEntry) : Option (List Nat) :=
  contentUpTo env src E E.CompressionBlocks.length

/-- A compressed entry `E` over the source content `src` that the 32-bit
arithmetic of the reader can serve: positive block size, sizes within `int`,
enough blocks to cover `[0, uncompressedSize)`, and all blocks decompressible,
their concatenation being `content`. -/
structure ValidCompressed (env : Env) (src : List Nat) (E : FPakEntry) (content : List Nat) :
    Prop where
  method : E.CompressionMethod ≠ 0
  bs_pos : 0 < E.CompressionBlockSize
  bs_int : E.CompressionBlockSize ≤ 2147483647
  size_int : E.UncompressedSize ≤ 2147483647
  cover : E.UncompressedSize ≤ E.CompressionBlockSize * E.CompressionBlocks.length
  spans : ∀ B ∈ E.CompressionBlocks, B.CompressedEnd - B.CompressedStart ≤ 2147483647
  content : entryContent env src E = some content

/-- The one-block cache of a reader holds what its position says: when the
buffer exists, it starts with the decompressed block that begins at
`UncompressedBufferPos`. -/
def FPakFile.CacheValid (env : Env) (src : List Nat) (f : FPakFile) : Prop :=
  ∀ buf, f.UncompressedBuffer = some buf →
    ∃ (k : Nat) (d : List Nat),
      f.UncompressedBufferPos = f.Info.CompressionBlockSize * k ∧
      blockBytes env src f.Info k = some d ∧ d <+: buf

/-- Reader states of the entry `E` over the source content `src` that are
reachable from the creation of the reader by successful seeks and successful
reads that stay within the entry. The cursor of the shared source is arbitrary
at each read. -/
inductive Reachable (env : Env) (src : List Nat) (E : FPakEntry) : FPakFile → Prop where
  | create (junk : Int) (hj : IsInt32 junk) : Reachable env src E (FPakFile.create E junk)
  | seek (f f1 : FPakFile) (Pos : Int) (hf : Reachable env src E f)
      (h : f.Seek Pos = .ok f1) : Reachable env src E f1
  | read (f : FPakFile) (Reader : FArchive) (size : Int) (res : ReadResult)
      (hf : Reachable env src E f) (hsrc : Reader.data = src) (hsize : 0 ≤ size)
      (hend : f.ArPos + size ≤ E.UncompressedSize)
      (h : f.Serialize env Reader size = .ok res) : Reachable env src E res.file

/-! ## A small archive for the worked examples -/

/-- A decompressor for the examples: method 1 stores the data as is. -/
def demoEnv : Env :=
  { appDecompress := fun data outLen _ => some (data.take outLen.toNat)
    heap := fun _ => 0 }

/-- Source content of the examples: twelve payload bytes from offset 0. -/
def demoSrc : List Nat := [10, 11, 12, 13, 14, 15, 16, 17, 18, 19, 20, 21]

/-- A compressed entry of 11 bytes in blocks of 4. -/
def demoEntry : FPakEntry :=
  { Name := [47, 97], Pos := 0, Size := 11, UncompressedSize := 11, CompressionMethod := 1,
    Hash := [], bEncrypted := 0,
    CompressionBlocks := [⟨0, 4⟩, ⟨4, 8⟩, ⟨8, 11⟩], CompressionBlockSize := 4, StructSize := 53 }

/-- The shared source of the examples, cursor at 0. -/
def demoReader : FArchive := { data := demoSrc, ArPos := 0, ArLicenseeVer := 4 }

/-- Result of reading 3 bytes with a fresh reader of `demoEntry`. -/
def demoFirst : ReadResult :=
  { data := [10, 11, 12]
    file := { Info := demoEntry, ArPos := 3, ArStopper := 0,
              UncompressedBuffer := some [10, 11, 12, 13], UncompressedBufferPos := 0 }
    reader := { data := demoSrc, ArPos := 4, ArLicenseeVer := 4 } }

/-- A run-length decompressor: the first compressed byte repeated `outLen`
times. -/
def bigEnv : Env :=
  { appDecompress := fun data outLen _ =>
      if 0 ≤ outLen then some (List.replicate outLen.toNat (data.headD 0)) else none
    heap := fun _ => 0 }

/-- Source content for `bigEntry`: one compressed byte per block. -/
def bigSrc : List Nat := [7, 9]

/-- A compressed entry of exactly 2 GiB in two blocks of 1 GiB. -/
def bigEntry : FPakEntry :=
  { Name := [47, 98], Pos := 0, Size := 2, UncompressedSize := 2147483648, CompressionMethod := 1,
    Hash := [], bEncrypted := 0,
    CompressionBlocks := [⟨0, 1⟩, ⟨1, 2⟩], CompressionBlockSize := 1073741824, StructSize := 53 }

/-- An uncompressed entry of 5 bytes whose record occupies the first 3 bytes of
`demoSrc`. -/
def storedEntry : FPakEntry :=
  { Name := [47, 99], Pos := 0, Size := 5, UncompressedSize := 5, CompressionMethod := 0,
    Hash := [], bEncrypted := 0, CompressionBlocks := [], CompressionBlockSize := 0,
    StructSize := 3 }

/-- An uncompressed entry of size 0 (an empty file). -/
def emptyEntry : FPakEntry :=
  { Name := [47, 100], Pos := 0, Size := 0, UncompressedSize := 0, CompressionMethod := 0,
    Hash := [], bEncrypted := 0, CompressionBlocks := [], CompressionBlockSize := 0,
    StructSize := 3 }

/-- Result of reading all 5 bytes of `storedEntry` with a fresh reader. -/
def storedAll : ReadResult :=
  { data := [13, 14, 15, 16, 17]
    file := { Info := storedEntry, ArPos := 5, ArStopper := 0,
              UncompressedBuffer := none, UncompressedBufferPos := 0 }
    reader := { data := demoSrc, ArPos := 8, ArLicenseeVer := 4 } }

/-! ## Primitive decoders of the byte source -/

/-- Sequencing of steps that may stop fatally. -/
def Outcome.bind {ε α β : Type} (x : Outcome ε α) (k : α → Outcome ε β) : Outcome ε β :=
  match x with
  | .ok a => k a
  | .fatal e => .fatal e

instance {ε : Type} : Monad (Outcome ε) where
  pure := Outcome.ok
  bind := Outcome.bind

/-- Little-endian value of a byte string. -/
def leNat : List Nat → Nat
  | [] => 0
  | b :: bs => b % 256 + 256 * leNat bs

/-- Conversion of an integer to a 64-bit two's complement `int64`. -/
def toInt64 (x : Int) : Int :=
  (x + 9223372036854775808) % 18446744073709551616 - 9223372036854775808

/-- Modelled from the spec: `Ar << byte` of the byte source (one byte). -/
def FArchive.readByte (Ar : FArchive) : Outcome FArchive (Nat × FArchive) := do
  let (bytes, Ar) ← Ar.Serialize 1
  pure (leNat bytes, Ar)

/-- Modelled from the spec: `Ar << int` of the byte source ("all integers
little-endian", 4 bytes, signed). -/
def FArchive.readInt32 (Ar : FArchive) : Outcome FArchive (Int × FArchive) := do
  let (bytes, Ar) ← Ar.Serialize 4
  pure (toInt32 (leNat bytes), Ar)

/-- Modelled from the spec: `Ar << int64` of the byte source (8 bytes,
little-endian, signed). -/
def FArchive.readInt64 (Ar : FArchive) : Outcome FArchive (Int × FArchive) := do
  let (bytes, Ar) ← Ar.Serialize 8
  pure (toInt64 (leNat bytes), Ar)

/-- The C string held by a character buffer: the characters before the first
NUL. -/
def cstr (s : List Nat) : List Nat := s.takeWhile (fun c => c != 0)

/-- Modelled from the spec: `Ar << FStaticString` ("strings are
length-prefixed"): a 4-byte length, then that many bytes; the value is the C
string they hold. -/
def FArchive.readString (Ar : FArchive) : Outcome FArchive (List Nat × FArchive) := do
  let (len, Ar) ← Ar.readInt32
  let (bytes, Ar) ← Ar.Serialize len
  pure (cstr (bytes.map (fun b => b % 256)), Ar)

/-- `operator<<(FArchive&, FPakCompressedBlock&)`. -/
def FPakCompressedBlock.serialize (Ar : FArchive) :
    Outcome FArchive (FPakCompressedBlock × FArchive) := do
  let (CompressedStart, Ar) ← Ar.readInt64
  let (CompressedEnd, Ar) ← Ar.readInt64
  pure (⟨CompressedStart, CompressedEnd⟩, Ar)

/-- The elements of a serialized array of compression blocks. -/
def FArchive.readBlocks : Nat → FArchive → Outcome FArchive (List FPakCompressedBlock × FArchive)
  | 0, Ar => .ok ([], Ar)
  | n + 1, Ar => do
    let (B, Ar) ← FPakCompressedBlock.serialize Ar
    let (rest, Ar) ← FArchive.readBlocks n Ar
    pure (B :: rest, Ar)

/-- Modelled from the spec: `Ar << TArray<FPakCompressedBlock>`, a
"count-prefixed" sequence; a negative count is a fatal stop. -/
def FArchive.readBlockArray (Ar : FArchive) :
    Outcome FArchive (List FPakCompressedBlock × FArchive) := do
  let (count, Ar) ← Ar.readInt32
  if count < 0 then .fatal Ar else FArchive.readBlocks count.toNat Ar

/-! ## Footer and entry codecs -/

/-- `PAK_FILE_MAGIC`. -/
def PAK_FILE_MAGIC : Int := 0x5A6F12E1

/-- Pak file version `PAK_INITIAL`. -/
def PAK_INITIAL : Int := 1

/-- Pak file version `PAK_NO_TIMESTAMPS`. -/
def PAK_NO_TIMESTAMPS : Int := 2

/-- Pak file version `PAK_COMPRESSION_ENCRYPTION`. -/
def PAK_COMPRESSION_ENCRYPTION : Int := 3

/-- Pak file version `PAK_INDEX_ENCRYPTION` (UE4.17+). -/
def PAK_INDEX_ENCRYPTION : Int := 4

/-- Enumerator `PAK_LATEST_PLUS_ONE`. -/
def PAK_LATEST_PLUS_ONE : Int := 5

/-- Enumerator `PAK_LATEST = PAK_LATEST_PLUS_ONE - 1`. -/
def PAK_LATEST : Int := PAK_LATEST_PLUS_ONE - 1

/-- The footer `FPakInfo`. -/
structure FPakInfo where
  Magic : Int
  Version : Int
  IndexOffset : Int
  IndexSize : Int
  IndexHash : List Nat
  bEncryptedIndex : Nat
deriving DecidableEq, Repr

/-- `FPakInfo::Size = sizeof(int) * 2 + sizeof(int64) * 2 + 20 + 1`. -/
def FPakInfo.Size : Int := 4 * 2 + 8 * 2 + 20 + 1

/-- `operator<<(FArchive&, FPakInfo&)`: the new field first, then the old
ones; the new field is reset for older versions; a version above `PAK_LATEST`
is the fatal `appError`. -/
def FPakInfo.serialize (Ar : FArchive) : Outcome FArchive (FPakInfo × FArchive) := do
  let (bEncryptedIndex, Ar) ← Ar.readByte
  let (Magic, Ar) ← Ar.readInt32
  let (Version, Ar) ← Ar.readInt32
  let (IndexOffset, Ar) ← Ar.readInt64
  let (IndexSize, Ar) ← Ar.readInt64
  let (IndexHash, Ar) ← Ar.Serialize 20
  let bEncryptedIndex := if Version < PAK_INDEX_ENCRYPTION then 0 else bEncryptedIndex
  if Version > PAK_LATEST then .fatal Ar
  else pure (⟨Magic, Version, IndexOffset, IndexSize, IndexHash, bEncryptedIndex⟩, Ar)

/-- The optional 8-byte timestamp of an entry record, read and discarded for
versions below `PAK_NO_TIMESTAMPS`. -/
def FPakEntry.skipTimestamp (Ar : FArchive) : Outcome FArchive FArchive :=
  if Ar.PakVer < PAK_NO_TIMESTAMPS then do
    let (_, Ar) ← Ar.readInt64
    pure Ar
  else pure Ar

/-- A read into a field of the entry `P`, which the codec fills in place: when
the read stops fatally the entry is left with the fields stored before, the
destination of the stopped read as it was. -/
def Outcome.into {α : Type} (x : Outcome FArchive α) (P : FPakEntry) :
    Outcome (FPakEntry × FArchive) α :=
  match x with
  | .ok a => .ok a
  | .fatal Ar => .fatal (P, Ar)

/-- The fields of an entry record present from `PAK_COMPRESSION_ENCRYPTION` on:
the block list (only for compressed entries), the encryption flag and the block
size. For older versions the entry keeps what it had. -/
def FPakEntry.serializeTail (Ar : FArchive) (P : FPakEntry) :
    Outcome (FPakEntry × FArchive) (FPakEntry × FArchive) :=
  if Ar.PakVer ≥ PAK_COMPRESSION_ENCRYPTION then do
    let (CompressionBlocks, Ar) ←
      if P.CompressionMethod ≠ 0 then Ar.readBlockArray.into P
      else (pure (P.CompressionBlocks, Ar) : Outcome (FPakEntry × FArchive) _)
    let P := { P with CompressionBlocks := CompressionBlocks }
    let (bEncrypted, Ar) ← Ar.readByte.into P
    let P := { P with bEncrypted := bEncrypted }
    let (CompressionBlockSize, Ar) ← Ar.readInt32.into P
    pure ({ P with CompressionBlockSize := CompressionBlockSize }, Ar)
  else pure (P, Ar)

/-- `operator<<(FArchive&, FPakEntry&)`. `tekken7` stands for a build with
`TEKKEN7` running with `GForceGame == GAME_Tekken7`. `StructSize` is the number
of bytes the record occupied. The entry is filled in place, so a fatal stop
carries it with the fields read so far. -/
def FPakEntry.serialize (tekken7 : Bool) (Ar : FArchive) (P : FPakEntry) :
    Outcome (FPakEntry × FArchive) (FPakEntry × FArchive) := do
  let StartOffset := Ar.Tell64
  let (Pos, Ar) ← Ar.readInt64.into P
  let P := { P with Pos := Pos }
  let (Size, Ar) ← Ar.readInt64.into P
  let P := { P with Size := Size }
  let (UncompressedSize, Ar) ← Ar.readInt64.into P
  let P := { P with UncompressedSize := UncompressedSize }
  let (CompressionMethod, Ar) ← Ar.readInt32.into P
  let P := { P with CompressionMethod := CompressionMethod }
  let Ar ← (FPakEntry.skipTimestamp Ar).into P
  let (Hash, Ar) ← (Ar.Serialize 20).into P
  let P := { P with Hash := Hash }
  let (P, Ar) ← FPakEntry.serializeTail Ar P
  let P := if tekken7 then { P with bEncrypted := 0 } else P
  pure ({ P with StructSize := toInt32 (Ar.Tell64 - StartOffset) }, Ar)

/-! ## The archive `FPakVFS` -/

/-- `HASH_SIZE`. -/
def HASH_SIZE : Nat := 1024

/-- `HASH_MASK = HASH_SIZE - 1`. -/
def HASH_MASK : Nat := HASH_SIZE - 1

/-- `MIN_PAK_SIZE_FOR_HASHING`. -/
def MIN_PAK_SIZE_FOR_HASHING : Int := 256

/-- State of an `FPakVFS`. Entries are referred to by their index in
`FileInfos`; a bucket of the hash table is the chain of entries linked by
`HashNext`, most recently added first; `none` is the null pointer. -/
structure FPakVFS where
  Reader : Option FArchive
  FileInfos : List FPakEntry
  LastInfo : Option Nat
  HashTable : Option (Nat → List Nat)

/-- Constructor `FPakVFS(InFilename)`. -/
def FPakVFS.create : FPakVFS :=
  { Reader := none, FileInfos := [], LastInfo := none, HashTable := none }

/-- A zeroed entry, as `AddZeroed` makes it. -/
def FPakEntry.zeroed : FPakEntry :=
  { Name := [], Pos := 0, Size := 0, UncompressedSize := 0, CompressionMethod := 0, Hash := [],
    bEncrypted := 0, CompressionBlocks := [], CompressionBlockSize := 0, StructSize := 0 }

/-- ASCII lower-casing of a character, as `tolower` of the C locale and the
hash function do it. -/
def asciiLower (c : Nat) : Nat := if 65 ≤ c ∧ c ≤ 90 then c + 32 else c

/-- Comparison of two NUL-free strings after lower-casing; 0 when equal. -/
def stricmpAux : List Nat → List Nat → Int
  | [], [] => 0
  | [], b :: _ => -(asciiLower b : Int)
  | a :: _, [] => (asciiLower a : Int)
  | a :: as, b :: bs =>
    if asciiLower a = asciiLower b then stricmpAux as bs
    else (asciiLower a : Int) - (asciiLower b : Int)

/-- The C library function `stricmp` on C strings. -/
def stricmp (a b : List Nat) : Int := stricmpAux (cstr a) (cstr b)

/-- Macro `ROL16(x, n)` for a 16-bit `x`: rotation to the left by `n` bits. -/
def ROL16 (x n : Nat) : Nat := ((x <<< n) % 65536) ||| (x >>> (16 - n))

/-- Value of a `char` (signed, 8 bits) as an `int`. -/
def charToInt (c : Nat) : Int := if c % 256 < 128 then (c % 256 : Nat) else (c % 256 : Nat) - 256

/-- One round of the loop of `GetHashForFileName`, on the 16-bit `hash`:
`hash = ROL16(hash, 5) - hash + ((c << 4) + c ^ 0x13F)` after lower-casing `c`. -/
def hashStep (hash c : Nat) : Nat :=
  let c := charToInt (asciiLower c)
  (ROL16 hash 5 + 65536 - hash + ((((c * 16 + c) % 65536).toNat) ^^^ 0x13F)) % 65536

/-- `FPakVFS::GetHashForFileName`. -/
def GetHashForFileName (FileName : List Nat) : Nat :=
  ((cstr FileName).foldl hashStep 0) &&& HASH_MASK

/-- `FPakVFS::AddFileToHash`, for the entry with index `File`. -/
def FPakVFS.AddFileToHash (vfs : FPakVFS) (File : Nat) : FPakVFS :=
  let table := vfs.HashTable.getD (fun _ => [])
  match vfs.FileInfos[File]? with
  | none => { vfs with HashTable := some table }
  | some info =>
    let hash := GetHashForFileName info.Name
    { vfs with HashTable := some (fun h => if h = hash then File :: table h else table h) }

/-- Whether the entry with index `i` is named `name`, case-insensitively. -/
def FPakVFS.nameMatches (vfs : FPakVFS) (name : List Nat) (i : Nat) : Bool :=
  match vfs.FileInfos[i]? with
  | some info => stricmp info.Name name == 0
  | none => false

/-- `FPakVFS::FindFile`: the last found entry first, then the hash chain when
the table exists, else the linear search. Returns the entry found and the
archive with its `LastInfo` updated. -/
def FPakVFS.FindFile (vfs : FPakVFS) (name : List Nat) : Option Nat × FPakVFS :=
  match vfs.LastInfo.filter (vfs.nameMatches name) with
  | some i => (some i, vfs)
  | none =>
    match vfs.HashTable with
    | some table =>
      match (table (GetHashForFileName name)).find? (vfs.nameMatches name) with
      | some i => (some i, { vfs with LastInfo := some i })
      | none => (none, vfs)
    | none =>
      match (List.range vfs.FileInfos.length).find? (vfs.nameMatches name) with
      | some i => (some i, { vfs with LastInfo := some i })
      | none => (none, vfs)

/-- `FPakVFS::GetFileSize(name)`. -/
def FPakVFS.GetFileSize (vfs : FPakVFS) (name : List Nat) : Int × FPakVFS :=
  match vfs.FindFile name with
  | (some i, vfs) =>
    (match vfs.FileInfos[i]? with
      | some info => toInt32 info.UncompressedSize
      | none => 0, vfs)
  | (none, vfs) => (0, vfs)

/-- `FPakVFS::NumFiles`. -/
def FPakVFS.NumFiles (vfs : FPakVFS) : Int := vfs.FileInfos.length

/-- `FPakVFS::FileName(i)`; an index outside the array is a fatal stop. -/
def FPakVFS.FileName (vfs : FPakVFS) (i : Int) : Outcome FPakVFS (List Nat × FPakVFS) :=
  if i < 0 then .fatal vfs else
  match vfs.FileInfos[i.toNat]? with
  | none => .fatal vfs
  | some info => .ok (info.Name, { vfs with LastInfo := some i.toNat })

/-- `FPakVFS::CreateReader(name)`: `none` is the null result. `junk` is the
uninitialised `UncompressedBufferPos` of the new reader. -/
def FPakVFS.CreateReader (vfs : FPakVFS) (name : List Nat) (junk : Int) :
    Option FPakFile × FPakVFS :=
  match vfs.FindFile name with
  | (none, vfs) => (none, vfs)
  | (some i, vfs) =>
    match vfs.FileInfos[i]? with
    | none => (none, vfs)
    | some info =>
      if info.bEncrypted ≠ 0 then (none, vfs) else (some (FPakFile.create info junk), vfs)

/-- Modelled from the spec: `FString::RemoveFromStart`, which "strips a fixed
conventional parent-path prefix" when the string starts with it and tells
whether it did. -/
def RemoveFromStart (s pre : List Nat) : Bool × List Nat :=
  if pre.isPrefixOf s then (true, s.drop pre.length) else (false, s)

/-- The string `"../../.."`. -/
def parentPrefix : List Nat := [46, 46, 47, 46, 46, 47, 46, 46]

/-- The "Process MountPoint" step of `AttachReader`; `47` is `'/'` and `46` is
`'.'`. The character at index 0 of an empty string is its terminating NUL. -/
def ProcessMountPoint (MountPoint : List Nat) : List Nat :=
  let MountPoint :=
    match RemoveFromStart MountPoint parentPrefix with
    | (true, rest) => rest
    | (false, _) => [47]
  if MountPoint.headD 0 ≠ 47 ∨ (MountPoint.length > 1 ∧ MountPoint.getD 1 0 = 46) then [47]
  else MountPoint

/-- The entry loop of `AttachReader`: for `i` from `i` on, `n` times, read the
name, combine it with the mount point, and read the entry into `FileInfos[i]`.
A fatal stop inside a record leaves `FileInfos[i]` with its name and the fields
read so far. -/
def FPakVFS.readEntries (tekken7 : Bool) (MountPoint : List Nat) :
    Nat → Nat → FArchive → List FPakEntry →
      Outcome (List FPakEntry × FArchive) (List FPakEntry × FArchive)
  | 0, _, Ar, infos => .ok (infos, Ar)
  | n + 1, i, Ar, infos =>
    match infos[i]? with
    | none => .fatal (infos, Ar)
    | some E =>
      match Ar.readString with
      | .fatal Ar => .fatal (infos, Ar)
      | .ok (Filename, Ar) =>
        let E := { E with Name := MountPoint ++ Filename }
        match FPakEntry.serialize tekken7 Ar E with
        | .fatal (E, Ar) => .fatal (infos.set i E, Ar)
        | .ok (E, Ar) => FPakVFS.readEntries tekken7 MountPoint n (i + 1) Ar (infos.set i E)

/-- The "Hash everything" loop of `AttachReader`. -/
def FPakVFS.hashAll (vfs : FPakVFS) (count : Nat) : FPakVFS :=
  (List.range count).foldl FPakVFS.AddFileToHash vfs

/-- The second half of `AttachReader`, entered once the footer `info` has
passed the magic and encrypted-index checks: store the reader, read the mount
point, the entry count and the entries, and hash them when they are many. A
negative entry count is a fatal stop of `AddZeroed`. -/
def FPakVFS.readIndex (tekken7 : Bool) (vfs : FPakVFS) (reader : FArchive) (info : FPakInfo) :
    Outcome (FPakVFS × FArchive) (Bool × FPakVFS × FArchive) :=
  let reader := { reader with ArLicenseeVer := info.Version }
  let vfs := { vfs with Reader := some reader }
  let reader := reader.Seek64 info.IndexOffset
  match reader.readString with
  | .fatal reader => .fatal (vfs, reader)
  | .ok (MountPoint, reader) =>
    let MountPoint := ProcessMountPoint MountPoint
    match reader.readInt32 with
    | .fatal reader => .fatal (vfs, reader)
    | .ok (count, reader) =>
      if count < 0 then .fatal (vfs, reader) else
      let infos := vfs.FileInfos ++ List.replicate count.toNat FPakEntry.zeroed
      match FPakVFS.readEntries tekken7 MountPoint count.toNat 0 reader infos with
      | .fatal (infos, reader) => .fatal ({ vfs with FileInfos := infos }, reader)
      | .ok (infos, reader) =>
        let vfs := { vfs with FileInfos := infos, Reader := some reader }
        let vfs :=
          if count ≥ MIN_PAK_SIZE_FOR_HASHING then vfs.hashAll count.toNat else vfs
        .ok (true, vfs, reader)

/-- `FPakVFS::AttachReader`. The result is the returned flag, the archive and
the byte source; a fatal stop carries the archive and the byte source as they
were then. -/
def FPakVFS.AttachReader (tekken7 : Bool) (vfs : FPakVFS) (reader : FArchive) :
    Outcome (FPakVFS × FArchive) (Bool × FPakVFS × FArchive) :=
  let reader := reader.Seek64 (reader.GetFileSize64 - FPakInfo.Size)
  match FPakInfo.serialize reader with
  | .fatal reader => .fatal (vfs, reader)
  | .ok (info, reader) =>
    if info.Magic ≠ PAK_FILE_MAGIC then .ok (false, vfs, reader)
    else if info.bEncryptedIndex ≠ 0 then .ok (false, vfs, reader)
    else vfs.readIndex tekken7 reader info

/-! ## The archive layout as the format describes it -/

/-- The last `FPakInfo::Size` bytes of a source: the footer block
`[bEncryptedIndex:1][magic:4][version:4][indexOffset:8][indexSize:8][indexHash:20]`. -/
def footerBlock (src : List Nat) : List Nat := src.drop (src.length - 45)

/-- The bytes of a footer field, given its offset and size in the footer block. -/
def footerField (src : List Nat) (offset size : Nat) : List Nat :=
  ((footerBlock src).drop offset).take size

/-- The stored encrypted-index byte of the footer (offset 0). -/
def storedEncryptedIndex (src : List Nat) : Nat := leNat (footerField src 0 1)

/-- The magic field of the footer (offset 1, 4 bytes). -/
def storedMagic (src : List Nat) : Int := toInt32 (leNat (footerField src 1 4))

/-- The format version field of the footer (offset 5, 4 bytes). -/
def storedVersion (src : List Nat) : Int := toInt32 (leNat (footerField src 5 4))

/-- The index offset field of the footer (offset 9, 8 bytes). -/
def storedIndexOffset (src : List Nat) : Int := toInt64 (leNat (footerField src 9 8))

/-- The index size field of the footer (offset 17, 8 bytes). -/
def storedIndexSize (src : List Nat) : Int := toInt64 (leNat (footerField src 17 8))

/-- The index hash field of the footer (offset 25, 20 bytes). -/
def storedIndexHash (src : List Nat) : List Nat := footerField src 25 20

/-- A fatal stop of the entry codec as the byte source shows it: where the
cursor stood. -/
def Outcome.atSource {α : Type} (x : Outcome (FPakEntry × FArchive) α) : Outcome FArchive α :=
  match x with
  | .ok a => .ok a
  | .fatal (_, Ar) => .fatal Ar

/-- The records of the index in on-disk order, `n` of them from the cursor on:
each is a name string followed by an entry record. -/
def readRecords (tekken7 : Bool) :
    Nat → FArchive → Outcome FArchive (List (List Nat × FPakEntry) × FArchive)
  | 0, Ar => .ok ([], Ar)
  | n + 1, Ar => do
    let (name, Ar) ← Ar.readString
    let (E, Ar) ← (FPakEntry.serialize tekken7 Ar FPakEntry.zeroed).atSource
    let (rest, Ar) ← readRecords tekken7 n Ar
    pure ((name, E) :: rest, Ar)

/-- The index blob as stored:
`[mountPointString][entryCount:4][{nameString, entryRecord}×entryCount]`. -/
structure IndexBlob where
  mountPoint : List Nat
  count : Int
  records : List (List Nat × FPakEntry)
deriving DecidableEq, Repr

/-- Reading of the index blob at the cursor of `Ar`, in the format version
`Ar.PakVer`; a blob that cannot be read in full, or declares a negative count,
is not well formed (`fatal`). -/
def readIndexBlob (tekken7 : Bool) (Ar : FArchive) : Outcome FArchive (IndexBlob × FArchive) := do
  let (mountPoint, Ar) ← Ar.readString
  let (count, Ar) ← Ar.readInt32
  if count < 0 then .fatal Ar else do
    let (records, Ar) ← readRecords tekken7 count.toNat Ar
    pure (⟨mountPoint, count, records⟩, Ar)

/-- The byte source positioned at the index, with the format version of the
footer set, as `AttachReader` prepares it. -/
def indexCursor (reader : FArchive) : FArchive :=
  { data := reader.data, ArPos := storedIndexOffset reader.data,
    ArLicenseeVer := storedVersion reader.data }

/-- The entry that `AttachReader` stores for an index record: the record's
fields under the name formed from the normalized mount point and the raw name. -/
def loadedEntry (mountPoint : List Nat) (record : List Nat × FPakEntry) : FPakEntry :=
  { record.2 with Name := ProcessMountPoint mountPoint ++ record.1 }

/-- The archive that a successful attach of the index `blob` leaves: the
loaded entries in on-disk order, the stored reader, and the hash table when the
count reaches `MIN_PAK_SIZE_FOR_HASHING`. -/
def loadedArchive (blob : IndexBlob) (reader : FArchive) : FPakVFS :=
  let vfs : FPakVFS :=
    { Reader := some reader, FileInfos := blob.records.map (loadedEntry blob.mountPoint),
      LastInfo := none, HashTable := none }
  if blob.count ≥ MIN_PAK_SIZE_FOR_HASHING then vfs.hashAll blob.count.toNat else vfs

/-- A step on an entry that returned or stopped, with the entry renamed. -/
def renameResult (x : List Nat) :
    Outcome (FPakEntry × FArchive) (FPakEntry × FArchive) →
      Outcome (FPakEntry × FArchive) (FPakEntry × FArchive)
  | .ok (E, Ar) => .ok ({ E with Name := x }, Ar)
  | .fatal (E, Ar) => .fatal ({ E with Name := x }, Ar)

/-- Two names differ only in ASCII letter case. -/
def SameModCase (n1 n2 : List Nat) : Prop := n1.map asciiLower = n2.map asciiLower

instance (n1 n2 : List Nat) : Decidable (SameModCase n1 n2) := by
  unfold SameModCase
  infer_instance

/-! ## Example archives -/

/-- A version 4 archive with mount point `"../../../"` and two stored entries,
`"A/B.bin"` (5 bytes) and `"s"` (7 bytes, encrypted): the index at offset 0,
then the footer. -/
def demoArchive : List Nat :=
  [10, 0, 0, 0, 46, 46, 47, 46, 46, 47, 46, 46, 47, 0, 2, 0, 0, 0,
   8, 0, 0, 0, 65, 47, 66, 46, 98, 105, 110, 0,
   0, 0, 0, 0, 0, 0, 0, 0, 5, 0, 0, 0, 0, 0, 0, 0, 5, 0, 0, 0, 0, 0, 0, 0, 0, 0, 0, 0,
   1, 2, 3, 4, 5, 6, 7, 8, 9, 10, 11, 12, 13, 14, 15, 16, 17, 18, 19, 20, 0, 0, 0, 0, 0,
   2, 0, 0, 0, 115, 0,
   100, 0, 0, 0, 0, 0, 0, 0, 7, 0, 0, 0, 0, 0, 0, 0, 7, 0, 0, 0, 0, 0, 0, 0, 0, 0, 0, 0,
   1, 2, 3, 4, 5, 6, 7, 8, 9, 10, 11, 12, 13, 14, 15, 16, 17, 18, 19, 20, 1, 0, 0, 0, 0,
   0, 225, 18, 111, 90, 4, 0, 0, 0, 0, 0, 0, 0, 0, 0, 0, 0, 142, 0, 0, 0, 0, 0, 0, 0,
   0, 0, 0, 0, 0, 0, 0, 0, 0, 0, 0, 0, 0, 0, 0, 0, 0, 0, 0, 0]

/-- The archive that `AttachReader` builds from `demoArchive`. -/
def demoVFS : FPakVFS :=
  match FPakVFS.AttachReader false FPakVFS.create ⟨demoArchive, 0, 0⟩ with
  | .ok (_, vfs, _) => vfs
  | .fatal (vfs, _) => vfs

/-- The index blob of `demoArchive` and the byte source as the reading of the
index leaves it. -/
def demoIndex : IndexBlob × FArchive :=
  match readIndexBlob false (indexCursor ⟨demoArchive, 0, 0⟩) with
  | .ok p => p
  | .fatal Ar => (⟨[], 0, []⟩, Ar)

/-- The archive `demoArchive` declared as version 3, with the byte in front of
its magic field set to 1. -/
def oldArchive : List Nat := (demoArchive.set 142 1).set 147 3

/-- The archive `demoArchive` with its encrypted-index byte set to 1. -/
def encryptedArchive : List Nat := demoArchive.set 142 1

/-- A version 4 archive with mount point `"../../../"` and three stored
entries: `"a"` (5 bytes), `"A"` (4294967303 bytes) and `"s"` (7 bytes,
encrypted). -/
def mixedArchive : List Nat :=
  [10, 0, 0, 0, 46, 46, 47, 46, 46, 47, 46, 46, 47, 0, 3, 0, 0, 0,
   2, 0, 0, 0, 97, 0,
   0, 0, 0, 0, 0, 0, 0, 0, 5, 0, 0, 0, 0, 0, 0, 0, 5, 0, 0, 0, 0, 0, 0, 0, 0, 0, 0, 0, 0, 0, 0,
   0, 0, 0, 0, 0, 0, 0, 0, 0, 0, 0, 0, 0, 0, 0, 0, 0, 0, 0, 0, 0, 0,
   2, 0, 0, 0, 65, 0,
   100, 0, 0, 0, 0, 0, 0, 0, 7, 0, 0, 0, 0, 0, 0, 0, 7, 0, 0, 0, 1, 0, 0, 0, 0, 0, 0, 0, 0, 0, 0,
   0, 0, 0, 0, 0, 0, 0, 0, 0, 0, 0, 0, 0, 0, 0, 0, 0, 0, 0, 0, 0, 0,
   2, 0, 0, 0, 115, 0,
   200, 0, 0, 0, 0, 0, 0, 0, 7, 0, 0, 0, 0, 0, 0, 0, 7, 0, 0, 0, 0, 0, 0, 0, 0, 0, 0, 0, 0, 0, 0,
   0, 0, 0, 0, 0, 0, 0, 0, 0, 0, 0, 0, 0, 0, 0, 0, 0, 1, 0, 0, 0, 0,
   0, 225, 18, 111, 90, 4, 0, 0, 0, 0, 0, 0, 0, 0, 0, 0, 0, 195, 0, 0, 0, 0, 0, 0, 0, 0, 0, 0, 0,
   0, 0, 0, 0, 0, 0, 0, 0, 0, 0, 0, 0, 0, 0, 0, 0]

/-- The archive that `AttachReader` builds from `mixedArchive`. -/
def mixedVFS : FPakVFS :=
  match FPakVFS.AttachReader false FPakVFS.create ⟨mixedArchive, 0, 0⟩ with
  | .ok (_, vfs, _) => vfs
  | .fatal (vfs, _) => vfs

/-- The archive as a call of `FileName(i)` leaves it. -/
def FPakVFS.afterFileName (vfs : FPakVFS) (i : Int) : FPakVFS :=
  match vfs.FileName i with
  | .ok (_, vfs) => vfs
  | .fatal vfs => vfs

/-- A 45-byte source that is no pak file: its magic field is 0 and the bytes
of its version field read 5. -/
def strangerFile : List Nat :=
  [0, 0, 0, 0, 0, 5, 0, 0, 0, 0, 0, 0, 0, 0, 0, 0, 0, 0, 0, 0, 0, 0, 0, 0, 0,
   0, 0, 0, 0, 0, 0, 0, 0, 0, 0, 0, 0, 0, 0, 0, 0, 0, 0, 0, 0]

/-- An archive whose footer declares version 5 with the right magic. -/
def futureArchive : List Nat :=
  [0, 225, 18, 111, 90, 5, 0, 0, 0, 0, 0, 0, 0, 0, 0, 0, 0, 0, 0, 0, 0, 0, 0, 0, 0,
   0, 0, 0, 0, 0, 0, 0, 0, 0, 0, 0, 0, 0, 0, 0, 0, 0, 0, 0, 0]

/-! ## Lookup in an attached archive -/

/-- The names of the entries are pairwise distinct under the case-insensitive
comparison `stricmp`. -/
def DistinctNames (infos : List FPakEntry) : Prop :=
  infos.Pairwise (fun a b => stricmp a.Name b.Name ≠ 0)

instance (infos : List FPakEntry) : Decidable (DistinctNames infos) := by
  unfold DistinctNames
  infer_instance

/-- The archive with its hash table built anew as the "Hash everything" loop
of `AttachReader` does: `AddFileToHash` over all entries in index order,
starting without a table. -/
def FPakVFS.rehashed (vfs : FPakVFS) : FPakVFS :=
  FPakVFS.hashAll { vfs with HashTable := none } vfs.FileInfos.length

/-- The hash table of the archive is the one that the "Hash everything" loop
builds over all its entries. -/
def FPakVFS.TableBuilt (vfs : FPakVFS) : Prop := vfs.HashTable = vfs.rehashed.HashTable

/-- The chain of bucket `h` after all entries have been added in index order:
the entries whose name hashes to `h`, most recently added first. -/
def hashChain (infos : List FPakEntry) (n h : Nat) : List Nat :=
  ((List.range n).filter
    (fun i => (infos[i]?.map (fun e => GetHashForFileName e.Name)) == some h)).reverse

/-- A version 4 archive with mount point `"../../../"` and three stored
entries: `"a"` (5 bytes), `"A"` (7 bytes, encrypted) and `"s"` (4294967303
bytes, encrypted). -/
def shadowArchive : List Nat :=
  [10, 0, 0, 0, 46, 46, 47, 46, 46, 47, 46, 46, 47, 0, 3, 0, 0, 0,
   2, 0, 0, 0, 97, 0,
   0, 0, 0, 0, 0, 0, 0, 0, 5, 0, 0, 0, 0, 0, 0, 0, 5, 0, 0, 0, 0, 0, 0, 0, 0, 0, 0, 0, 0, 0, 0,
   0, 0, 0, 0, 0, 0, 0, 0, 0, 0, 0, 0, 0, 0, 0, 0, 0, 0, 0, 0, 0, 0,
   2, 0, 0, 0, 65, 0,
   100, 0, 0, 0, 0, 0, 0, 0, 7, 0, 0, 0, 0, 0, 0, 0, 7, 0, 0, 0, 0, 0, 0, 0, 0, 0, 0, 0, 0, 0, 0,
   0, 0, 0, 0, 0, 0, 0, 0, 0, 0, 0, 0, 0, 0, 0, 0, 0, 1, 0, 0, 0, 0,
   2, 0, 0, 0, 115, 0,
   200, 0, 0, 0, 0, 0, 0, 0, 7, 0, 0, 0, 0, 0, 0, 0, 7, 0, 0, 0, 1, 0, 0, 0, 0, 0, 0, 0, 0, 0, 0,
   0, 0, 0, 0, 0, 0, 0, 0, 0, 0, 0, 0, 0, 0, 0, 0, 0, 1, 0, 0, 0, 0,
   0, 225, 18, 111, 90, 4, 0, 0, 0, 0, 0, 0, 0, 0, 0, 0, 0, 195, 0, 0, 0, 0, 0, 0, 0, 0, 0, 0, 0,
   0, 0, 0, 0, 0, 0, 0, 0, 0, 0, 0, 0, 0, 0, 0, 0]

/-- The archive that `AttachReader` builds from `shadowArchive`. -/
def shadowVFS : FPakVFS :=
  match FPakVFS.AttachReader false FPakVFS.create ⟨shadowArchive, 0, 0⟩ with
  | .ok (_, vfs, _) => vfs
  | .fatal (vfs, _) => vfs

/-! ## The layout of an entry record -/

/-- The bytes of a record field, given its offset from the cursor and its
size. -/
def recordField (Ar : FArchive) (offset size : Nat) : List Nat :=
  (Ar.data.drop (Ar.ArPos.toNat + offset)).take size

/-- The block list of a record: `n` pairs `{compressedStart:8, compressedEnd:8}`
from the offset on. -/
def blocksAt (Ar : FArchive) (offset n : Nat) : List FPakCompressedBlock :=
  (List.range n).map (fun i =>
    ⟨toInt64 (leNat (recordField Ar (offset + 16 * i) 8)),
      toInt64 (leNat (recordField Ar (offset + 16 * i + 8) 8))⟩)

/-- The number of bytes of an entry record in format version `v`:
`48 + (8 if v < 2) + (if v >= 3: 5 + (4 + 16*blockCount if compressionMethod != 0))`. -/
def recordSize (v method : Int) (blockCount : Nat) : Int :=
  48 + (if v < PAK_NO_TIMESTAMPS then 8 else 0) +
    (if v ≥ PAK_COMPRESSION_ENCRYPTION then
      5 + (if method ≠ 0 then 4 + 16 * (blockCount : Int) else 0)
    else 0)

/-- The length of the timestamp of a record under the cursor: 8 bytes below
`PAK_NO_TIMESTAMPS`. -/
def recordStamp (Ar : FArchive) : Nat := if Ar.PakVer < PAK_NO_TIMESTAMPS then 8 else 0

/-- The compression method of the record under the cursor (4 bytes at 24). -/
def recordMethod (Ar : FArchive) : Int := toInt32 (leNat (recordField Ar 24 4))

/-- Whether the record under the cursor has a block list: from
`PAK_COMPRESSION_ENCRYPTION` on, when the compression method is not 0. -/
def recordHasBlocks (Ar : FArchive) : Bool :=
  decide (Ar.PakVer ≥ PAK_COMPRESSION_ENCRYPTION) && decide (recordMethod Ar ≠ 0)

/-- The declared block count of the record under the cursor (4 bytes after the
hash), 0 when the record has no block list. -/
def recordBlockCount (Ar : FArchive) : Int :=
  if recordHasBlocks Ar then toInt32 (leNat (recordField Ar (48 + recordStamp Ar) 4)) else 0

/-- The length of the block list of the record under the cursor, its count
included. -/
def recordBlockBytes (Ar : FArchive) : Nat :=
  if recordHasBlocks Ar then 4 + 16 * (recordBlockCount Ar).toNat else 0

/-- The entry that the layout of the format gives for the record under the
cursor in version `Ar.PakVer`:
`[pos:8][size:8][uncompressedSize:8][compressionMethod:4]`, `[timestamp:8]`
below `PAK_NO_TIMESTAMPS`, `[hash:20]`, and from `PAK_COMPRESSION_ENCRYPTION` on
the block list (for a non-zero method), `[encrypted:1]` and
`[compressionBlockSize:4]`. Fields that the version does not have keep the
value they have in `P`; `tekken7` clears the encryption flag. -/
def recordAt (tekken7 : Bool) (Ar : FArchive) (P : FPakEntry) : FPakEntry :=
  { Name := P.Name
    Pos := toInt64 (leNat (recordField Ar 0 8))
    Size := toInt64 (leNat (recordField Ar 8 8))
    UncompressedSize := toInt64 (leNat (recordField Ar 16 8))
    CompressionMethod := recordMethod Ar
    Hash := recordField Ar (28 + recordStamp Ar) 20
    bEncrypted :=
      if tekken7 then 0
      else if Ar.PakVer ≥ PAK_COMPRESSION_ENCRYPTION then
        leNat (recordField Ar (48 + recordStamp Ar + recordBlockBytes Ar) 1)
      else P.bEncrypted
    CompressionBlocks :=
      if recordHasBlocks Ar then blocksAt Ar (52 + recordStamp Ar) (recordBlockCount Ar).toNat
      else P.CompressionBlocks
    CompressionBlockSize :=
      if Ar.PakVer ≥ PAK_COMPRESSION_ENCRYPTION then
        toInt32 (leNat (recordField Ar (49 + recordStamp Ar + recordBlockBytes Ar) 4))
      else P.CompressionBlockSize
    StructSize :=
      toInt32 (recordSize Ar.PakVer (recordMethod Ar) (recordBlockCount Ar).toNat) }

/-- The first 52 bytes of `hugeRecord`: position, sizes, compression method 1,
hash, and the block count 134217728. -/
def hugeHead : List Nat :=
  [0, 0, 0, 0, 0, 0, 0, 0, 0, 0, 0, 0, 0, 0, 0, 0, 0, 0, 0, 0, 0, 0, 0, 0, 1, 0, 0, 0,
   0, 0, 0, 0, 0, 0, 0, 0, 0, 0, 0, 0, 0, 0, 0, 0, 0, 0, 0, 0, 0, 0, 0, 8]

/-- A version 3 entry record with 134217728 compression blocks: `hugeHead`,
then the blocks, the encryption flag and the block size, all zero bytes. -/
def hugeRecord : List Nat := hugeHead ++ List.replicate 2147483653 0

/-! ## Readers that share one byte source -/

/-- Apply a function to the value of a normal return and another to the state
of a fatal stop. -/
def Outcome.mapBoth {ε α ε' α' : Type} (g : ε → ε') (h : α → α') : Outcome ε α → Outcome ε' α'
  | .ok a => .ok (h a)
  | .fatal e => .fatal (g e)

/-- The byte source without its cursor (put at 0): its content and version. -/
def FArchive.content (Ar : FArchive) : FArchive := Ar.Seek64 0

/-- What a read has produced, with the cursor of the source left out. -/
def ReadResult.forgetCursor (r : ReadResult) : ReadResult :=
  { r with reader := r.reader.content }

/-- The outcome of a read with the cursor of the source left out: the bytes,
the reader, and the content of the source. -/
def forgetCursor (x : Outcome ReadResult ReadResult) : Outcome ReadResult ReadResult :=
  x.mapBoth ReadResult.forgetCursor ReadResult.forgetCursor

/-- A sequence of `Serialize` calls on one reader, with the counts `ns`: the
bytes of each call, the reader and the source at the end; `none` when a call
stops fatally. -/
def FPakFile.readAll (env : Env) :
    FPakFile → FArchive → List Int → Option (List (List Nat) × FPakFile × FArchive)
  | f, Reader, [] => some ([], f, Reader)
  | f, Reader, n :: ns =>
    match f.Serialize env Reader n with
    | .ok res =>
      (match FPakFile.readAll env res.file res.reader ns with
        | some (out, f1, r1) => some (res.data :: out, f1, r1)
        | none => none)
    | .fatal _ => none

/-- An interleaving of the `Serialize` calls of two readers `fa` and `fb` that
share one source: each step names the reader that reads (`true` for `fa`) and
the count. The result holds the bytes of the calls of `fa`, those of `fb`, and
the two readers at the end; `none` when a call stops fatally. -/
def readInterleaved (env : Env) :
    FPakFile → FPakFile → FArchive → List (Bool × Int) →
      Option (List (List Nat) × List (List Nat) × FPakFile × FPakFile)
  | fa, fb, _, [] => some ([], [], fa, fb)
  | fa, fb, Reader, (true, n) :: steps =>
    (match fa.Serialize env Reader n with
      | .ok res =>
        (match readInterleaved env res.file fb res.reader steps with
          | some (a, b, fa1, fb1) => some (res.data :: a, b, fa1, fb1)
          | none => none)
      | .fatal _ => none)
  | fa, fb, Reader, (false, n) :: steps =>
    (match fb.Serialize env Reader n with
      | .ok res =>
        (match readInterleaved env fa res.file res.reader steps with
          | some (a, b, fa1, fb1) => some (a, res.data :: b, fa1, fb1)
          | none => none)
      | .fatal _ => none)

/-- The counts of the calls of one reader in an interleaving. -/
def callsOf (who : Bool) (steps : List (Bool × Int)) : List Int :=
  (steps.filter (fun s => s.1 == who)).map Prod.snd

/-- The results of two readers that each run alone, put side by side. -/
def sideBySide (a b : Option (List (List Nat) × FPakFile × FArchive)) :
    Option (List (List Nat) × List (List Nat) × FPakFile × FPakFile) :=
  match a, b with
  | some (x, fa, _), some (y, fb, _) => some (x, y, fa, fb)
  | _, _ => none

/-- A reader of `storedEntry` at position 1 with the stopper 3. -/
def stoppedReader : FPakFile :=
  { Info := storedEntry, ArPos := 1, ArStopper := 3, UncompressedBuffer := none,
    UncompressedBufferPos := 0 }

/-! ## The iterations of the compressed read loop -/

/-- `BlockIndex = ArPos / Info->CompressionBlockSize` of the loop. -/
def FPakFile.BlockIndex (f : FPakFile) : Int := Int.tdiv f.ArPos f.Info.CompressionBlockSize

/-- `BytesToCopy` of the loop on a reader whose buffer is ready, for the
remaining `size`: the bytes up to the end of the buffer, at most `size`. -/
def FPakFile.BytesToCopy (f : FPakFile) (size : Int) : Int :=
  let BytesToCopy :=
    toInt32 (toInt32 (f.UncompressedBufferPos + f.Info.CompressionBlockSize) - f.ArPos)
  if BytesToCopy > size then size else BytesToCopy

/-- `OffsetInBuffer = ArPos - UncompressedBufferPos` of the loop. -/
def FPakFile.OffsetInBuffer (f : FPakFile) : Int := toInt32 (f.ArPos - f.UncompressedBufferPos)

/-- The states at the head of the `while (size > 0)` loop in the course of one
compressed read that starts with the reader `f0`, the source `R0` and the
count `n0`: the start, and each state that an iteration which returns leaves. -/
inductive InLoop (env : Env) (f0 : FPakFile) (R0 : FArchive) (n0 : Int) :
    FPakFile → FArchive → Int → Prop where
  | start : InLoop env f0 R0 n0 f0 R0 n0
  | next (f : FPakFile) (R : FArchive) (size : Int) (res : ReadResult) (size1 : Int)
      (h : InLoop env f0 R0 n0 f R size) (hs : size > 0)
      (hb : f.loopBody env R size = .ok (res, size1)) :
      InLoop env f0 R0 n0 res.file res.reader size1

/-- Whether the `while (size > 0)` loop ends within `fuel` iterations: it
reaches `size <= 0`, or an iteration stops fatally. -/
def FPakFile.loopEnds (env : Env) : Nat → FPakFile → FArchive → Int → Bool
  | 0, _, _, size => decide (size ≤ 0)
  | fuel + 1, f, Reader, size =>
    if size > 0 then
      match f.loopBody env Reader size with
      | .fatal _ => true
      | .ok (r, size1) => FPakFile.loopEnds env fuel r.file r.reader size1
    else true

/-- The shape of the one-block cache: when the buffer exists it has
`CompressionBlockSize` bytes and starts at a multiple of the block size. -/
def FPakFile.CacheShape (f : FPakFile) : Prop :=
  ∀ buf, f.UncompressedBuffer = some buf →
    (buf.length : Int) = f.Info.CompressionBlockSize ∧
    ∃ k : Nat, f.UncompressedBufferPos = f.Info.CompressionBlockSize * k

/-- The invariant of the compressed read loop of a reader of the entry `E`
with `size` bytes left to read: the position is not negative, the read stays
within the entry, and the cache has its shape. -/
def FPakFile.LoopInv (E : FPakEntry) (f : FPakFile) (size : Int) : Prop :=
  f.Info = E ∧ 0 ≤ f.ArPos ∧ IsInt32 f.UncompressedBufferPos ∧ f.CacheShape ∧
    0 ≤ size ∧ f.ArPos + size ≤ E.UncompressedSize

/-! # Theorems -/

/-! ## Machine integers and the refill step -/

theorem toInt32_eq_self {x : Int} (h1 : -2147483648 ≤ x) (h2 : x ≤ 2147483647) : toInt32 x = x := by
  unfold toInt32; omega

theorem tdiv_block {pos bs : Int} (hpos : 0 ≤ pos) (hbs : 0 < bs) :
    0 ≤ Int.tdiv pos bs ∧ bs * Int.tdiv pos bs ≤ pos ∧ pos < bs * Int.tdiv pos bs + bs := by
  rw [Int.tdiv_eq_ediv hpos (le_of_lt hbs)]
  refine ⟨Int.ediv_nonneg hpos (le_of_lt hbs), ?_, ?_⟩
  · exact Int.mul_ediv_self_le (ne_of_gt hbs)
  · have := Int.lt_ediv_add_one_mul_self pos hbs
    linarith

theorem tdiv_unique {pos bs k : Int} (hbs : 0 < bs) (h1 : bs * k ≤ pos) (h2 : pos < bs * k + bs) (hpos : 0 ≤ pos):
    Int.tdiv pos bs = k := by
  rw [Int.tdiv_eq_ediv hpos (le_of_lt hbs)]
  have e1 := Int.mul_ediv_self_le (x := pos) (ne_of_gt hbs)
  have e2 := Int.lt_ediv_add_one_mul_self pos hbs
  have : bs * (pos / bs) < bs * (k + 1) := by linarith
  have a1 := lt_of_mul_lt_mul_left this (le_of_lt hbs)
  have : bs * k < bs * (pos / bs + 1) := by linarith
  have a2 := lt_of_mul_lt_mul_left this (le_of_lt hbs)
  omega

theorem decompress_length {env : Env} {c : List Nat} {n m : Int} {out : List Nat}
    (h : env.decompress c n m = some out) : (out.length : Int) = n := by
  unfold Env.decompress at h
  split at h
  · split at h
    · cases h; assumption
    · cases h
  · cases h

theorem fetchBlock_ok {env : Env} {f f1 : FPakFile} {r r1 : FArchive}
    (h : f.fetchBlock env r = .ok (f1, r1)) :
    ∃ B c out,
      f.Info.CompressionBlockSize ≠ 0 ∧
      0 ≤ Int.tdiv f.ArPos f.Info.CompressionBlockSize ∧
      f.Info.CompressionBlocks[(Int.tdiv f.ArPos f.Info.CompressionBlockSize).toNat]? = some B ∧
      (r.Seek64 B.CompressedStart).Serialize (toInt32 (B.CompressedEnd - B.CompressedStart))
        = .ok (c, r1) ∧
      env.decompress c
        (min f.Info.CompressionBlockSize
          (toInt32 (toInt32 f.Info.UncompressedSize -
            toInt32 (f.Info.CompressionBlockSize * Int.tdiv f.ArPos f.Info.CompressionBlockSize))))
        f.Info.CompressionMethod = some out ∧
      f1 = { f with
        UncompressedBuffer := some (writePrefix out
          (f.UncompressedBuffer.getD (env.appMalloc f.Info.CompressionBlockSize))),
        UncompressedBufferPos :=
          toInt32 (f.Info.CompressionBlockSize * Int.tdiv f.ArPos f.Info.CompressionBlockSize) } := by
  unfold FPakFile.fetchBlock at h
  simp only at h
  split at h
  · cases h
  · split at h
    · cases h
    · split at h
      · cases h
      · rename_i B hB
        split at h
        · cases h
        · rename_i c r' hr
          split at h
          · cases h
          · rename_i out hout
            simp only [Outcome.ok.injEq, Prod.mk.injEq] at h
            obtain ⟨h1, h2⟩ := h
            subst h2
            refine ⟨B, c, out, ‹_›, by omega, hB, hr, hout, h1.symm⟩

theorem fetchBlock_of (env : Env) (f : FPakFile) (r r1 : FArchive) (B : FPakCompressedBlock)
    (c out : List Nat)
    (hbs : f.Info.CompressionBlockSize ≠ 0)
    (hk : 0 ≤ Int.tdiv f.ArPos f.Info.CompressionBlockSize)
    (hB : f.Info.CompressionBlocks[(Int.tdiv f.ArPos f.Info.CompressionBlockSize).toNat]? = some B)
    (hr : (r.Seek64 B.CompressedStart).Serialize (toInt32 (B.CompressedEnd - B.CompressedStart))
        = .ok (c, r1))
    (hd : env.decompress c
        (min f.Info.CompressionBlockSize
          (toInt32 (toInt32 f.Info.UncompressedSize -
            toInt32 (f.Info.CompressionBlockSize * Int.tdiv f.ArPos f.Info.CompressionBlockSize))))
        f.Info.CompressionMethod = some out) :
    f.fetchBlock env r = .ok ({ f with
        UncompressedBuffer := some (writePrefix out
          (f.UncompressedBuffer.getD (env.appMalloc f.Info.CompressionBlockSize))),
        UncompressedBufferPos :=
          toInt32 (f.Info.CompressionBlockSize * Int.tdiv f.ArPos f.Info.CompressionBlockSize) },
      r1) := by
  unfold FPakFile.fetchBlock
  simp only [hbs, if_false, not_lt.mpr hk, hB, hr, hd]

theorem source_Serialize_ok {Ar Ar1 : FArchive} {n : Int} {c : List Nat}
    (h : Ar.Serialize n = .ok (c, Ar1)) :
    0 ≤ Ar.ArPos ∧ 0 ≤ n ∧ Ar.ArPos + n ≤ Ar.data.length ∧
    c = (Ar.data.drop Ar.ArPos.toNat).take n.toNat ∧ Ar1 = { Ar with ArPos := Ar.ArPos + n } := by
  unfold FArchive.Serialize at h
  split at h
  · rename_i hc
    simp only [Outcome.ok.injEq, Prod.mk.injEq] at h
    exact ⟨hc.1, hc.2.1, hc.2.2, h.1.symm, h.2.symm⟩
  · cases h

theorem ready_range {f : FPakFile} (hbs : 0 < f.Info.CompressionBlockSize)
    (hbs' : f.Info.CompressionBlockSize ≤ 2147483647)
    (hbp : IsInt32 f.UncompressedBufferPos) (hpos : 0 ≤ f.ArPos)
    (h : f.bufferNotReady = false) :
    (∃ buf, f.UncompressedBuffer = some buf) ∧ f.UncompressedBufferPos ≤ f.ArPos ∧
      f.ArPos < f.UncompressedBufferPos + f.Info.CompressionBlockSize ∧
      f.UncompressedBufferPos + f.Info.CompressionBlockSize ≤ 2147483647 := by
  unfold FPakFile.bufferNotReady at h
  simp only [Bool.or_eq_false_iff, decide_eq_false_iff_not, not_lt, ge_iff_le, not_le,
    Option.isNone_eq_false_iff, Option.isSome_iff_exists] at h
  obtain ⟨⟨h1, h2⟩, h3⟩ := h
  refine ⟨h1, h2, ?_⟩
  unfold IsInt32 at hbp
  unfold toInt32 at h3
  omega

theorem prepareBuffer_ok {env : Env} {f f1 : FPakFile} {r r1 : FArchive}
    (hbs : 0 < f.Info.CompressionBlockSize) (hbs' : f.Info.CompressionBlockSize ≤ 2147483647)
    (hbp : IsInt32 f.UncompressedBufferPos) (hpos : 0 ≤ f.ArPos) (hpos' : f.ArPos ≤ 2147483647)
    (h : f.prepareBuffer env r = .ok (f1, r1)) :
    f1.Info = f.Info ∧ f1.ArPos = f.ArPos ∧ f1.ArStopper = f.ArStopper ∧
    (∃ buf, f1.UncompressedBuffer = some buf) ∧ IsInt32 f1.UncompressedBufferPos ∧
    f1.UncompressedBufferPos ≤ f.ArPos ∧
    f.ArPos < f1.UncompressedBufferPos + f.Info.CompressionBlockSize ∧
    r1.data = r.data ∧ r1.ArLicenseeVer = r.ArLicenseeVer := by
  unfold FPakFile.prepareBuffer at h
  split at h
  · obtain ⟨B, c, out, -, -, -, hr, -, hf1⟩ := fetchBlock_ok h
    obtain ⟨k0, k1, k2⟩ := tdiv_block hpos hbs
    have hw : toInt32 (f.Info.CompressionBlockSize * Int.tdiv f.ArPos f.Info.CompressionBlockSize)
        = f.Info.CompressionBlockSize * Int.tdiv f.ArPos f.Info.CompressionBlockSize := by
      apply toInt32_eq_self
      · have := mul_nonneg (le_of_lt hbs) k0; omega
      · omega
    obtain ⟨-, -, -, -, hr1⟩ := source_Serialize_ok hr
    subst hf1 hr1
    refine ⟨rfl, rfl, rfl, ⟨_, rfl⟩, ?_, ?_, ?_, rfl, rfl⟩
    · show IsInt32 (toInt32 _)
      rw [hw]
      unfold IsInt32
      have := mul_nonneg (le_of_lt hbs) k0
      omega
    · show toInt32 _ ≤ _
      rw [hw]; exact k1
    · show _ < toInt32 _ + _
      rw [hw]; exact k2
  · rename_i hready
    simp only [Outcome.ok.injEq, Prod.mk.injEq] at h
    obtain ⟨h1, h2⟩ := h
    subst h1 h2
    have := ready_range hbs hbs' hbp hpos (by simpa using hready)
    exact ⟨rfl, rfl, rfl, this.1, hbp, this.2.1, this.2.2.1, rfl, rfl⟩

theorem writePrefix_idem (out buf : List Nat) :
    writePrefix out (writePrefix out buf) = writePrefix out buf := by
  unfold writePrefix
  simp

theorem prepareBuffer_again {env : Env} {f f1 : FPakFile} {r r1 : FArchive}
    (hbs : 0 < f.Info.CompressionBlockSize) (hbs' : f.Info.CompressionBlockSize ≤ 2147483647)
    (hbp : IsInt32 f.UncompressedBufferPos) (hpos : 0 ≤ f.ArPos) (hpos' : f.ArPos ≤ 2147483647)
    (h : f.prepareBuffer env r = .ok (f1, r1)) (pos' : Int)
    (h1 : f1.UncompressedBufferPos ≤ pos')
    (h2 : pos' < f1.UncompressedBufferPos + f.Info.CompressionBlockSize)
    (h4 : 0 ≤ pos') :
    ({ f1 with ArPos := pos' } : FPakFile).prepareBuffer env r1
      = .ok ({ f1 with ArPos := pos' }, r1) := by
  unfold FPakFile.prepareBuffer at h
  split at h
  · -- the block was fetched
    obtain ⟨B, c, out, hb0, hk, hB, hr, hd, hf1⟩ := fetchBlock_ok h
    obtain ⟨k0, k1, k2⟩ := tdiv_block hpos hbs
    have hw : toInt32 (f.Info.CompressionBlockSize * Int.tdiv f.ArPos f.Info.CompressionBlockSize)
        = f.Info.CompressionBlockSize * Int.tdiv f.ArPos f.Info.CompressionBlockSize := by
      apply toInt32_eq_self
      · have := mul_nonneg (le_of_lt hbs) k0; omega
      · omega
    obtain ⟨s1, s2, s3, s4, hr1⟩ := source_Serialize_ok hr
    subst hf1
    simp only [hw] at h1 h2
    rw [hw] at hd
    have hkk : Int.tdiv pos' f.Info.CompressionBlockSize
        = Int.tdiv f.ArPos f.Info.CompressionBlockSize := tdiv_unique hbs h1 h2 h4
    unfold FPakFile.prepareBuffer
    split
    · have hr' : (r1.Seek64 B.CompressedStart).Serialize
          (toInt32 (B.CompressedEnd - B.CompressedStart)) = .ok (c, r1) := by
        rw [← hr]
        subst hr1
        simp only [FArchive.Seek64]
      have key := fetchBlock_of env
        { f with
          UncompressedBuffer := some (writePrefix out
            (f.UncompressedBuffer.getD (env.appMalloc f.Info.CompressionBlockSize))),
          UncompressedBufferPos :=
            toInt32 (f.Info.CompressionBlockSize * Int.tdiv f.ArPos f.Info.CompressionBlockSize),
          ArPos := pos' }
        r1 r1 B c out (ne_of_gt hbs)
        (by simp only [hkk]; exact hk) (by simp only [hkk]; exact hB) hr'
        (by simp only [hkk, hw]; exact hd)
      rw [key]
      simp only [hkk, hw, Option.getD_some, writePrefix_idem]
    · rfl
  · rename_i hready
    simp only [Outcome.ok.injEq, Prod.mk.injEq] at h
    obtain ⟨e1, e2⟩ := h
    subst e1 e2
    have hr := ready_range hbs hbs' hbp hpos (by simpa using hready)
    unfold FPakFile.prepareBuffer
    have : ({ f with ArPos := pos' } : FPakFile).bufferNotReady = false := by
      unfold FPakFile.bufferNotReady
      obtain ⟨⟨buf, hbuf⟩, -, -, hr4⟩ := hr
      simp only [hbuf, Option.isNone_some, Bool.false_or, Bool.or_eq_false_iff,
        decide_eq_false_iff_not, not_lt, ge_iff_le, not_le]
      refine ⟨h1, ?_⟩
      unfold IsInt32 at hbp
      unfold toInt32
      omega
    simp only [this, Bool.false_eq_true, if_false]

/-! ## One iteration of the compressed read loop -/

@[simp] theorem prepend_ok (a : List Nat) (r : ReadResult) :
    ReadResult.prepend a (.ok r) = .ok { r with data := a ++ r.data } := rfl

@[simp] theorem prepend_fatal (a : List Nat) (r : ReadResult) :
    ReadResult.prepend a (.fatal r) = .fatal { r with data := a ++ r.data } := rfl

@[simp] theorem andThen_ok (r1 : ReadResult)
    (next : FPakFile → FArchive → Outcome ReadResult ReadResult) :
    ReadResult.andThen (.ok r1) next = ReadResult.prepend r1.data (next r1.file r1.reader) := rfl

@[simp] theorem andThen_fatal (x : ReadResult)
    (next : FPakFile → FArchive → Outcome ReadResult ReadResult) :
    ReadResult.andThen (.fatal x) next = .fatal x := rfl

theorem prepend_nil (x : Outcome ReadResult ReadResult) : ReadResult.prepend [] x = x := by
  cases x <;> rfl

theorem prepend_prepend (a b : List Nat) (x : Outcome ReadResult ReadResult) :
    ReadResult.prepend a (ReadResult.prepend b x) = ReadResult.prepend (a ++ b) x := by
  cases x <;> simp [ReadResult.prepend, List.append_assoc]

theorem loopBody_fatal {env : Env} {f : FPakFile} {r : FArchive} {x : FPakFile × FArchive}
    (size : Int) (h : f.prepareBuffer env r = .fatal x) :
    f.loopBody env r size = .fatal ⟨[], x.1, x.2⟩ := by
  unfold FPakFile.loopBody
  rw [h]

/-- One iteration in closed form: after a successful refill step the loop
copies `min (bufPos + bs - pos) size` bytes from offset `pos - bufPos`. -/
theorem loopBody_eq {env : Env} {f f1 : FPakFile} {r r1 : FArchive} {size : Int}
    (hbs : 0 < f.Info.CompressionBlockSize) (hbs' : f.Info.CompressionBlockSize ≤ 2147483647)
    (hbp : IsInt32 f.UncompressedBufferPos) (hpos : 0 ≤ f.ArPos)
    (hsize : 0 < size) (hend : f.ArPos + size ≤ 2147483647)
    (h : f.prepareBuffer env r = .ok (f1, r1)) :
    f.loopBody env r size =
      match memcpyFrom (f1.UncompressedBuffer.getD []) (f.ArPos - f1.UncompressedBufferPos)
          (min (f1.UncompressedBufferPos + f.Info.CompressionBlockSize - f.ArPos) size) with
      | none => .fatal ⟨[], f1, r1⟩
      | some bytes =>
        .ok (⟨bytes, { f1 with ArPos := (f.ArPos +
            min (f1.UncompressedBufferPos + f.Info.CompressionBlockSize - f.ArPos) size) }, r1⟩,
          size - min (f1.UncompressedBufferPos + f.Info.CompressionBlockSize - f.ArPos) size) := by
  obtain ⟨e1, e2, -, -, ⟨b1, b2⟩, h1, h2, -, -⟩ := prepareBuffer_ok hbs hbs' hbp hpos (by omega) h
  have hR : toInt32 (toInt32 (f1.UncompressedBufferPos + f.Info.CompressionBlockSize) - f.ArPos)
      = f1.UncompressedBufferPos + f.Info.CompressionBlockSize - f.ArPos := by
    unfold toInt32; omega
  have hO : toInt32 (f.ArPos - f1.UncompressedBufferPos) = f.ArPos - f1.UncompressedBufferPos := by
    unfold toInt32; omega
  have hc : (if f1.UncompressedBufferPos + f.Info.CompressionBlockSize - f.ArPos > size then size
      else f1.UncompressedBufferPos + f.Info.CompressionBlockSize - f.ArPos)
      = min (f1.UncompressedBufferPos + f.Info.CompressionBlockSize - f.ArPos) size := by
    split <;> omega
  have hpos' : 0 < min (f1.UncompressedBufferPos + f.Info.CompressionBlockSize - f.ArPos) size := by
    omega
  have hA : toInt32 (f.ArPos +
      min (f1.UncompressedBufferPos + f.Info.CompressionBlockSize - f.ArPos) size)
      = f.ArPos + min (f1.UncompressedBufferPos + f.Info.CompressionBlockSize - f.ArPos) size := by
    unfold toInt32; omega
  have hS : toInt32 (size -
      min (f1.UncompressedBufferPos + f.Info.CompressionBlockSize - f.ArPos) size)
      = size - min (f1.UncompressedBufferPos + f.Info.CompressionBlockSize - f.ArPos) size := by
    unfold toInt32; omega
  unfold FPakFile.loopBody
  rw [h]
  obtain ⟨I, P, S, B, BP⟩ := f1
  simp only at e1 e2 hR hO hc hpos' hA hS ⊢
  subst e1 e2
  rw [hR, hO, hc, hA, hS]
  simp only [gt_iff_lt, hpos', if_true]

/-! ## The loop and its fuel -/

theorem loopBody_size_lt {env : Env} {f : FPakFile} {r : FArchive} {size size' : Int}
    {res : ReadResult} (hsize : 0 < size) (hmax : size ≤ 2147483647)
    (h : f.loopBody env r size = .ok (res, size')) : 0 ≤ size' ∧ size' < size := by
  unfold FPakFile.loopBody at h
  cases hp : f.prepareBuffer env r with
  | fatal x => rw [hp] at h; cases h
  | ok p =>
    obtain ⟨f1, r1⟩ := p
    rw [hp] at h
    simp only at h
    generalize toInt32 (toInt32 (f1.UncompressedBufferPos + f1.Info.CompressionBlockSize)
      - f1.ArPos) = R at h
    by_cases hR : R > size
    · simp only [hR, if_true, gt_iff_lt, hsize] at h
      split at h
      · cases h
      · simp only [Outcome.ok.injEq, Prod.mk.injEq] at h
        obtain ⟨-, h⟩ := h
        subst h
        unfold toInt32
        omega
    · simp only [hR, if_false] at h
      by_cases hR0 : R > 0
      · simp only [hR0, if_true] at h
        split at h
        · cases h
        · simp only [Outcome.ok.injEq, Prod.mk.injEq] at h
          obtain ⟨-, h⟩ := h
          subst h
          unfold toInt32
          omega
      · simp only [hR0, if_false] at h
        cases h

theorem SerializeCompressed_nonpos (env : Env) (fuel : Nat) (f : FPakFile) (r : FArchive)
    {size : Int} (h : size ≤ 0) : f.SerializeCompressed env fuel r size = .ok ⟨[], f, r⟩ := by
  cases fuel <;> simp [FPakFile.SerializeCompressed, not_lt.mpr h]

/-- The result of the loop does not depend on the fuel once the fuel covers
`size`: the loop never stops for lack of fuel. -/
theorem SerializeCompressed_fuel (env : Env) :
    ∀ (fuel1 fuel2 : Nat) (f : FPakFile) (r : FArchive) (size : Int),
      size ≤ 2147483647 → size.toNat ≤ fuel1 → size.toNat ≤ fuel2 →
      f.SerializeCompressed env fuel1 r size = f.SerializeCompressed env fuel2 r size := by
  intro fuel1
  induction fuel1 with
  | zero =>
    intro fuel2 f r size _ h1 _
    have : size ≤ 0 := by omega
    rw [SerializeCompressed_nonpos env _ f r this, SerializeCompressed_nonpos env _ f r this]
  | succ n ih =>
    intro fuel2 f r size hmax h1 h2
    by_cases hs : size ≤ 0
    · rw [SerializeCompressed_nonpos env _ f r hs, SerializeCompressed_nonpos env _ f r hs]
    · have hs' : 0 < size := by omega
      obtain ⟨m, rfl⟩ : ∃ m, fuel2 = m + 1 := ⟨fuel2 - 1, by omega⟩
      simp only [FPakFile.SerializeCompressed, gt_iff_lt, hs', if_true]
      cases hb : f.loopBody env r size with
      | fatal x => rfl
      | ok p =>
        obtain ⟨res, size'⟩ := p
        have := loopBody_size_lt hs' hmax hb
        simp only
        rw [ih m res.file res.reader size' (by omega) (by omega) (by omega)]

/-- Unfolding of the loop by one iteration, with the fuel normalised. -/
theorem SerializeCompressed_step (env : Env) {fuel : Nat} (f : FPakFile) (r : FArchive)
    {size : Int} (hs : 0 < size) (hmax : size ≤ 2147483647) (hf : size.toNat ≤ fuel) :
    f.SerializeCompressed env fuel r size =
      match f.loopBody env r size with
      | .fatal x => .fatal x
      | .ok (res, size') =>
        ReadResult.prepend res.data
          (res.file.SerializeCompressed env size'.toNat res.reader size') := by
  obtain ⟨m, rfl⟩ : ∃ m, fuel = m + 1 := ⟨fuel - 1, by omega⟩
  simp only [FPakFile.SerializeCompressed, gt_iff_lt, hs, if_true]
  cases hb : f.loopBody env r size with
  | fatal x => rfl
  | ok p =>
    obtain ⟨res, size'⟩ := p
    have := loopBody_size_lt hs hmax hb
    simp only
    rw [SerializeCompressed_fuel env m size'.toNat res.file res.reader size' (by omega) (by omega)
      (le_refl _)]

theorem toOption_prepend_congr (a : List Nat) {x y : Outcome ReadResult ReadResult}
    (h : x.toOption = y.toOption) :
    (ReadResult.prepend a x).toOption = (ReadResult.prepend a y).toOption := by
  cases x <;> cases y <;> simp_all [ReadResult.prepend, Outcome.toOption]

theorem memcpyFrom_none_mono {buf : List Nat} {off x y : Int} (hx : 0 ≤ x) (hxy : x ≤ y)
    (h : memcpyFrom buf off x = none) : memcpyFrom buf off y = none := by
  unfold memcpyFrom at h ⊢
  split at h
  · cases h
  · rw [if_neg]; omega

theorem memcpyFrom_add {buf : List Nat} {off x y : Int} (hoff : 0 ≤ off) (hx : 0 ≤ x) (hy : 0 ≤ y) :
    memcpyFrom buf off (x + y) =
      match memcpyFrom buf off x, memcpyFrom buf (off + x) y with
      | some p, some q => some (p ++ q)
      | _, _ => none := by
  unfold memcpyFrom
  by_cases h : off + (x + y) ≤ buf.length
  · have h1 : 0 ≤ off ∧ 0 ≤ x + y ∧ off + (x + y) ≤ buf.length := ⟨hoff, by omega, h⟩
    have h2 : 0 ≤ off ∧ 0 ≤ x ∧ off + x ≤ buf.length := ⟨hoff, hx, by omega⟩
    have h3 : 0 ≤ off + x ∧ 0 ≤ y ∧ off + x + y ≤ buf.length := ⟨by omega, hy, by omega⟩
    rw [if_pos h1, if_pos h2, if_pos h3]
    simp only [Option.some.injEq]
    have e1 : (x + y).toNat = x.toNat + y.toNat := by omega
    have e2 : (off + x).toNat = off.toNat + x.toNat := by omega
    rw [e1, e2, List.take_add, List.drop_drop]
  · have h1 : ¬ (0 ≤ off ∧ 0 ≤ x + y ∧ off + (x + y) ≤ buf.length) := by omega
    rw [if_neg h1]
    by_cases h2 : off + x ≤ buf.length
    · have h3 : ¬ (0 ≤ off + x ∧ 0 ≤ y ∧ off + x + y ≤ buf.length) := by omega
      rw [if_neg h3]
      split <;> simp_all
    · have h3 : ¬ (0 ≤ off ∧ 0 ≤ x ∧ off + x ≤ buf.length) := by omega
      rw [if_neg h3]

/-- Splitting the loop: running it for `a + b` bytes gives, up to the point
where a fatal stop occurs, the same as running it for `a` and then for `b`. -/
theorem SerializeCompressed_split (env : Env) :
    ∀ (n : Nat) (f : FPakFile) (r : FArchive) (a b : Int), a.toNat ≤ n →
      0 < f.Info.CompressionBlockSize → f.Info.CompressionBlockSize ≤ 2147483647 →
      IsInt32 f.UncompressedBufferPos → 0 ≤ f.ArPos → 0 ≤ a → 0 ≤ b →
      f.ArPos + a + b ≤ 2147483647 →
      (f.SerializeCompressed env (a + b).toNat r (a + b)).toOption =
        (ReadResult.andThen (f.SerializeCompressed env a.toNat r a)
          (fun f1 r1 => f1.SerializeCompressed env b.toNat r1 b)).toOption := by
  intro n
  induction n with
  | zero =>
    intro f r a b hn _ _ _ _ ha _ _
    have ha0 : a = 0 := by omega
    subst ha0
    simp only [Int.toNat_zero, zero_add, FPakFile.SerializeCompressed, gt_iff_lt, lt_self_iff_false,
      if_false, andThen_ok, prepend_nil]
  | succ n ih =>
    intro f r a b hn hbs hbs' hbp hpos ha hb hend
    by_cases ha0 : a = 0
    · subst ha0
      simp only [Int.toNat_zero, zero_add, FPakFile.SerializeCompressed, gt_iff_lt,
        lt_self_iff_false, if_false, andThen_ok, prepend_nil]
    have ha1 : 0 < a := by omega
    rw [SerializeCompressed_step env f r (by omega : 0 < a + b) (by omega) (le_refl _),
      SerializeCompressed_step env f r ha1 (by omega) (le_refl _)]
    cases hp : f.prepareBuffer env r with
    | fatal x =>
      rw [loopBody_fatal _ hp, loopBody_fatal _ hp]
      rfl
    | ok p =>
      obtain ⟨f1, r1⟩ := p
      obtain ⟨e1, e2, e3, -, hbp1, h1, h2, -, -⟩ :=
        prepareBuffer_ok hbs hbs' hbp hpos (by omega) hp
      rw [loopBody_eq hbs hbs' hbp hpos (by omega : 0 < a + b) (by omega) hp,
        loopBody_eq hbs hbs' hbp hpos ha1 (by omega) hp]
      obtain ⟨R, hR⟩ : ∃ R, R = f1.UncompressedBufferPos + f.Info.CompressionBlockSize - f.ArPos :=
        ⟨_, rfl⟩
      obtain ⟨off, hoff⟩ : ∃ off, off = f.ArPos - f1.UncompressedBufferPos := ⟨_, rfl⟩
      rw [← hR, ← hoff]
      by_cases hRa : R ≤ a
      · -- the first read goes on past this block
        rw [min_eq_left (by omega : R ≤ a + b), min_eq_left hRa]
        cases hm : memcpyFrom (f1.UncompressedBuffer.getD []) off R with
        | none => rfl
        | some bytes =>
          simp only
          have key := ih { f1 with ArPos := f.ArPos + R } r1 (a - R) b (by omega)
            (by simpa [e1] using hbs) (by simpa [e1] using hbs') hbp1
            (by show 0 ≤ f.ArPos + R; omega) (by omega) hb (by show f.ArPos + R + (a - R) + b ≤ _; omega)
          have e : a + b - R = a - R + b := by omega
          rw [e]
          cases hx : ({ f1 with ArPos := f.ArPos + R } : FPakFile).SerializeCompressed env
              (a - R).toNat r1 (a - R) with
          | fatal x =>
            rw [hx] at key
            simp only [prepend_fatal, andThen_fatal] at key ⊢
            revert key
            generalize ({ f1 with ArPos := f.ArPos + R } : FPakFile).SerializeCompressed env
              (a - R + b).toNat r1 (a - R + b) = X
            intro key
            cases X <;> simp_all [Outcome.toOption]
          | ok r2 =>
            rw [hx] at key
            simp only [prepend_ok, andThen_ok] at key ⊢
            rw [← prepend_prepend]
            exact toOption_prepend_congr bytes key
      · -- the first read ends inside this block
        have hRa' : a < R := by omega
        have hmin1 : min R a = a := min_eq_right (by omega)
        have hmin2 : min R (a + b) = a + min (R - a) b := by omega
        rw [hmin1, hmin2]
        have hc0 : 0 ≤ min (R - a) b := by omega
        have hoff0 : 0 ≤ off := by omega
        rw [memcpyFrom_add hoff0 ha hc0]
        cases hm : memcpyFrom (f1.UncompressedBuffer.getD []) off a with
        | none => rfl
        | some bytesA =>
          simp only [sub_self, Int.toNat_zero, FPakFile.SerializeCompressed, gt_iff_lt,
            lt_self_iff_false, if_false, prepend_ok, andThen_ok, List.append_nil]
          by_cases hb0 : b = 0
          · subst hb0
            have : min (R - a) 0 = 0 := by omega
            simp only [this, add_zero, sub_self, Int.toNat_zero, FPakFile.SerializeCompressed,
              gt_iff_lt, lt_self_iff_false, if_false, prepend_ok, List.append_nil]
            have hm0 : memcpyFrom (f1.UncompressedBuffer.getD []) (off + a) 0 = some [] := by
              unfold memcpyFrom at hm ⊢
              split at hm
              · rw [if_pos (by omega)]; simp
              · cases hm
            rw [hm0]
            simp only [List.append_nil]
            rw [SerializeCompressed_nonpos env _ _ _ (le_refl 0)]
            simp only [List.append_nil, prepend_ok]
          · have hb1 : 0 < b := by omega
            have hagain := prepareBuffer_again hbs hbs' hbp hpos (by omega) hp (f.ArPos + a)
              (by omega) (by omega) (by omega)
            rw [SerializeCompressed_step env _ r1 hb1 (by omega) (le_refl _)]
            have hbs1 : 0 < f1.Info.CompressionBlockSize := by rw [e1]; exact hbs
            have hbs1' : f1.Info.CompressionBlockSize ≤ 2147483647 := by rw [e1]; exact hbs'
            rw [loopBody_eq (f := { f1 with ArPos := f.ArPos + a }) hbs1 hbs1'
              hbp1 (by show 0 ≤ f.ArPos + a; omega) hb1 (by show f.ArPos + a + b ≤ _; omega) hagain]
            simp only [e1]
            have e4 : f.ArPos + a - f1.UncompressedBufferPos = off + a := by omega
            have e5 : f1.UncompressedBufferPos + f.Info.CompressionBlockSize - (f.ArPos + a)
                = R - a := by omega
            rw [e4, e5]
            cases hm2 : memcpyFrom (f1.UncompressedBuffer.getD []) (off + a) (min (R - a) b) with
            | none => rfl
            | some bytesC =>
              simp only
              have e6 : a + b - (a + min (R - a) b) = b - min (R - a) b := by omega
              have e7 : f.ArPos + (a + min (R - a) b) = f.ArPos + a + min (R - a) b := by omega
              rw [e6, e7, prepend_prepend]

theorem memcpyFrom_length {buf : List Nat} {off c : Int} {bytes : List Nat}
    (h : memcpyFrom buf off c = some bytes) : (bytes.length : Int) = c := by
  unfold memcpyFrom at h
  split at h
  · rename_i hc
    simp only [Option.some.injEq] at h
    subst h
    simp only [List.length_take, List.length_drop]
    omega
  · cases h

/-- State after a successful run of the loop. -/
theorem SerializeCompressed_ok_state (env : Env) :
    ∀ (fuel : Nat) (f : FPakFile) (r : FArchive) (size : Int) (res : ReadResult),
      size.toNat ≤ fuel → 0 < f.Info.CompressionBlockSize →
      f.Info.CompressionBlockSize ≤ 2147483647 → IsInt32 f.UncompressedBufferPos →
      0 ≤ f.ArPos → 0 ≤ size → f.ArPos + size ≤ 2147483647 →
      f.SerializeCompressed env fuel r size = .ok res →
      res.file.Info = f.Info ∧ res.file.ArStopper = f.ArStopper ∧
      res.file.ArPos = f.ArPos + size ∧ (res.data.length : Int) = size ∧
      res.reader.data = r.data ∧ res.reader.ArLicenseeVer = r.ArLicenseeVer ∧
      IsInt32 res.file.UncompressedBufferPos := by
  intro fuel
  induction fuel with
  | zero =>
    intro f r size res hf _ _ hbp _ hs _ h
    have : size ≤ 0 := by omega
    rw [SerializeCompressed_nonpos env _ f r this] at h
    cases h
    refine ⟨rfl, rfl, ?_, ?_, rfl, rfl, hbp⟩
    · show f.ArPos = f.ArPos + size; omega
    · show ((0 : Nat) : Int) = size; omega
  | succ n ih =>
    intro f r size res hf hbs hbs' hbp hpos hs hend h
    by_cases hs0 : size ≤ 0
    · rw [SerializeCompressed_nonpos env _ f r hs0] at h
      cases h
      refine ⟨rfl, rfl, ?_, ?_, rfl, rfl, hbp⟩
      · show f.ArPos = f.ArPos + size; omega
      · show ((0 : Nat) : Int) = size; omega
    · have hs1 : 0 < size := by omega
      rw [SerializeCompressed_step env f r hs1 (by omega) hf] at h
      cases hp : f.prepareBuffer env r with
      | fatal x =>
        rw [loopBody_fatal _ hp] at h
        cases h
      | ok p =>
        obtain ⟨f1, r1⟩ := p
        obtain ⟨e1, e2, e3, -, hbp1, h1, h2, e4, e5⟩ :=
          prepareBuffer_ok hbs hbs' hbp hpos (by omega) hp
        rw [loopBody_eq hbs hbs' hbp hpos hs1 hend hp] at h
        cases hm : memcpyFrom (f1.UncompressedBuffer.getD [])
            (f.ArPos - f1.UncompressedBufferPos)
            (min (f1.UncompressedBufferPos + f.Info.CompressionBlockSize - f.ArPos) size) with
        | none => rw [hm] at h; cases h
        | some bytes =>
          rw [hm] at h
          simp only at h
          obtain ⟨c, hc⟩ : ∃ c, c =
            min (f1.UncompressedBufferPos + f.Info.CompressionBlockSize - f.ArPos) size := ⟨_, rfl⟩
          rw [← hc] at h hm
          have hlen := memcpyFrom_length hm
          cases hx : ({ f1 with ArPos := f.ArPos + c } : FPakFile).SerializeCompressed env
              (size - c).toNat r1 (size - c) with
          | fatal x => rw [hx] at h; cases h
          | ok r2 =>
            rw [hx] at h
            simp only [prepend_ok, Outcome.ok.injEq] at h
            subst h
            obtain ⟨g1, g2, g3, g4, g5, g6, g7⟩ := ih { f1 with ArPos := f.ArPos + c } r1 (size - c)
              r2 (by omega) (by rw [e1]; exact hbs) (by rw [e1]; exact hbs') hbp1
              (by show 0 ≤ f.ArPos + c; omega) (by omega)
              (by show f.ArPos + c + (size - c) ≤ _; omega)
              ((SerializeCompressed_fuel env n (size - c).toNat _ _ _ (by omega) (by omega)
                (le_refl _)).trans hx)
            simp only at g1 g2 g3
            refine ⟨by rw [g1, e1], by rw [g2, e3], by rw [g3]; omega, ?_, by rw [g5, e4],
              by rw [g6, e5], g7⟩
            simp only [List.length_append, Nat.cast_add]
            omega

/-! ## Reads of a compressed entry -/

theorem Serialize_compressed_eq (env : Env) (f : FPakFile) (r : FArchive) (size : Int)
    (hm : f.Info.CompressionMethod ≠ 0)
    (hst : ¬ (f.ArStopper > 0 ∧ toInt32 (f.ArPos + size) > f.ArStopper)) :
    f.Serialize env r size = f.SerializeCompressed env size.toNat r size := by
  unfold FPakFile.Serialize
  rw [if_neg hst, if_pos hm]

theorem Serialize_stopper (env : Env) (f : FPakFile) (r : FArchive) (size : Int)
    (hst : f.ArStopper > 0 ∧ toInt32 (f.ArPos + size) > f.ArStopper) :
    f.Serialize env r size = .fatal ⟨[], f, r⟩ := by
  unfold FPakFile.Serialize
  rw [if_pos hst]

theorem toOption_andThen_none {x : Outcome ReadResult ReadResult}
    {next : FPakFile → FArchive → Outcome ReadResult ReadResult}
    (h : ∀ res, x = .ok res → (next res.file res.reader).toOption = none) :
    (ReadResult.andThen x next).toOption = none := by
  cases x with
  | fatal e => rfl
  | ok res =>
    have := h res rfl
    simp only [andThen_ok]
    cases hn : next res.file res.reader with
    | ok y => rw [hn] at this; cases this
    | fatal y => rfl

theorem toOption_andThen_congr {x : Outcome ReadResult ReadResult}
    {n1 n2 : FPakFile → FArchive → Outcome ReadResult ReadResult}
    (h : ∀ res, x = .ok res → n1 res.file res.reader = n2 res.file res.reader) :
    ReadResult.andThen x n1 = ReadResult.andThen x n2 := by
  cases x with
  | fatal e => rfl
  | ok res => simp only [andThen_ok, h res rfl]

/-- Split reads on a reader positioned at `f.ArPos`. -/
theorem Serialize_split (env : Env) (f : FPakFile) (r : FArchive) (a b : Int)
    (hm : f.Info.CompressionMethod ≠ 0)
    (hbs : 0 < f.Info.CompressionBlockSize) (hbs' : f.Info.CompressionBlockSize ≤ 2147483647)
    (hbp : IsInt32 f.UncompressedBufferPos) (hpos : 0 ≤ f.ArPos)
    (ha : 0 ≤ a) (hb : 0 ≤ b) (hend : f.ArPos + a + b ≤ 2147483647) :
    (f.Serialize env r (a + b)).toOption =
      (ReadResult.andThen (f.Serialize env r a) (fun f1 r1 => f1.Serialize env r1 b)).toOption := by
  have w1 : toInt32 (f.ArPos + (a + b)) = f.ArPos + a + b := by unfold toInt32; omega
  have w2 : toInt32 (f.ArPos + a) = f.ArPos + a := by unfold toInt32; omega
  by_cases hst : f.ArStopper > 0 ∧ f.ArPos + a + b > f.ArStopper
  · -- the stopper rejects the long read, and one of the two short ones
    rw [Serialize_stopper env f r (a + b) (by rw [w1]; exact hst)]
    symm
    apply toOption_andThen_none
    intro res hres
    by_cases hst1 : f.ArStopper > 0 ∧ toInt32 (f.ArPos + a) > f.ArStopper
    · rw [Serialize_stopper env f r a hst1] at hres
      cases hres
    · rw [Serialize_compressed_eq env f r a hm hst1] at hres
      obtain ⟨g1, g2, g3, -, -, -, -⟩ := SerializeCompressed_ok_state env _ f r a res (le_refl _)
        hbs hbs' hbp hpos ha (by omega) hres
      rw [Serialize_stopper env res.file res.reader b]
      · rfl
      · rw [g2, g3]
        have : toInt32 (f.ArPos + a + b) = f.ArPos + a + b := by unfold toInt32; omega
        rw [this]
        exact hst
  · have hst0 : ¬ (f.ArStopper > 0 ∧ toInt32 (f.ArPos + (a + b)) > f.ArStopper) := by
      rw [w1]; exact hst
    have hst1 : ¬ (f.ArStopper > 0 ∧ toInt32 (f.ArPos + a) > f.ArStopper) := by
      rw [w2]; omega
    rw [Serialize_compressed_eq env f r (a + b) hm hst0, Serialize_compressed_eq env f r a hm hst1,
      SerializeCompressed_split env a.toNat f r a b (le_refl _) hbs hbs' hbp hpos ha hb hend]
    congr 1
    apply toOption_andThen_congr
    intro res hres
    obtain ⟨g1, g2, g3, -, -, -, -⟩ := SerializeCompressed_ok_state env _ f r a res (le_refl _)
      hbs hbs' hbp hpos ha (by omega) hres
    rw [Serialize_compressed_eq env res.file res.reader b (by rw [g1]; exact hm)]
    rw [g2, g3]
    have : toInt32 (f.ArPos + a + b) = f.ArPos + a + b := by unfold toInt32; omega
    rw [this]
    exact hst

theorem Seek_ok {f f' : FPakFile} {Pos : Int} (h : f.Seek Pos = .ok f') :
    0 ≤ Pos ∧ Pos < f.Info.UncompressedSize ∧ f' = { f with ArPos := Pos } := by
  unfold FPakFile.Seek at h
  split at h
  · rename_i hc
    simp only [Outcome.ok.injEq] at h
    exact ⟨hc.1, hc.2, h.symm⟩
  · cases h

/-! ## Content of a compressed entry -/

theorem contentUpTo_succ {env : Env} {src : List Nat} {E : FPakEntry} {n : Nat} {c : List Nat}
    (h : contentUpTo env src E (n + 1) = some c) :
    ∃ pre d, contentUpTo env src E n = some pre ∧ blockBytes env src E n = some d ∧
      c = pre ++ d := by
  simp only [contentUpTo] at h
  split at h
  · rename_i pre d h1 h2
    simp only [Option.some.injEq] at h
    exact ⟨pre, d, h1, h2, h.symm⟩
  · cases h

theorem blockBytes_length {env : Env} {src : List Nat} {E : FPakEntry} {i : Nat} {d : List Nat}
    (h : blockBytes env src E i = some d) :
    (d.length : Int) =
      min E.CompressionBlockSize (E.UncompressedSize - i * E.CompressionBlockSize) := by
  unfold blockBytes at h
  split at h
  · cases h
  · split at h
    · exact decompress_length h
    · cases h

theorem contentUpTo_length {env : Env} {src : List Nat} {E : FPakEntry}
    (hbs : 0 < E.CompressionBlockSize) (hU : 0 ≤ E.UncompressedSize) :
    ∀ (n : Nat) (c : List Nat), contentUpTo env src E n = some c →
      (c.length : Int) = min (n * E.CompressionBlockSize) E.UncompressedSize := by
  intro n
  induction n with
  | zero =>
    intro c h
    simp only [contentUpTo, Option.some.injEq] at h
    subst h
    simp only [List.length_nil, Nat.cast_zero, zero_mul]
    omega
  | succ n ih =>
    intro c h
    obtain ⟨pre, d, h1, h2, rfl⟩ := contentUpTo_succ h
    have l1 := ih pre h1
    have l2 := blockBytes_length h2
    simp only [List.length_append, Nat.cast_add, Nat.cast_one, add_mul, one_mul]
    have : (0 : Int) ≤ d.length := Int.natCast_nonneg _
    omega

/-- Every block below the block count is a segment of the content. -/
theorem contentUpTo_segment {env : Env} {src : List Nat} {E : FPakEntry} :
    ∀ (n : Nat) (c : List Nat), contentUpTo env src E n = some c → ∀ k, k < n →
      ∃ pre d post, contentUpTo env src E k = some pre ∧ blockBytes env src E k = some d ∧
        c = pre ++ d ++ post := by
  intro n
  induction n with
  | zero => intro c _ k hk; omega
  | succ n ih =>
    intro c h k hk
    obtain ⟨pre, d, h1, h2, rfl⟩ := contentUpTo_succ h
    by_cases hkn : k = n
    · subst hkn
      exact ⟨pre, d, [], h1, h2, by simp⟩
    · obtain ⟨p', d', post', g1, g2, g3⟩ := ih pre h1 k (by omega)
      exact ⟨p', d', post' ++ d, g1, g2, by rw [g3]; simp⟩

theorem slice_of_segment {c pre d post : List Nat} (hc : c = pre ++ d ++ post) (off cnt : Nat)
    (h : off + cnt ≤ d.length) :
    (c.drop (pre.length + off)).take cnt = (d.drop off).take cnt := by
  subst hc
  rw [List.append_assoc, ← List.drop_drop, List.drop_left, List.drop_append_of_le_length (by omega),
    List.take_append_of_le_length (by simp; omega)]

theorem slice_of_initial {buf d : List Nat} (hp : d <+: buf) (off cnt : Nat)
    (h : off + cnt ≤ d.length) :
    (buf.drop off).take cnt = (d.drop off).take cnt := by
  obtain ⟨t, rfl⟩ := hp
  rw [List.drop_append_of_le_length (by omega), List.take_append_of_le_length (by simp; omega)]

theorem blockBytes_some {env : Env} {src : List Nat} {E : FPakEntry} {i : Nat} {d : List Nat}
    (h : blockBytes env src E i = some d) :
    ∃ B, E.CompressionBlocks[i]? = some B ∧ 0 ≤ B.CompressedStart ∧
      B.CompressedStart ≤ B.CompressedEnd ∧ B.CompressedEnd ≤ src.length ∧
      env.decompress
        ((src.drop B.CompressedStart.toNat).take (B.CompressedEnd - B.CompressedStart).toNat)
        (min E.CompressionBlockSize (E.UncompressedSize - i * E.CompressionBlockSize))
        E.CompressionMethod = some d := by
  unfold blockBytes at h
  split at h
  · cases h
  · rename_i B hB
    split at h
    · rename_i hc
      exact ⟨B, hB, hc.1, hc.2.1, hc.2.2, h⟩
    · cases h

/-- In a valid compressed entry the refill step succeeds at every position
inside the entry, and leaves the block holding the position in the buffer. -/
theorem prepareBuffer_valid {env : Env} {src : List Nat} {E : FPakEntry} {content : List Nat}
    (V : ValidCompressed env src E content) {f : FPakFile} {r : FArchive}
    (hI : f.Info = E) (hr : r.data = src) (hcv : f.CacheValid env src)
    (hbp : IsInt32 f.UncompressedBufferPos) (hpos : 0 ≤ f.ArPos)
    (hlt : f.ArPos < E.UncompressedSize) :
    ∃ f1 r1 buf d, ∃ k : Nat, f.prepareBuffer env r = .ok (f1, r1) ∧
      f1.UncompressedBuffer = some buf ∧
      f1.UncompressedBufferPos = E.CompressionBlockSize * k ∧
      blockBytes env src E k = some d ∧ d <+: buf := by
  subst hI
  have hbs := V.bs_pos
  have hbs' := V.bs_int
  have hU := V.size_int
  by_cases hnr : f.bufferNotReady = true
  · obtain ⟨k0, k1, k2⟩ := tdiv_block hpos hbs
    obtain ⟨k, hk⟩ : ∃ k : Nat, (k : Int) = Int.tdiv f.ArPos f.Info.CompressionBlockSize :=
      ⟨(Int.tdiv f.ArPos f.Info.CompressionBlockSize).toNat, by omega⟩
    have hklt : k < f.Info.CompressionBlocks.length := by
      have hc := V.cover
      have : f.Info.CompressionBlockSize * (k : Int)
          < f.Info.CompressionBlockSize * (f.Info.CompressionBlocks.length : Int) := by
        rw [hk]; omega
      have := lt_of_mul_lt_mul_left this (le_of_lt hbs)
      exact_mod_cast this
    obtain ⟨pre, d, post, -, hd, -⟩ := contentUpTo_segment _ _ V.content k hklt
    obtain ⟨B, hB, s1, s2, s3, hdec⟩ := blockBytes_some hd
    have hspan := V.spans B (List.getElem?_mem hB)
    have hw1 : toInt32 (B.CompressedEnd - B.CompressedStart)
        = B.CompressedEnd - B.CompressedStart := by unfold toInt32; omega
    have hmul : f.Info.CompressionBlockSize * Int.tdiv f.ArPos f.Info.CompressionBlockSize
        = (k : Int) * f.Info.CompressionBlockSize := by rw [hk, mul_comm]
    have hw2 : toInt32 (f.Info.CompressionBlockSize *
        Int.tdiv f.ArPos f.Info.CompressionBlockSize) = (k : Int) * f.Info.CompressionBlockSize := by
      rw [hmul]
      apply toInt32_eq_self <;> omega
    have k1' : (k : Int) * f.Info.CompressionBlockSize ≤ f.ArPos := by rw [← hmul]; exact k1
    have k0' : 0 ≤ (k : Int) * f.Info.CompressionBlockSize :=
      mul_nonneg (Int.natCast_nonneg _) (le_of_lt hbs)
    have hw3 : toInt32 (toInt32 f.Info.UncompressedSize - (k : Int) * f.Info.CompressionBlockSize)
        = f.Info.UncompressedSize - (k : Int) * f.Info.CompressionBlockSize := by
      unfold toInt32; omega
    have key := fetchBlock_of env f r
      { r.Seek64 B.CompressedStart with
        ArPos := B.CompressedStart + (B.CompressedEnd - B.CompressedStart) }
      B ((src.drop B.CompressedStart.toNat).take (B.CompressedEnd - B.CompressedStart).toNat) d
      (ne_of_gt hbs) k0 (by rw [← hk]; simpa using hB)
      (by
        rw [hw1]
        unfold FArchive.Serialize
        simp only [FArchive.Seek64, hr]
        rw [if_pos ⟨s1, by omega, by omega⟩])
      (by rw [hw2, hw3]; exact hdec)
    have hprep := key
    rw [show f.fetchBlock env r = f.prepareBuffer env r by
      unfold FPakFile.prepareBuffer; rw [if_pos hnr]] at hprep
    exact ⟨_, _, _, d, k, hprep, rfl, by show toInt32 _ = _; rw [hw2, mul_comm], hd,
      List.prefix_append _ _⟩
  · have hready : f.bufferNotReady = false := by simpa using hnr
    obtain ⟨⟨buf, hbuf⟩, -, -, -⟩ := ready_range hbs hbs' hbp hpos hready
    obtain ⟨k, d, c1, c2, c3⟩ := hcv buf hbuf
    refine ⟨f, r, buf, d, k, ?_, hbuf, c1, c2, c3⟩
    unfold FPakFile.prepareBuffer
    rw [if_neg hnr]

theorem block_index_lt {bs U pos : Int} {k N : Nat} (hbs : 0 < bs) (h1 : bs * k ≤ pos)
    (hlt : pos < U) (hc : U ≤ bs * N) : k < N := by
  have : bs * (k : Int) < bs * (N : Int) := by omega
  have := lt_of_mul_lt_mul_left this (le_of_lt hbs)
  exact_mod_cast this

theorem content_slice {env : Env} {src : List Nat} {E : FPakEntry} {content : List Nat}
    (V : ValidCompressed env src E content) {k : Nat} {d : List Nat} {pos c : Int}
    (hd : blockBytes env src E k = some d)
    (h1 : E.CompressionBlockSize * k ≤ pos) (hc0 : 0 ≤ c)
    (hlt : pos < E.UncompressedSize)
    (hoc : pos - E.CompressionBlockSize * k + c ≤ d.length) :
    (d.drop (pos - E.CompressionBlockSize * k).toNat).take c.toNat
      = (content.drop pos.toNat).take c.toNat := by
  have hbs := V.bs_pos
  obtain ⟨pre, d', post, hpre', hd', hcont⟩ :=
    contentUpTo_segment _ _ V.content k (block_index_lt hbs h1 hlt V.cover)
  rw [hd] at hd'
  cases hd'
  have hk0 : 0 ≤ E.CompressionBlockSize * (k : Int) :=
    mul_nonneg (le_of_lt hbs) (Int.natCast_nonneg _)
  have hprelen := contentUpTo_length hbs (by omega) k pre hpre'
  rw [mul_comm] at hprelen
  have e5 : pos.toNat = pre.length + (pos - E.CompressionBlockSize * k).toNat := by omega
  rw [e5]
  exact (slice_of_segment hcont _ _ (by omega)).symm

/-- One iteration on a valid entry: it succeeds and copies bytes of the content. -/
theorem loopBody_content {env : Env} {src : List Nat} {E : FPakEntry}
    {content : List Nat} (V : ValidCompressed env src E content)
    {f : FPakFile} {r : FArchive} {n : Int}
    (hI : f.Info = E) (hr : r.data = src) (hcv : f.CacheValid env src)
    (hbp : IsInt32 f.UncompressedBufferPos) (hpos : 0 ≤ f.ArPos) (hn1 : 0 < n)
    (hend : f.ArPos + n ≤ E.UncompressedSize) :
    ∃ res c, f.loopBody env r n = .ok (res, n - c) ∧ 0 < c ∧ c ≤ n ∧
      res.data = (content.drop f.ArPos.toNat).take c.toNat ∧
      res.file.ArPos = f.ArPos + c ∧ res.file.Info = E ∧ res.file.CacheValid env src ∧
      IsInt32 res.file.UncompressedBufferPos ∧ res.reader.data = src := by
  have hbs := V.bs_pos
  have hbs' := V.bs_int
  have hU := V.size_int
  obtain ⟨f1, r1, buf, d, k, hp, hbuf, hbpos, hd, hpre⟩ :=
    prepareBuffer_valid V hI hr hcv hbp hpos (by omega)
  subst hI
  obtain ⟨e1, e2, e3, -, hbp1, h1, h2, e4, -⟩ := prepareBuffer_ok hbs hbs' hbp hpos (by omega) hp
  have hL := loopBody_eq hbs hbs' hbp hpos hn1 (by omega) hp
  have hg : f1.UncompressedBuffer.getD [] = buf := by rw [hbuf]; rfl
  rw [hg] at hL
  have hdl := blockBytes_length hd
  rw [mul_comm, ← hbpos] at hdl
  have hle : d.length ≤ buf.length := hpre.length_le
  obtain ⟨c, hc⟩ : ∃ c, c =
    min (f1.UncompressedBufferPos + f.Info.CompressionBlockSize - f.ArPos) n := ⟨_, rfl⟩
  rw [← hc] at hL
  have hc1 : 0 < c := by omega
  have hc2 : c ≤ n := by omega
  have hoc : f.ArPos - f1.UncompressedBufferPos + c ≤ d.length := by omega
  have hmem : memcpyFrom buf (f.ArPos - f1.UncompressedBufferPos) c
      = some ((buf.drop (f.ArPos - f1.UncompressedBufferPos).toNat).take c.toNat) := by
    unfold memcpyFrom
    rw [if_pos ⟨by omega, by omega, by omega⟩]
  rw [hmem] at hL
  refine ⟨_, c, hL, hc1, hc2, ?_, rfl, e1, ?_, hbp1, by rw [← hr, ← e4]⟩
  · show (buf.drop _).take _ = _
    rw [slice_of_initial hpre _ _ (by omega), hbpos]
    rw [hbpos] at h1 hoc
    exact content_slice V hd h1 (le_of_lt hc1) (by omega) hoc
  · intro b hb
    have hb' : f1.UncompressedBuffer = some b := hb
    rw [hbuf] at hb'
    cases hb'
    exact ⟨k, d, by show f1.UncompressedBufferPos = f1.Info.CompressionBlockSize * k; rw [e1, hbpos],
      by show blockBytes env src f1.Info k = some d; rw [e1]; exact hd, hpre⟩

/-- The loop delivers the bytes of the content: main lemma for compressed reads. -/
theorem SerializeCompressed_content {env : Env} {src : List Nat} {E : FPakEntry}
    {content : List Nat} (V : ValidCompressed env src E content) :
    ∀ (fuel : Nat) (f : FPakFile) (r : FArchive) (n : Int), n.toNat ≤ fuel →
      f.Info = E → r.data = src → f.CacheValid env src → IsInt32 f.UncompressedBufferPos →
      0 ≤ f.ArPos → 0 ≤ n → f.ArPos + n ≤ E.UncompressedSize →
      ∃ res, f.SerializeCompressed env fuel r n = .ok res ∧
        res.data = (content.drop f.ArPos.toNat).take n.toNat ∧
        res.file.CacheValid env src := by
  intro fuel
  induction fuel with
  | zero =>
    intro f r n hf _ _ hcv _ _ hn _
    have h0 : n ≤ 0 := by omega
    refine ⟨_, SerializeCompressed_nonpos env _ f r h0, ?_, hcv⟩
    have : n.toNat = 0 := by omega
    simp [this]
  | succ m ih =>
    intro f r n hf hI hr hcv hbp hpos hn hend
    by_cases h0 : n ≤ 0
    · refine ⟨_, SerializeCompressed_nonpos env _ f r h0, ?_, hcv⟩
      have : n.toNat = 0 := by omega
      simp [this]
    have hn1 : 0 < n := by omega
    have hU := V.size_int
    obtain ⟨res1, c, hL, hc1, hc2, hdata, hp1, hI1, hcv1, hbp1, hr1⟩ :=
      loopBody_content V hI hr hcv hbp hpos hn1 hend
    have hfuel : (n - c).toNat ≤ m := by omega
    have hpos1 : 0 ≤ res1.file.ArPos := by omega
    have hend1 : res1.file.ArPos + (n - c) ≤ E.UncompressedSize := by omega
    obtain ⟨res2, hres2, hdata2, hcv2⟩ := ih res1.file res1.reader (n - c) hfuel hI1 hr1 hcv1 hbp1
      hpos1 (by omega) hend1
    have hmax : n ≤ 2147483647 := by omega
    have hmax' : n - c ≤ 2147483647 := by omega
    rw [SerializeCompressed_step env f r hn1 hmax hf, hL]
    simp only
    rw [SerializeCompressed_fuel env (n - c).toNat m _ _ _ hmax' (le_refl _) hfuel, hres2]
    refine ⟨_, rfl, ?_, hcv2⟩
    simp only [hdata2, hdata, hp1]
    have e6 : (f.ArPos + c).toNat = f.ArPos.toNat + c.toNat := by omega
    have e7 : n.toNat = c.toNat + (n - c).toNat := by omega
    rw [e6, e7, List.take_add, List.drop_drop]

/-- What holds of every reachable reader of a valid compressed entry. -/
theorem Reachable_valid {env : Env} {src : List Nat} {E : FPakEntry} {content : List Nat}
    (V : ValidCompressed env src E content) {f : FPakFile} (hf : Reachable env src E f) :
    f.Info = E ∧ f.ArStopper = 0 ∧ f.CacheValid env src ∧ IsInt32 f.UncompressedBufferPos ∧
      0 ≤ f.ArPos := by
  induction hf with
  | create junk hj =>
    refine ⟨rfl, rfl, ?_, hj, le_refl _⟩
    intro buf hbuf
    cases hbuf
  | seek f f1 Pos _ h ih =>
    obtain ⟨h1, -, rfl⟩ := Seek_ok h
    obtain ⟨i1, i2, i3, i4, -⟩ := ih
    exact ⟨i1, i2, i3, i4, h1⟩
  | read f r size res _ hsrc hsize hend h ih =>
    obtain ⟨i1, i2, i3, i4, i5⟩ := ih
    have hst : ¬ (f.ArStopper > 0 ∧ toInt32 (f.ArPos + size) > f.ArStopper) := by
      rw [i2]; omega
    rw [Serialize_compressed_eq env f r size (by rw [i1]; exact V.method) hst] at h
    obtain ⟨res', h1, -, h3⟩ := SerializeCompressed_content V size.toNat f r size (le_refl _)
      i1 hsrc i3 i4 i5 hsize hend
    rw [h] at h1
    cases h1
    have hU := V.size_int
    obtain ⟨g1, g2, g3, -, -, -, g7⟩ := SerializeCompressed_ok_state env _ f r size res (le_refl _)
      (by rw [i1]; exact V.bs_pos) (by rw [i1]; exact V.bs_int) i4 i5 hsize (by omega) h
    exact ⟨by rw [g1, i1], by rw [g2, i2], h3, g7, by omega⟩

/-! ## Positions of reachable readers -/

theorem prepareBuffer_bs_pos {env : Env} {f f1 : FPakFile} {r r1 : FArchive}
    (hJ : f.UncompressedBuffer.isSome → 0 < f.Info.CompressionBlockSize)
    (h : f.prepareBuffer env r = .ok (f1, r1)) : 0 < f.Info.CompressionBlockSize := by
  unfold FPakFile.prepareBuffer at h
  split at h
  · obtain ⟨B, c, out, hb0, -, -, -, hd, -⟩ := fetchBlock_ok h
    have := decompress_length hd
    have : (0 : Int) ≤ out.length := Int.natCast_nonneg _
    omega
  · rename_i hnr
    apply hJ
    unfold FPakFile.bufferNotReady at hnr
    simp only [Bool.or_eq_true, not_or, Bool.not_eq_true, Option.isNone_eq_false_iff] at hnr
    simpa using hnr.1.1

theorem loopBody_ok_prepare {env : Env} {f : FPakFile} {r : FArchive} {size : Int}
    {p : ReadResult × Int} (h : f.loopBody env r size = .ok p) :
    ∃ f1 r1, f.prepareBuffer env r = .ok (f1, r1) := by
  unfold FPakFile.loopBody at h
  split at h
  · cases h
  · rename_i f1 r1 hp
    exact ⟨f1, r1, hp⟩

theorem SerializeUncompressed_ok {f : FPakFile} {r : FArchive} {size : Int} {res : ReadResult}
    (h : f.SerializeUncompressed r size = .ok res) :
    0 ≤ f.Info.Pos + f.Info.StructSize + f.ArPos ∧ 0 ≤ size ∧
    f.Info.Pos + f.Info.StructSize + f.ArPos + size ≤ r.data.length ∧
    res.data = (r.data.drop (f.Info.Pos + f.Info.StructSize + f.ArPos).toNat).take size.toNat ∧
    res.file = { f with ArPos := toInt32 (f.ArPos + size) } ∧
    res.reader = { r with ArPos := f.Info.Pos + f.Info.StructSize + f.ArPos + size } := by
  unfold FPakFile.SerializeUncompressed at h
  simp only at h
  split at h
  · cases h
  · rename_i bytes r1 hr
    obtain ⟨s1, s2, s3, s4, s5⟩ := source_Serialize_ok hr
    simp only [Outcome.ok.injEq] at h
    subst h
    simp only [FArchive.Seek64] at s1 s3 s4 s5
    exact ⟨s1, s2, s3, s4, rfl, s5⟩

/-- What holds of every reachable reader of any entry whose size fits `int`. -/
theorem Reachable_position {env : Env} {src : List Nat} {E : FPakEntry}
    (hU0 : 0 ≤ E.UncompressedSize) (hU : E.UncompressedSize ≤ 2147483647)
    (hbs : IsInt32 E.CompressionBlockSize) {f : FPakFile} (hf : Reachable env src E f) :
    f.Info = E ∧ f.ArStopper = 0 ∧ 0 ≤ f.ArPos ∧ f.ArPos ≤ E.UncompressedSize ∧
      IsInt32 f.UncompressedBufferPos ∧
      (f.UncompressedBuffer.isSome → 0 < f.Info.CompressionBlockSize) := by
  induction hf with
  | create junk hj =>
    refine ⟨rfl, rfl, le_refl _, hU0, hj, ?_⟩
    intro h
    cases h
  | seek f f1 Pos _ h ih =>
    obtain ⟨h1, h2, rfl⟩ := Seek_ok h
    obtain ⟨i1, i2, -, -, i5, i6⟩ := ih
    rw [i1] at h2
    exact ⟨i1, i2, h1, le_of_lt h2, i5, i6⟩
  | read f r size res _ hsrc hsize hend h ih =>
    obtain ⟨i1, i2, i3, i4, i5, i6⟩ := ih
    have hst : ¬ (f.ArStopper > 0 ∧ toInt32 (f.ArPos + size) > f.ArStopper) := by
      rw [i2]; omega
    by_cases hm : f.Info.CompressionMethod ≠ 0
    · rw [Serialize_compressed_eq env f r size hm hst] at h
      by_cases hs0 : size ≤ 0
      · rw [SerializeCompressed_nonpos env _ f r hs0] at h
        cases h
        exact ⟨i1, i2, i3, i4, i5, i6⟩
      · have hs1 : 0 < size := by omega
        have h' := h
        rw [SerializeCompressed_step env f r hs1 (by omega) (le_refl _)] at h'
        cases hb : f.loopBody env r size with
        | fatal x => rw [hb] at h'; cases h'
        | ok p =>
          obtain ⟨f1, r1, hp⟩ := loopBody_ok_prepare hb
          have hbs1 := prepareBuffer_bs_pos i6 hp
          obtain ⟨g1, g2, g3, -, -, -, g7⟩ := SerializeCompressed_ok_state env _ f r size res
            (le_refl _) hbs1 (by rw [i1]; exact hbs.2) i5 i3 hsize (by omega) h
          refine ⟨by rw [g1, i1], by rw [g2, i2], by omega, by omega, g7, ?_⟩
          intro _
          rw [g1]
          exact hbs1
    · have hm0 : f.Info.CompressionMethod = 0 := by simpa using hm
      unfold FPakFile.Serialize at h
      rw [if_neg hst, if_neg (by simpa using hm0)] at h
      obtain ⟨-, -, -, -, s5, -⟩ := SerializeUncompressed_ok h
      rw [s5]
      have : toInt32 (f.ArPos + size) = f.ArPos + size := by unfold toInt32; omega
      simp only [this]
      exact ⟨i1, i2, by omega, hend, i5, i6⟩

/-! ## Uncompressed reads and the example readers -/

theorem SerializeUncompressed_of {f : FPakFile} {r : FArchive} {size : Int}
    (h1 : 0 ≤ f.Info.Pos + f.Info.StructSize + f.ArPos) (h2 : 0 ≤ size)
    (h3 : f.Info.Pos + f.Info.StructSize + f.ArPos + size ≤ r.data.length) :
    f.SerializeUncompressed r size = .ok
      ⟨(r.data.drop (f.Info.Pos + f.Info.StructSize + f.ArPos).toNat).take size.toNat,
        { f with ArPos := toInt32 (f.ArPos + size) },
        { r with ArPos := f.Info.Pos + f.Info.StructSize + f.ArPos + size }⟩ := by
  unfold FPakFile.SerializeUncompressed FArchive.Serialize
  simp only [FArchive.Seek64]
  rw [if_pos ⟨h1, h2, h3⟩]

theorem Serialize_uncompressed_eq (env : Env) (f : FPakFile) (r : FArchive) (size : Int)
    (hm : f.Info.CompressionMethod = 0)
    (hst : ¬ (f.ArStopper > 0 ∧ toInt32 (f.ArPos + size) > f.ArStopper)) :
    f.Serialize env r size = f.SerializeUncompressed r size := by
  unfold FPakFile.Serialize
  rw [if_neg hst, if_neg (by simpa using hm)]

theorem storedAll_reachable : Reachable demoEnv demoSrc storedEntry storedAll.file :=
  Reachable.read (FPakFile.create storedEntry 0) demoReader 5 storedAll
    (Reachable.create 0 (by decide)) rfl (by decide) (by decide) (by decide)

theorem demoFirst_reachable : Reachable demoEnv demoSrc demoEntry demoFirst.file :=
  Reachable.read (FPakFile.create demoEntry 0) demoReader 3 demoFirst
    (Reachable.create 0 (by decide)) rfl (by decide) (by decide) (by decide)

theorem bigEnv_decompress (b : Nat) (rest : List Nat) (n : Int) (hn : 0 ≤ n) (m : Int) :
    bigEnv.decompress (b :: rest) n m = some (List.replicate n.toNat b) := by
  have h : bigEnv.appDecompress (b :: rest) n m = some (List.replicate n.toNat b) := by
    show (if 0 ≤ n then _ else _) = _
    rw [if_pos hn]
    rfl
  unfold Env.decompress
  rw [h]
  simp only
  rw [if_pos]
  rw [List.length_replicate]
  exact Int.toNat_of_nonneg hn

theorem bigEntry_block0 :
    blockBytes bigEnv bigSrc bigEntry 0 = some (List.replicate (1073741824 : Int).toNat 7) := by
  unfold blockBytes
  have hB : bigEntry.CompressionBlocks[0]? = some ⟨0, 1⟩ := rfl
  rw [hB]
  simp only
  rw [if_pos (by decide)]
  have hmin : min bigEntry.CompressionBlockSize
      (bigEntry.UncompressedSize - ((0 : Nat) : Int) * bigEntry.CompressionBlockSize) = 1073741824 := by
    decide
  rw [hmin]
  exact bigEnv_decompress 7 [] 1073741824 (by decide) _

theorem bigEntry_block1 :
    blockBytes bigEnv bigSrc bigEntry 1 = some (List.replicate (1073741824 : Int).toNat 9) := by
  unfold blockBytes
  have hB : bigEntry.CompressionBlocks[1]? = some ⟨1, 2⟩ := rfl
  rw [hB]
  simp only
  rw [if_pos (by decide)]
  have hmin : min bigEntry.CompressionBlockSize
      (bigEntry.UncompressedSize - ((1 : Nat) : Int) * bigEntry.CompressionBlockSize) = 1073741824 := by
    decide
  rw [hmin]
  exact bigEnv_decompress 9 [] 1073741824 (by decide) _

theorem contentUpTo_snoc {env : Env} {src : List Nat} {E : FPakEntry} {n : Nat} {c d : List Nat}
    (hc : contentUpTo env src E n = some c) (hd : blockBytes env src E n = some d) :
    contentUpTo env src E (n + 1) = some (c ++ d) := by
  rw [contentUpTo, hc, hd]

theorem bigEntry_content :
    entryContent bigEnv bigSrc bigEntry
      = some (([] ++ List.replicate (1073741824 : Int).toNat 7)
          ++ List.replicate (1073741824 : Int).toNat 9) :=
  contentUpTo_snoc (contentUpTo_snoc (n := 0) rfl bigEntry_block0) bigEntry_block1
/-! ## The footer codec -/

theorem Serialize_at (Ar : FArchive) (p n : Nat) (hp : Ar.ArPos = p)
    (h : p + n ≤ Ar.data.length) :
    Ar.Serialize n = .ok ((Ar.data.drop p).take n, { Ar with ArPos := (p + n : Nat) }) := by
  unfold FArchive.Serialize
  rw [hp, if_pos ⟨by omega, by omega, by omega⟩]
  simp only [Int.toNat_ofNat, Nat.cast_add]

theorem bind_ok {ε α β : Type} (a : α) (k : α → Outcome ε β) :
    (Outcome.ok a >>= k) = k a := rfl

theorem bind_fatal {ε α β : Type} (e : ε) (k : α → Outcome ε β) :
    ((Outcome.fatal e : Outcome ε α) >>= k) = .fatal e := rfl

theorem pure_eq_ok {ε α : Type} (a : α) : (pure a : Outcome ε α) = .ok a := rfl

theorem readByte_at (Ar : FArchive) (p : Nat) (hp : Ar.ArPos = p) (h : p + 1 ≤ Ar.data.length) :
    Ar.readByte = .ok (leNat ((Ar.data.drop p).take 1), { Ar with ArPos := (p + 1 : Nat) }) := by
  unfold FArchive.readByte
  rw [show (1 : Int) = ((1 : Nat) : Int) from rfl, Serialize_at Ar p 1 hp h]
  rfl

theorem readInt32_at (Ar : FArchive) (p : Nat) (hp : Ar.ArPos = p) (h : p + 4 ≤ Ar.data.length) :
    Ar.readInt32 = .ok (toInt32 (leNat ((Ar.data.drop p).take 4)),
      { Ar with ArPos := (p + 4 : Nat) }) := by
  unfold FArchive.readInt32
  rw [show (4 : Int) = ((4 : Nat) : Int) from rfl, Serialize_at Ar p 4 hp h]
  rfl

theorem readInt64_at (Ar : FArchive) (p : Nat) (hp : Ar.ArPos = p) (h : p + 8 ≤ Ar.data.length) :
    Ar.readInt64 = .ok (toInt64 (leNat ((Ar.data.drop p).take 8)),
      { Ar with ArPos := (p + 8 : Nat) }) := by
  unfold FArchive.readInt64
  rw [show (8 : Int) = ((8 : Nat) : Int) from rfl, Serialize_at Ar p 8 hp h]
  rfl

/-- The footer codec reads the stored fields of the footer block. -/
theorem FPakInfo_serialize_footer (reader : FArchive) (h : 45 ≤ reader.data.length) :
    FPakInfo.serialize (reader.Seek64 (reader.GetFileSize64 - FPakInfo.Size)) =
      if storedVersion reader.data > PAK_LATEST then
        .fatal { reader with ArPos := reader.data.length }
      else
        .ok (⟨storedMagic reader.data, storedVersion reader.data, storedIndexOffset reader.data,
            storedIndexSize reader.data, storedIndexHash reader.data,
            if storedVersion reader.data < PAK_INDEX_ENCRYPTION then 0
            else storedEncryptedIndex reader.data⟩,
          { reader with ArPos := reader.data.length }) := by
  obtain ⟨q, hq⟩ : ∃ q : Nat, reader.data.length = q + 45 := ⟨reader.data.length - 45, by omega⟩
  have hpos : (reader.Seek64 (reader.GetFileSize64 - FPakInfo.Size)).ArPos = (q : Nat) := by
    simp only [FArchive.Seek64, FArchive.GetFileSize64, FPakInfo.Size, hq]
    push_cast
    omega
  unfold FPakInfo.serialize
  rw [readByte_at _ q hpos (by simp only [FArchive.Seek64]; omega), bind_ok]
  simp only
  rw [readInt32_at _ (q + 1) rfl (by simp only [FArchive.Seek64]; omega), bind_ok]
  simp only
  rw [readInt32_at _ (q + 1 + 4) rfl (by simp only [FArchive.Seek64]; omega), bind_ok]
  simp only
  rw [readInt64_at _ (q + 1 + 4 + 4) rfl (by simp only [FArchive.Seek64]; omega), bind_ok]
  simp only
  rw [readInt64_at _ (q + 1 + 4 + 4 + 8) rfl (by simp only [FArchive.Seek64]; omega), bind_ok]
  simp only
  rw [show (20 : Int) = ((20 : Nat) : Int) from rfl,
    Serialize_at _ (q + 1 + 4 + 4 + 8 + 8) 20 rfl (by simp only [FArchive.Seek64]; omega), bind_ok]
  simp only [FArchive.Seek64, pure_eq_ok]
  have hb : footerBlock reader.data = reader.data.drop q := by
    unfold footerBlock
    rw [hq]
    simp
  have e0 : storedEncryptedIndex reader.data = leNat ((reader.data.drop q).take 1) := by
    simp only [storedEncryptedIndex, footerField, hb, List.drop_zero]
  have e1 : storedMagic reader.data = toInt32 (leNat ((reader.data.drop (q + 1)).take 4)) := by
    simp only [storedMagic, footerField, hb, List.drop_drop]
  have e2 : storedVersion reader.data
      = toInt32 (leNat ((reader.data.drop (q + 1 + 4)).take 4)) := by
    simp only [storedVersion, footerField, hb, List.drop_drop]
  have e3 : storedIndexOffset reader.data
      = toInt64 (leNat ((reader.data.drop (q + 1 + 4 + 4)).take 8)) := by
    simp only [storedIndexOffset, footerField, hb, List.drop_drop]
  have e4 : storedIndexSize reader.data
      = toInt64 (leNat ((reader.data.drop (q + 1 + 4 + 4 + 8)).take 8)) := by
    simp only [storedIndexSize, footerField, hb, List.drop_drop]
  have e5 : storedIndexHash reader.data = (reader.data.drop (q + 1 + 4 + 4 + 8 + 8)).take 20 := by
    simp only [storedIndexHash, footerField, hb, List.drop_drop]
  rw [e0, e1, e2, e3, e4, e5]
  have e6 : ((q + 1 + 4 + 4 + 8 + 8 + 20 : Nat) : Int) = (reader.data.length : Int) := by
    omega
  rw [e6]

/-! ## The entry loop of `AttachReader` -/

theorem into_ok {α : Type} (a : α) (P : FPakEntry) :
    (Outcome.ok a : Outcome FArchive α).into P = .ok a := rfl

theorem into_fatal {α : Type} (Ar : FArchive) (P : FPakEntry) :
    (Outcome.fatal Ar : Outcome FArchive α).into P = .fatal (P, Ar) := rfl

theorem serializeTail_name (Ar : FArchive) (P : FPakEntry) (x : List Nat) :
    FPakEntry.serializeTail Ar { P with Name := x }
      = renameResult x (FPakEntry.serializeTail Ar P) := by
  unfold FPakEntry.serializeTail
  by_cases hv : Ar.PakVer ≥ PAK_COMPRESSION_ENCRYPTION
  · simp only [hv, if_true]
    by_cases hm : P.CompressionMethod ≠ 0
    · simp only [hm, if_true, ne_eq, not_false_eq_true]
      cases h1 : Ar.readBlockArray with
      | fatal e => rfl
      | ok p =>
        obtain ⟨blocks, Ar1⟩ := p
        simp only [into_ok, bind_ok]
        cases h2 : Ar1.readByte with
        | fatal e => rfl
        | ok p =>
          obtain ⟨enc, Ar2⟩ := p
          simp only [into_ok, bind_ok]
          cases h3 : Ar2.readInt32 with
          | fatal e => rfl
          | ok p => rfl
    · simp only [hm, if_false, ne_eq, not_true_eq_false, pure_eq_ok, bind_ok]
      cases h2 : Ar.readByte with
      | fatal e => rfl
      | ok p =>
        obtain ⟨enc, Ar2⟩ := p
        simp only [into_ok, bind_ok]
        cases h3 : Ar2.readInt32 with
        | fatal e => rfl
        | ok p => rfl
  · simp only [hv, if_false]
    rfl

theorem serialize_name (t : Bool) (Ar : FArchive) (P : FPakEntry) (x : List Nat) :
    FPakEntry.serialize t Ar { P with Name := x }
      = renameResult x (FPakEntry.serialize t Ar P) := by
  unfold FPakEntry.serialize
  cases h1 : Ar.readInt64 with
  | fatal e => rfl
  | ok p =>
    obtain ⟨v1, Ar1⟩ := p
    simp only [into_ok, bind_ok]
    cases h2 : Ar1.readInt64 with
    | fatal e => rfl
    | ok p =>
      obtain ⟨v2, Ar2⟩ := p
      simp only [into_ok, bind_ok]
      cases h3 : Ar2.readInt64 with
      | fatal e => rfl
      | ok p =>
        obtain ⟨v3, Ar3⟩ := p
        simp only [into_ok, bind_ok]
        cases h4 : Ar3.readInt32 with
        | fatal e => rfl
        | ok p =>
          obtain ⟨v4, Ar4⟩ := p
          simp only [into_ok, bind_ok]
          cases h5 : FPakEntry.skipTimestamp Ar4 with
          | fatal e => rfl
          | ok Ar5 =>
            simp only [into_ok, bind_ok]
            cases h6 : Ar5.Serialize 20 with
            | fatal e => rfl
            | ok p =>
              obtain ⟨v6, Ar6⟩ := p
              simp only [into_ok, bind_ok]
              have e := serializeTail_name Ar6 ⟨P.Name, v1, v2, v3, v4, v6, P.bEncrypted,
                P.CompressionBlocks, P.CompressionBlockSize, P.StructSize⟩ x
              show (FPakEntry.serializeTail Ar6 ⟨x, v1, v2, v3, v4, v6, P.bEncrypted,
                P.CompressionBlocks, P.CompressionBlockSize, P.StructSize⟩ >>= _) = _
              rw [e]
              show _ = renameResult x (FPakEntry.serializeTail Ar6 ⟨P.Name, v1, v2, v3, v4, v6,
                P.bEncrypted, P.CompressionBlocks, P.CompressionBlockSize, P.StructSize⟩ >>= _)
              generalize FPakEntry.serializeTail Ar6 ⟨P.Name, v1, v2, v3, v4, v6,
                P.bEncrypted, P.CompressionBlocks, P.CompressionBlockSize, P.StructSize⟩ = R
              cases R with
              | fatal e => rfl
              | ok p =>
                obtain ⟨P7, Ar7⟩ := p
                simp only [renameResult, bind_ok, pure_eq_ok]
                cases t <;> rfl

set_option maxRecDepth 100000 in
/-- A record cut short inside its third field: the stop carries the entry with
the position and the size already stored, the other fields as they were, and
the entry loop leaves that entry, under its name, in `FileInfos`. -/
theorem serialize_cut_short :
    FPakEntry.serialize false
        ⟨[1, 0, 0, 0, 0, 0, 0, 0, 2, 0, 0, 0, 0, 0, 0, 0, 3, 0, 0, 0], 0, 4⟩ FPakEntry.zeroed
      = .fatal ({ FPakEntry.zeroed with Pos := 1, Size := 2 },
          ⟨[1, 0, 0, 0, 0, 0, 0, 0, 2, 0, 0, 0, 0, 0, 0, 0, 3, 0, 0, 0], 16, 4⟩) ∧
    FPakVFS.readEntries false [47] 1 0
        ⟨[2, 0, 0, 0, 97, 0, 1, 0, 0, 0, 0, 0, 0, 0, 2, 0, 0, 0, 0, 0, 0, 0, 3, 0, 0, 0], 0, 4⟩
        [FPakEntry.zeroed]
      = .fatal ([{ FPakEntry.zeroed with Name := [47, 97], Pos := 1, Size := 2 }],
          ⟨[2, 0, 0, 0, 97, 0, 1, 0, 0, 0, 0, 0, 0, 0, 2, 0, 0, 0, 0, 0, 0, 0, 3, 0, 0, 0],
            22, 4⟩) := by
  decide

theorem atSource_ok {α : Type} (a : α) :
    (Outcome.ok a : Outcome (FPakEntry × FArchive) α).atSource = .ok a := rfl

theorem atSource_fatal {α : Type} (P : FPakEntry) (Ar : FArchive) :
    (Outcome.fatal (P, Ar) : Outcome (FPakEntry × FArchive) α).atSource = .fatal Ar := rfl

theorem readRecords_length (t : Bool) :
    ∀ (n : Nat) (Ar Ar1 : FArchive) (recs : List (List Nat × FPakEntry)),
      readRecords t n Ar = .ok (recs, Ar1) → recs.length = n := by
  intro n
  induction n with
  | zero =>
    intro Ar Ar1 recs h
    simp only [readRecords, Outcome.ok.injEq, Prod.mk.injEq] at h
    rw [← h.1]; rfl
  | succ n ih =>
    intro Ar Ar1 recs h
    unfold readRecords at h
    cases h1 : Ar.readString with
    | fatal e => rw [h1] at h; cases h
    | ok p =>
      obtain ⟨name, Ar2⟩ := p
      rw [h1, bind_ok] at h
      simp only at h
      cases h2 : FPakEntry.serialize t Ar2 FPakEntry.zeroed with
      | fatal e => rw [h2] at h; cases h
      | ok p =>
        obtain ⟨E, Ar3⟩ := p
        rw [h2, atSource_ok, bind_ok] at h
        simp only at h
        cases h3 : readRecords t n Ar3 with
        | fatal e => rw [h3] at h; cases h
        | ok p =>
          obtain ⟨rest, Ar4⟩ := p
          rw [h3, bind_ok] at h
          simp only [pure_eq_ok, Outcome.ok.injEq, Prod.mk.injEq] at h
          rw [← h.1, List.length_cons, ih Ar3 Ar4 rest h3]

/-- The entry loop fills the zeroed tail of the array with the records of the
index, in order. -/
theorem readEntries_records (t : Bool) (mp : List Nat) :
    ∀ (n : Nat) (done : List FPakEntry) (Ar Ar1 : FArchive)
      (recs : List (List Nat × FPakEntry)),
      readRecords t n Ar = .ok (recs, Ar1) →
      FPakVFS.readEntries t mp n done.length Ar (done ++ List.replicate n FPakEntry.zeroed)
        = .ok (done ++ recs.map (fun r => { r.2 with Name := mp ++ r.1 }), Ar1) := by
  intro n
  induction n with
  | zero =>
    intro done Ar Ar1 recs h
    simp only [readRecords, Outcome.ok.injEq, Prod.mk.injEq] at h
    obtain ⟨h1, h2⟩ := h
    subst h1 h2
    simp [FPakVFS.readEntries]
  | succ n ih =>
    intro done Ar Ar1 recs h
    unfold readRecords at h
    cases h1 : Ar.readString with
    | fatal e => rw [h1] at h; cases h
    | ok p =>
      obtain ⟨name, Ar2⟩ := p
      rw [h1, bind_ok] at h
      simp only at h
      cases h2 : FPakEntry.serialize t Ar2 FPakEntry.zeroed with
      | fatal e => rw [h2] at h; cases h
      | ok p =>
        obtain ⟨E, Ar3⟩ := p
        rw [h2, atSource_ok, bind_ok] at h
        simp only at h
        cases h3 : readRecords t n Ar3 with
        | fatal e => rw [h3] at h; cases h
        | ok p =>
          obtain ⟨rest, Ar4⟩ := p
          rw [h3, bind_ok] at h
          simp only [pure_eq_ok, Outcome.ok.injEq, Prod.mk.injEq] at h
          obtain ⟨e1, e2⟩ := h
          subst e1 e2
          unfold FPakVFS.readEntries
          have hget : (done ++ List.replicate (n + 1) FPakEntry.zeroed)[done.length]?
              = some FPakEntry.zeroed := by
            rw [List.getElem?_append_right (le_refl _)]
            simp [List.replicate_succ]
          rw [hget]
          simp only [h1]
          rw [serialize_name t Ar2 FPakEntry.zeroed (mp ++ name), h2]
          simp only [renameResult]
          have hset : (done ++ List.replicate (n + 1) FPakEntry.zeroed).set done.length
              { E with Name := mp ++ name }
              = (done ++ [{ E with Name := mp ++ name }]) ++ List.replicate n FPakEntry.zeroed := by
            rw [List.set_append_right _ _ (le_refl _)]
            simp [List.replicate_succ]
          rw [hset]
          have := ih (done ++ [{ E with Name := mp ++ name }]) Ar3 Ar4 rest h3
          simp only [List.length_append, List.length_singleton] at this
          rw [this]
          simp

theorem readEntries_fatal (t : Bool) (mp : List Nat) :
    ∀ (n : Nat) (done : List FPakEntry) (Ar Ar1 : FArchive),
      readRecords t n Ar = .fatal Ar1 →
      ∃ infos, FPakVFS.readEntries t mp n done.length Ar
        (done ++ List.replicate n FPakEntry.zeroed) = .fatal (infos, Ar1) := by
  intro n
  induction n with
  | zero =>
    intro done Ar Ar1 h
    simp only [readRecords] at h
    cases h
  | succ n ih =>
    intro done Ar Ar1 h
    unfold readRecords at h
    unfold FPakVFS.readEntries
    have hget : (done ++ List.replicate (n + 1) FPakEntry.zeroed)[done.length]?
        = some FPakEntry.zeroed := by
      rw [List.getElem?_append_right (le_refl _)]
      simp [List.replicate_succ]
    rw [hget]
    cases h1 : Ar.readString with
    | fatal e =>
      rw [h1] at h
      cases h
      exact ⟨_, rfl⟩
    | ok p =>
      obtain ⟨name, Ar2⟩ := p
      rw [h1, bind_ok] at h
      simp only at h ⊢
      rw [serialize_name t Ar2 FPakEntry.zeroed (mp ++ name)]
      cases h2 : FPakEntry.serialize t Ar2 FPakEntry.zeroed with
      | fatal e =>
        rw [h2] at h
        cases h
        exact ⟨_, rfl⟩
      | ok p =>
        obtain ⟨E, Ar3⟩ := p
        rw [h2, atSource_ok, bind_ok] at h
        simp only [renameResult] at h ⊢
        have hset : (done ++ List.replicate (n + 1) FPakEntry.zeroed).set done.length
            { E with Name := mp ++ name }
            = (done ++ [{ E with Name := mp ++ name }]) ++ List.replicate n FPakEntry.zeroed := by
          rw [List.set_append_right _ _ (le_refl _)]
          simp [List.replicate_succ]
        rw [hset]
        cases h3 : readRecords t n Ar3 with
        | ok p =>
          rw [h3] at h
          cases h
        | fatal e =>
          rw [h3] at h
          cases h
          have := ih (done ++ [{ E with Name := mp ++ name }]) Ar3 Ar1 h3
          simp only [List.length_append, List.length_singleton] at this
          exact this

/-! ## Outcomes of `AttachReader` -/

theorem AttachReader_of_footer (t : Bool) (vfs : FPakVFS) (reader r1 : FArchive) (info : FPakInfo)
    (h : FPakInfo.serialize (reader.Seek64 (reader.GetFileSize64 - FPakInfo.Size))
      = .ok (info, r1)) :
    FPakVFS.AttachReader t vfs reader =
      if info.Magic ≠ PAK_FILE_MAGIC then .ok (false, vfs, r1)
      else if info.bEncryptedIndex ≠ 0 then .ok (false, vfs, r1)
      else vfs.readIndex t r1 info := by
  unfold FPakVFS.AttachReader
  show (match FPakInfo.serialize (reader.Seek64 (reader.GetFileSize64 - FPakInfo.Size)) with
    | .fatal reader => Outcome.fatal (vfs, reader)
    | .ok (info, reader) => _) = _
  rw [h]

theorem AttachReader_unsupported_version (t : Bool) (vfs : FPakVFS) (reader : FArchive)
    (h : 45 ≤ reader.data.length) (hv : storedVersion reader.data > PAK_LATEST) :
    FPakVFS.AttachReader t vfs reader
      = .fatal (vfs, { reader with ArPos := reader.data.length }) := by
  unfold FPakVFS.AttachReader
  show (match FPakInfo.serialize (reader.Seek64 (reader.GetFileSize64 - FPakInfo.Size)) with
    | .fatal reader => Outcome.fatal (vfs, reader)
    | .ok (info, reader) => _) = _
  rw [FPakInfo_serialize_footer reader h, if_pos hv]

theorem AttachReader_wrong_magic (t : Bool) (vfs : FPakVFS) (reader : FArchive)
    (h : 45 ≤ reader.data.length) (hv : ¬ storedVersion reader.data > PAK_LATEST)
    (hm : storedMagic reader.data ≠ PAK_FILE_MAGIC) :
    FPakVFS.AttachReader t vfs reader
      = .ok (false, vfs, { reader with ArPos := reader.data.length }) := by
  have hf := FPakInfo_serialize_footer reader h
  rw [if_neg hv] at hf
  rw [AttachReader_of_footer t vfs reader _ _ hf]
  exact if_pos hm

theorem AttachReader_encrypted_index (t : Bool) (vfs : FPakVFS) (reader : FArchive)
    (h : 45 ≤ reader.data.length) (hv : ¬ storedVersion reader.data > PAK_LATEST)
    (hm : storedMagic reader.data = PAK_FILE_MAGIC)
    (hv4 : ¬ storedVersion reader.data < PAK_INDEX_ENCRYPTION)
    (he : storedEncryptedIndex reader.data ≠ 0) :
    FPakVFS.AttachReader t vfs reader
      = .ok (false, vfs, { reader with ArPos := reader.data.length }) := by
  have hf := FPakInfo_serialize_footer reader h
  rw [if_neg hv, if_neg hv4] at hf
  rw [AttachReader_of_footer t vfs reader _ _ hf]
  show (if ¬ storedMagic reader.data = PAK_FILE_MAGIC then _ else
    if ¬ storedEncryptedIndex reader.data = 0 then _ else _) = _
  rw [if_neg (not_not.mpr hm), if_pos he]

theorem AttachReader_passes (t : Bool) (vfs : FPakVFS) (reader : FArchive)
    (h : 45 ≤ reader.data.length) (hv : ¬ storedVersion reader.data > PAK_LATEST)
    (hm : storedMagic reader.data = PAK_FILE_MAGIC)
    (he : storedVersion reader.data < PAK_INDEX_ENCRYPTION ∨ storedEncryptedIndex reader.data = 0) :
    FPakVFS.AttachReader t vfs reader =
      vfs.readIndex t { reader with ArPos := reader.data.length }
        ⟨storedMagic reader.data, storedVersion reader.data, storedIndexOffset reader.data,
          storedIndexSize reader.data, storedIndexHash reader.data, 0⟩ := by
  have hflag : (if storedVersion reader.data < PAK_INDEX_ENCRYPTION then 0
      else storedEncryptedIndex reader.data) = 0 := by
    rcases he with he | he
    · rw [if_pos he]
    · rw [he]; split <;> rfl
  have hf := FPakInfo_serialize_footer reader h
  rw [if_neg hv, hflag] at hf
  rw [AttachReader_of_footer t vfs reader _ _ hf]
  show (if ¬ storedMagic reader.data = PAK_FILE_MAGIC then _ else
    if ¬ (0 : Nat) = 0 then _ else _) = _
  rw [if_neg (not_not.mpr hm), if_neg (not_not.mpr rfl)]

theorem readIndexBlob_ok {t : Bool} {Ar Ar1 : FArchive} {blob : IndexBlob}
    (h : readIndexBlob t Ar = .ok (blob, Ar1)) :
    ∃ Ar2 Ar3, Ar.readString = .ok (blob.mountPoint, Ar2) ∧
      Ar2.readInt32 = .ok (blob.count, Ar3) ∧ ¬ blob.count < 0 ∧
      readRecords t blob.count.toNat Ar3 = .ok (blob.records, Ar1) := by
  unfold readIndexBlob at h
  cases h1 : Ar.readString with
  | fatal e => rw [h1] at h; cases h
  | ok p =>
    obtain ⟨mp, Ar2⟩ := p
    rw [h1, bind_ok] at h
    simp only at h
    cases h2 : Ar2.readInt32 with
    | fatal e => rw [h2] at h; cases h
    | ok p =>
      obtain ⟨count, Ar3⟩ := p
      rw [h2, bind_ok] at h
      simp only at h
      by_cases hc : count < 0
      · rw [if_pos hc] at h; cases h
      · rw [if_neg hc] at h
        cases h3 : readRecords t count.toNat Ar3 with
        | fatal e => rw [h3] at h; cases h
        | ok p =>
          obtain ⟨recs, Ar4⟩ := p
          rw [h3, bind_ok] at h
          simp only [pure_eq_ok, Outcome.ok.injEq, Prod.mk.injEq] at h
          obtain ⟨e1, e2⟩ := h
          subst e1 e2
          exact ⟨Ar2, Ar3, rfl, h2, hc, h3⟩

/-! ## The index half of `AttachReader` -/

/-- The index half of `AttachReader`, step by step. -/
theorem readIndex_eq (t : Bool) (vfs : FPakVFS) (reader : FArchive) (info : FPakInfo) :
    vfs.readIndex t reader info =
      match (FArchive.Seek64 { reader with ArLicenseeVer := info.Version }
          info.IndexOffset).readString with
      | .fatal r => .fatal ({ vfs with
          Reader := some { reader with ArLicenseeVer := info.Version } }, r)
      | .ok (MountPoint, r) =>
        match r.readInt32 with
        | .fatal r => .fatal ({ vfs with
            Reader := some { reader with ArLicenseeVer := info.Version } }, r)
        | .ok (count, r) =>
          if count < 0 then .fatal ({ vfs with
            Reader := some { reader with ArLicenseeVer := info.Version } }, r)
          else
            match FPakVFS.readEntries t (ProcessMountPoint MountPoint) count.toNat 0 r
                (vfs.FileInfos ++ List.replicate count.toNat FPakEntry.zeroed) with
            | .fatal (infos, r) => .fatal ({ vfs with
                Reader := some { reader with ArLicenseeVer := info.Version },
                FileInfos := infos }, r)
            | .ok (infos, r) =>
              .ok (true,
                if count ≥ MIN_PAK_SIZE_FOR_HASHING then
                  FPakVFS.hashAll { vfs with FileInfos := infos, Reader := some r } count.toNat
                else { vfs with FileInfos := infos, Reader := some r }, r) := rfl


theorem indexCursor_eq (reader : FArchive) :
    FArchive.Seek64 ⟨reader.data, (reader.data.length : Int), storedVersion reader.data⟩
      (storedIndexOffset reader.data) = indexCursor reader := rfl

theorem readIndex_create_ok (t : Bool) (r : FArchive) (info : FPakInfo) {blob : IndexBlob}
    {Ar1 : FArchive}
    (hb : readIndexBlob t (FArchive.Seek64 { r with ArLicenseeVer := info.Version }
      info.IndexOffset) = .ok (blob, Ar1)) :
    FPakVFS.create.readIndex t r info = .ok (true, loadedArchive blob Ar1, Ar1) := by
  obtain ⟨Ar2, Ar3, h1, h2, hc, h3⟩ := readIndexBlob_ok hb
  have hre := readEntries_records t (ProcessMountPoint blob.mountPoint) blob.count.toNat []
    Ar3 Ar1 blob.records h3
  rw [readIndex_eq, h1]
  show (match Ar2.readInt32 with
    | .fatal r => _
    | .ok (count, r) => _) = _
  rw [h2]
  show (if blob.count < 0 then _ else _) = _
  rw [if_neg hc]
  show (match FPakVFS.readEntries t (ProcessMountPoint blob.mountPoint) blob.count.toNat
      ([] : List FPakEntry).length Ar3
      ([] ++ List.replicate blob.count.toNat FPakEntry.zeroed) with
    | .fatal (infos, r) => _
    | .ok (infos, r) => _) = _
  rw [hre]
  rfl

theorem readIndex_create_fatal (t : Bool) (r : FArchive) (info : FPakInfo) {e : FArchive}
    (hb : readIndexBlob t (FArchive.Seek64 { r with ArLicenseeVer := info.Version }
      info.IndexOffset) = .fatal e) (p : Bool × FPakVFS × FArchive) :
    FPakVFS.create.readIndex t r info ≠ .ok p := by
  intro hx
  unfold readIndexBlob at hb
  rw [readIndex_eq] at hx
  cases h1 : (FArchive.Seek64 { r with ArLicenseeVer := info.Version }
      info.IndexOffset).readString with
  | fatal e1 => rw [h1] at hx; cases hx
  | ok q =>
    obtain ⟨mp, Ar2⟩ := q
    rw [h1, bind_ok] at hb
    rw [h1] at hx
    simp only at hb
    change (match Ar2.readInt32 with
      | .fatal r => _
      | .ok (count, r) => _) = _ at hx
    cases h2 : Ar2.readInt32 with
    | fatal e2 => rw [h2] at hx; cases hx
    | ok q =>
      obtain ⟨count, Ar3⟩ := q
      rw [h2, bind_ok] at hb
      rw [h2] at hx
      simp only at hb
      change (if count < 0 then _ else _) = _ at hx
      by_cases hc : count < 0
      · rw [if_pos hc] at hx; cases hx
      · rw [if_neg hc] at hb hx
        cases h3 : readRecords t count.toNat Ar3 with
        | ok q => rw [h3, bind_ok] at hb; cases hb
        | fatal e3 =>
          obtain ⟨infos, hre⟩ := readEntries_fatal t (ProcessMountPoint mp) count.toNat []
            Ar3 e3 h3
          change (match FPakVFS.readEntries t (ProcessMountPoint mp) count.toNat
              ([] : List FPakEntry).length Ar3
              ([] ++ List.replicate count.toNat FPakEntry.zeroed) with
            | .fatal (infos, r) => _
            | .ok (infos, r) => _) = _ at hx
          rw [hre] at hx
          cases hx

theorem serialize_short (reader : FArchive) (h : reader.data.length < 45) :
    FPakInfo.serialize (reader.Seek64 (reader.GetFileSize64 - FPakInfo.Size))
      = .fatal (reader.Seek64 (reader.GetFileSize64 - FPakInfo.Size)) := by
  have hs : (reader.Seek64 (reader.GetFileSize64 - FPakInfo.Size)).Serialize 1
      = .fatal (reader.Seek64 (reader.GetFileSize64 - FPakInfo.Size)) := by
    unfold FArchive.Serialize
    rw [if_neg]
    simp only [FArchive.Seek64, FArchive.GetFileSize64, FPakInfo.Size]
    omega
  unfold FPakInfo.serialize FArchive.readByte
  rw [hs]
  rfl

theorem AttachReader_short (t : Bool) (vfs : FPakVFS) (reader : FArchive)
    (h : reader.data.length < 45) :
    FPakVFS.AttachReader t vfs reader
      = .fatal (vfs, reader.Seek64 (reader.GetFileSize64 - FPakInfo.Size)) := by
  unfold FPakVFS.AttachReader
  show (match FPakInfo.serialize (reader.Seek64 (reader.GetFileSize64 - FPakInfo.Size)) with
    | .fatal reader => Outcome.fatal (vfs, reader)
    | .ok (info, reader) => _) = _
  rw [serialize_short reader h]
/-! ## Names that differ in letter case -/

theorem asciiLower_ne_zero (c : Nat) : (asciiLower c != 0) = (c != 0) := by
  unfold asciiLower
  split
  · have h1 : c + 32 ≠ 0 := by omega
    have h2 : c ≠ 0 := by omega
    simp [h1, h2]
  · rfl

theorem cstr_map_lower (n : List Nat) : cstr (n.map asciiLower) = (cstr n).map asciiLower := by
  unfold cstr
  induction n with
  | nil => rfl
  | cons c cs ih =>
    rw [List.map_cons, List.takeWhile_cons, List.takeWhile_cons, asciiLower_ne_zero]
    split
    · rw [List.map_cons, ih]
    · rfl

theorem SameModCase_cstr {n1 n2 : List Nat} (h : SameModCase n1 n2) :
    (cstr n1).map asciiLower = (cstr n2).map asciiLower := by
  unfold SameModCase at h
  rw [← cstr_map_lower, ← cstr_map_lower, h]

theorem stricmpAux_congr : ∀ (a b1 b2 : List Nat), b1.map asciiLower = b2.map asciiLower →
    stricmpAux a b1 = stricmpAux a b2 := by
  intro a
  induction a with
  | nil =>
    intro b1 b2 h
    cases b1 with
    | nil =>
      cases b2 with
      | nil => rfl
      | cons y ys => cases h
    | cons x xs =>
      cases b2 with
      | nil => cases h
      | cons y ys =>
        simp only [List.map_cons, List.cons.injEq] at h
        simp only [stricmpAux, h.1]
  | cons c cs ih =>
    intro b1 b2 h
    cases b1 with
    | nil =>
      cases b2 with
      | nil => rfl
      | cons y ys => cases h
    | cons x xs =>
      cases b2 with
      | nil => cases h
      | cons y ys =>
        simp only [List.map_cons, List.cons.injEq] at h
        simp only [stricmpAux, h.1, ih xs ys h.2]

theorem stricmp_congr (a : List Nat) {n1 n2 : List Nat} (h : SameModCase n1 n2) :
    stricmp a n1 = stricmp a n2 :=
  stricmpAux_congr (cstr a) (cstr n1) (cstr n2) (SameModCase_cstr h)

theorem foldl_hashStep_congr : ∀ (l1 l2 : List Nat), l1.map asciiLower = l2.map asciiLower →
    ∀ h : Nat, l1.foldl hashStep h = l2.foldl hashStep h := by
  intro l1
  induction l1 with
  | nil =>
    intro l2 e h
    cases l2 with
    | nil => rfl
    | cons y ys => cases e
  | cons x xs ih =>
    intro l2 e h
    cases l2 with
    | nil => cases e
    | cons y ys =>
      simp only [List.map_cons, List.cons.injEq] at e
      have hs : hashStep h x = hashStep h y := by
        unfold hashStep
        rw [e.1]
      rw [List.foldl_cons, List.foldl_cons, hs, ih ys e.2]

theorem GetHashForFileName_congr {n1 n2 : List Nat} (h : SameModCase n1 n2) :
    GetHashForFileName n1 = GetHashForFileName n2 := by
  unfold GetHashForFileName
  rw [foldl_hashStep_congr (cstr n1) (cstr n2) (SameModCase_cstr h)]

theorem nameMatches_congr (vfs : FPakVFS) {n1 n2 : List Nat} (h : SameModCase n1 n2) :
    vfs.nameMatches n1 = vfs.nameMatches n2 := by
  funext i
  unfold FPakVFS.nameMatches
  cases vfs.FileInfos[i]? with
  | none => rfl
  | some info => simp only [stricmp_congr info.Name h]

theorem FindFile_congr (vfs : FPakVFS) {n1 n2 : List Nat} (h : SameModCase n1 n2) :
    vfs.FindFile n1 = vfs.FindFile n2 := by
  unfold FPakVFS.FindFile
  rw [nameMatches_congr vfs h, GetHashForFileName_congr h]

/-! ## The attached archive -/

theorem AddFileToHash_fields (vfs : FPakVFS) (i : Nat) :
    (vfs.AddFileToHash i).FileInfos = vfs.FileInfos ∧
      (vfs.AddFileToHash i).LastInfo = vfs.LastInfo ∧
      (vfs.AddFileToHash i).Reader = vfs.Reader := by
  unfold FPakVFS.AddFileToHash
  cases vfs.FileInfos[i]? with
  | none => exact ⟨rfl, rfl, rfl⟩
  | some info => exact ⟨rfl, rfl, rfl⟩

theorem hashAll_fields (n : Nat) (vfs : FPakVFS) :
    (vfs.hashAll n).FileInfos = vfs.FileInfos ∧ (vfs.hashAll n).LastInfo = vfs.LastInfo ∧
      (vfs.hashAll n).Reader = vfs.Reader := by
  unfold FPakVFS.hashAll
  generalize List.range n = l
  induction l generalizing vfs with
  | nil => exact ⟨rfl, rfl, rfl⟩
  | cons i l ih =>
    rw [List.foldl_cons]
    obtain ⟨h1, h2, h3⟩ := ih (vfs.AddFileToHash i)
    obtain ⟨g1, g2, g3⟩ := AddFileToHash_fields vfs i
    exact ⟨h1.trans g1, h2.trans g2, h3.trans g3⟩

theorem loadedArchive_fields (blob : IndexBlob) (Ar : FArchive) :
    (loadedArchive blob Ar).FileInfos = blob.records.map (loadedEntry blob.mountPoint) ∧
      (loadedArchive blob Ar).LastInfo = none ∧ (loadedArchive blob Ar).Reader = some Ar := by
  unfold loadedArchive
  split
  · exact hashAll_fields _ _
  · exact ⟨rfl, rfl, rfl⟩

theorem stricmpAux_self (a : List Nat) : stricmpAux a a = 0 := by
  induction a with
  | nil => rfl
  | cons c cs ih => simp only [stricmpAux, if_true, ih]

theorem stricmp_self (a : List Nat) : stricmp a a = 0 := stricmpAux_self (cstr a)

/-- A successful attach of a fresh archive has read the index blob and leaves
the archive of that blob. -/
theorem AttachReader_true (t : Bool) (reader Ar1 : FArchive) (vfs : FPakVFS)
    (h : FPakVFS.AttachReader t FPakVFS.create reader = .ok (true, vfs, Ar1)) :
    ∃ blob, readIndexBlob t (indexCursor reader) = .ok (blob, Ar1) ∧
      vfs = loadedArchive blob Ar1 := by
  by_cases h45 : reader.data.length < 45
  · rw [AttachReader_short t _ reader h45] at h; cases h
  have h45 : 45 ≤ reader.data.length := by omega
  by_cases hv : storedVersion reader.data > PAK_LATEST
  · rw [AttachReader_unsupported_version t _ reader h45 hv] at h; cases h
  by_cases hm : storedMagic reader.data = PAK_FILE_MAGIC
  swap
  · rw [AttachReader_wrong_magic t _ reader h45 hv hm] at h; cases h
  by_cases he : storedVersion reader.data < PAK_INDEX_ENCRYPTION ∨
      storedEncryptedIndex reader.data = 0
  swap
  · rw [not_or] at he
    rw [AttachReader_encrypted_index t _ reader h45 hv hm he.1 he.2] at h; cases h
  rw [AttachReader_passes t _ reader h45 hv hm he] at h
  cases hb : readIndexBlob t (indexCursor reader) with
  | fatal e =>
    exact absurd h (readIndex_create_fatal t { reader with ArPos := reader.data.length }
      ⟨storedMagic reader.data, storedVersion reader.data, storedIndexOffset reader.data,
        storedIndexSize reader.data, storedIndexHash reader.data, 0⟩ hb _)
  | ok p =>
    obtain ⟨blob, Ar2⟩ := p
    have h2 := readIndex_create_ok t { reader with ArPos := reader.data.length }
      ⟨storedMagic reader.data, storedVersion reader.data, storedIndexOffset reader.data,
        storedIndexSize reader.data, storedIndexHash reader.data, 0⟩ hb
    rw [h2] at h
    simp only [Outcome.ok.injEq, Prod.mk.injEq, true_and] at h
    obtain ⟨e1, e2⟩ := h
    subst e2
    exact ⟨blob, rfl, e1.symm⟩

/-- An attach whose footer passes the checks and whose index blob is readable
returns true and leaves the archive of that blob. -/
theorem AttachReader_index_ok (t : Bool) (reader Ar1 : FArchive) (blob : IndexBlob)
    (h : 45 ≤ reader.data.length) (hv : ¬ storedVersion reader.data > PAK_LATEST)
    (hm : storedMagic reader.data = PAK_FILE_MAGIC)
    (he : storedVersion reader.data < PAK_INDEX_ENCRYPTION ∨ storedEncryptedIndex reader.data = 0)
    (hb : readIndexBlob t (indexCursor reader) = .ok (blob, Ar1)) :
    FPakVFS.AttachReader t FPakVFS.create reader = .ok (true, loadedArchive blob Ar1, Ar1) := by
  rw [AttachReader_passes t _ reader h hv hm he]
  exact readIndex_create_ok t { reader with ArPos := reader.data.length }
      ⟨storedMagic reader.data, storedVersion reader.data, storedIndexOffset reader.data,
        storedIndexSize reader.data, storedIndexHash reader.data, 0⟩ hb

theorem loadedArchive_NumFiles (t : Bool) (Ar Ar1 : FArchive) (blob : IndexBlob)
    (hb : readIndexBlob t Ar = .ok (blob, Ar1)) :
    blob.records.length = blob.count.toNat ∧ (loadedArchive blob Ar1).NumFiles = blob.count := by
  obtain ⟨Ar2, Ar3, -, -, hc, h3⟩ := readIndexBlob_ok hb
  have hl := readRecords_length t _ _ _ _ h3
  refine ⟨hl, ?_⟩
  unfold FPakVFS.NumFiles
  rw [(loadedArchive_fields blob Ar1).1, List.length_map, hl]
  omega

/-! ## The example archives -/

set_option maxRecDepth 1000000 in
/-- The attach of `demoArchive` returns true. -/
theorem demoArchive_attach :
    FPakVFS.AttachReader false FPakVFS.create ⟨demoArchive, 0, 0⟩
      = .ok (true, loadedArchive demoIndex.1 demoIndex.2, demoIndex.2) :=
  AttachReader_index_ok false ⟨demoArchive, 0, 0⟩ demoIndex.2 demoIndex.1 (by decide)
    (by decide) (by decide) (by decide) (by decide)
/-! ## The hash table and the two searches of `FindFile` -/

theorem AddFileToHash_table (vfs : FPakVFS) (i : Nat) :
    (vfs.AddFileToHash i).HashTable = some (fun h =>
      if (vfs.FileInfos[i]?.map (fun e => GetHashForFileName e.Name)) == some h
      then i :: (vfs.HashTable.getD (fun _ => [])) h
      else (vfs.HashTable.getD (fun _ => [])) h) := by
  unfold FPakVFS.AddFileToHash
  cases hi : vfs.FileInfos[i]? with
  | none =>
    simp only [Option.map_none']
    congr 1
  | some info =>
    simp only [Option.map_some']
    congr 1
    funext h
    by_cases hh : h = GetHashForFileName info.Name
    · subst hh
      simp
    · have : ¬ GetHashForFileName info.Name = h := fun e => hh e.symm
      simp [hh, this]

theorem hashAll_succ (vfs : FPakVFS) (n : Nat) :
    vfs.hashAll (n + 1) = (vfs.hashAll n).AddFileToHash n := by
  unfold FPakVFS.hashAll
  rw [List.range_succ, List.foldl_append]
  rfl

theorem hashChain_succ (infos : List FPakEntry) (n h : Nat) :
    hashChain infos (n + 1) h =
      if (infos[n]?.map (fun e => GetHashForFileName e.Name)) == some h
      then n :: hashChain infos n h else hashChain infos n h := by
  unfold hashChain
  rw [List.range_succ, List.filter_append, List.reverse_append]
  by_cases hc : ((infos[n]?.map (fun e => GetHashForFileName e.Name)) == some h) = true
  · rw [if_pos hc]
    simp only [List.filter, hc, List.reverse_cons, List.reverse_nil, List.nil_append,
      List.singleton_append]
  · rw [if_neg hc]
    simp only [List.filter, hc, List.reverse_nil, List.nil_append]

/-- The table that the "Hash everything" loop builds from no table holds, in
each bucket, the entries of that hash in descending index order. -/
theorem hashAll_table (vfs : FPakVFS) (hnone : vfs.HashTable = none) :
    ∀ n, ((vfs.hashAll n).HashTable.getD (fun _ => [])) = hashChain vfs.FileInfos n ∧
      (0 < n → (vfs.hashAll n).HashTable = some (hashChain vfs.FileInfos n)) := by
  intro n
  induction n with
  | zero =>
    refine ⟨?_, fun h => absurd h (lt_irrefl 0)⟩
    show (vfs.HashTable.getD fun _ => []) = _
    rw [hnone]
    rfl
  | succ n ih =>
    have ht : ((vfs.hashAll n).AddFileToHash n).HashTable
        = some (hashChain vfs.FileInfos (n + 1)) := by
      rw [AddFileToHash_table, ih.1, (hashAll_fields n vfs).1]
      congr 1
      funext h
      rw [hashChain_succ]
    rw [hashAll_succ]
    exact ⟨by rw [ht]; rfl, fun _ => ht⟩

theorem cstr_ne_zero (s : List Nat) : ∀ x ∈ cstr s, x ≠ 0 := by
  intro x hx
  have := List.mem_takeWhile_imp hx
  simpa using this

theorem asciiLower_eq_zero (c : Nat) : asciiLower c = 0 ↔ c = 0 := by
  unfold asciiLower
  split <;> omega

theorem stricmpAux_eq_zero : ∀ (a b : List Nat), (∀ x ∈ a, x ≠ 0) → (∀ x ∈ b, x ≠ 0) →
    (stricmpAux a b = 0 ↔ a.map asciiLower = b.map asciiLower) := by
  intro a
  induction a with
  | nil =>
    intro b _ hb
    cases b with
    | nil => simp [stricmpAux]
    | cons y ys =>
      have hy : asciiLower y ≠ 0 := fun e =>
        hb y (List.mem_cons_self _ _) ((asciiLower_eq_zero y).mp e)
      simp only [stricmpAux, List.map_nil, List.map_cons]
      constructor
      · intro h; omega
      · intro h; cases h
  | cons x xs ih =>
    intro b ha hb
    cases b with
    | nil =>
      have hx : asciiLower x ≠ 0 := fun e =>
        ha x (List.mem_cons_self _ _) ((asciiLower_eq_zero x).mp e)
      simp only [stricmpAux, List.map_nil, List.map_cons]
      constructor
      · intro h; omega
      · intro h; cases h
    | cons y ys =>
      have hxs : ∀ z ∈ xs, z ≠ 0 := fun z hz => ha z (List.mem_cons_of_mem _ hz)
      have hys : ∀ z ∈ ys, z ≠ 0 := fun z hz => hb z (List.mem_cons_of_mem _ hz)
      by_cases he : asciiLower x = asciiLower y
      · simp only [stricmpAux, he, if_true, List.map_cons, List.cons.injEq, true_and]
        exact ih ys hxs hys
      · simp only [stricmpAux, he, if_false, List.map_cons, List.cons.injEq, false_and,
          iff_false]
        omega

theorem stricmp_eq_zero (a b : List Nat) :
    stricmp a b = 0 ↔ (cstr a).map asciiLower = (cstr b).map asciiLower :=
  stricmpAux_eq_zero (cstr a) (cstr b) (cstr_ne_zero a) (cstr_ne_zero b)

theorem stricmp_hash {a b : List Nat} (h : stricmp a b = 0) :
    GetHashForFileName a = GetHashForFileName b := by
  unfold GetHashForFileName
  rw [foldl_hashStep_congr (cstr a) (cstr b) ((stricmp_eq_zero a b).mp h)]

theorem nameMatches_iff (vfs : FPakVFS) (name : List Nat) (i : Nat) :
    vfs.nameMatches name i = true ↔
      ∃ info, vfs.FileInfos[i]? = some info ∧ stricmp info.Name name = 0 := by
  unfold FPakVFS.nameMatches
  cases vfs.FileInfos[i]? with
  | none => simp
  | some info => simp

theorem nameMatches_lt {vfs : FPakVFS} {name : List Nat} {i : Nat}
    (h : vfs.nameMatches name i = true) : i < vfs.FileInfos.length := by
  obtain ⟨info, hi, -⟩ := (nameMatches_iff vfs name i).mp h
  exact (List.getElem?_eq_some_iff.mp hi).1

theorem nameMatches_chain {vfs : FPakVFS} {name : List Nat} {i : Nat}
    (h : vfs.nameMatches name i = true) :
    ((vfs.FileInfos[i]?.map (fun e => GetHashForFileName e.Name))
      == some (GetHashForFileName name)) = true := by
  obtain ⟨info, hi, hs⟩ := (nameMatches_iff vfs name i).mp h
  rw [hi, Option.map_some', stricmp_hash hs]
  simp

/-- Searching a list ascending from 0: the least index that satisfies `p`. -/
theorem find_ascending (p : Nat → Bool) : ∀ n,
    match (List.range n).find? p with
    | some i => i < n ∧ p i = true ∧ ∀ j, j < i → p j = false
    | none => ∀ j, j < n → p j = false := by
  intro n
  induction n with
  | zero => intro j hj; omega
  | succ n ih =>
    rw [List.range_succ, List.find?_append]
    cases hf : (List.range n).find? p with
    | some i =>
      rw [hf] at ih
      simp only [Option.or_some]
      exact ⟨by omega, ih.2.1, ih.2.2⟩
    | none =>
      rw [hf] at ih
      simp only [Option.none_or, List.find?_cons, List.find?_nil]
      cases hp : p n with
      | true => exact ⟨by omega, hp, fun j hj => ih j hj⟩
      | false =>
        intro j hj
        by_cases hjn : j = n
        · rw [hjn]; exact hp
        · exact ih j (by omega)

/-- Searching a list descending to 0: the greatest index that satisfies `p`. -/
theorem find_descending (p : Nat → Bool) : ∀ n,
    match (List.range n).reverse.find? p with
    | some i => i < n ∧ p i = true ∧ ∀ j, i < j → j < n → p j = false
    | none => ∀ j, j < n → p j = false := by
  intro n
  induction n with
  | zero => intro j hj; omega
  | succ n ih =>
    rw [List.range_succ, List.reverse_append, List.reverse_singleton, List.singleton_append,
      List.find?_cons]
    cases hp : p n with
    | true => exact ⟨by omega, hp, fun j h1 h2 => by omega⟩
    | false =>
      simp only
      cases hf : (List.range n).reverse.find? p with
      | some i =>
        rw [hf] at ih
        refine ⟨by omega, ih.2.1, fun j h1 h2 => ?_⟩
        by_cases hjn : j = n
        · rw [hjn]; exact hp
        · exact ih.2.2 j h1 (by omega)
      | none =>
        rw [hf] at ih
        intro j hj
        by_cases hjn : j = n
        · rw [hjn]; exact hp
        · exact ih j (by omega)

theorem find_filter_of_imp (p q : Nat → Bool) (hpq : ∀ x, p x = true → q x = true) :
    ∀ l : List Nat, (l.filter q).find? p = l.find? p := by
  intro l
  induction l with
  | nil => rfl
  | cons x xs ih =>
    cases hq : q x with
    | true =>
      rw [List.filter_cons_of_pos hq, List.find?_cons, List.find?_cons, ih]
    | false =>
      have hp : p x = false := by
        cases hp : p x with
        | false => rfl
        | true => rw [hpq x hp] at hq; cases hq
      rw [List.filter_cons_of_neg (by simp [hq]), List.find?_cons, hp, ih]

theorem hashChain_find (vfs : FPakVFS) (name : List Nat) (n : Nat) :
    (hashChain vfs.FileInfos n (GetHashForFileName name)).find? (vfs.nameMatches name)
      = (List.range n).reverse.find? (vfs.nameMatches name) := by
  unfold hashChain
  rw [← List.filter_reverse]
  exact find_filter_of_imp _ _ (fun x hx => nameMatches_chain hx) _

theorem FindFile_fst (vfs : FPakVFS) (name : List Nat) :
    (vfs.FindFile name).1 =
      match vfs.LastInfo.filter (vfs.nameMatches name) with
      | some i => some i
      | none =>
        match vfs.HashTable with
        | some table => (table (GetHashForFileName name)).find? (vfs.nameMatches name)
        | none => (List.range vfs.FileInfos.length).find? (vfs.nameMatches name) := by
  unfold FPakVFS.FindFile
  cases vfs.LastInfo.filter (vfs.nameMatches name) with
  | some i => rfl
  | none =>
    cases vfs.HashTable with
    | some table =>
      simp only
      cases (table (GetHashForFileName name)).find? (vfs.nameMatches name) <;> rfl
    | none =>
      simp only
      cases (List.range vfs.FileInfos.length).find? (vfs.nameMatches name) <;> rfl

theorem filter_some_matches {vfs : FPakVFS} {name : List Nat} {k : Nat}
    (h : vfs.LastInfo.filter (vfs.nameMatches name) = some k) :
    vfs.nameMatches name k = true := by
  cases hl : vfs.LastInfo with
  | none => rw [hl] at h; cases h
  | some j =>
    rw [hl] at h
    simp only [Option.filter] at h
    split at h
    · cases h; assumption
    · cases h

/-- The table of an archive whose table is built, when it has an entry. -/
theorem TableBuilt_table {vfs : FPakVFS} (ht : vfs.TableBuilt) (hn : 0 < vfs.FileInfos.length) :
    vfs.HashTable = some (hashChain vfs.FileInfos vfs.FileInfos.length) := by
  unfold FPakVFS.TableBuilt FPakVFS.rehashed at ht
  rw [ht]
  exact (hashAll_table { vfs with HashTable := none } rfl vfs.FileInfos.length).2 hn

theorem rehashed_TableBuilt (vfs : FPakVFS) : vfs.rehashed.TableBuilt := by
  have hf : vfs.rehashed.FileInfos = vfs.FileInfos := (hashAll_fields _ _).1
  unfold FPakVFS.TableBuilt
  by_cases hn : 0 < vfs.FileInfos.length
  · have h1 : vfs.rehashed.HashTable = some (hashChain vfs.FileInfos vfs.FileInfos.length) :=
      (hashAll_table { vfs with HashTable := none } rfl vfs.FileInfos.length).2 hn
    have h2 : vfs.rehashed.rehashed.HashTable
        = some (hashChain vfs.rehashed.FileInfos vfs.rehashed.FileInfos.length) :=
      (hashAll_table { vfs.rehashed with HashTable := none } rfl
        vfs.rehashed.FileInfos.length).2 (by rw [hf]; exact hn)
    rw [h1, h2, hf]
  · have h0 : vfs.FileInfos.length = 0 := by omega
    have h1 : vfs.rehashed.HashTable = none := by
      unfold FPakVFS.rehashed; rw [h0]; rfl
    have h2 : vfs.rehashed.rehashed.HashTable = none := by
      show (FPakVFS.hashAll { vfs.rehashed with HashTable := none }
        vfs.rehashed.FileInfos.length).HashTable = none
      rw [hf, h0]; rfl
    rw [h1, h2]

/-- What `FindFile` returns when the last-found cache does not match: with a
built table the greatest matching index, without a table the least one. -/
theorem FindFile_search (vfs : FPakVFS) (name : List Nat)
    (hl : vfs.LastInfo.filter (vfs.nameMatches name) = none)
    (ht : vfs.HashTable = none ∨ vfs.TableBuilt) :
    ((vfs.FindFile name).1 = none ∧ ∀ j, vfs.nameMatches name j = false) ∨
    ∃ k, (vfs.FindFile name).1 = some k ∧ vfs.nameMatches name k = true ∧
      ∀ j, vfs.nameMatches name j = true →
        (vfs.HashTable = none → k ≤ j) ∧ (vfs.HashTable ≠ none → j ≤ k) := by
  have hout : ∀ j, vfs.FileInfos.length ≤ j → vfs.nameMatches name j = false := by
    intro j hj
    cases hm : vfs.nameMatches name j with
    | false => rfl
    | true => have := nameMatches_lt hm; omega
  rw [FindFile_fst, hl]
  cases hT : vfs.HashTable with
  | none =>
    simp only
    have := find_ascending (vfs.nameMatches name) vfs.FileInfos.length
    cases hf : (List.range vfs.FileInfos.length).find? (vfs.nameMatches name) with
    | none =>
      rw [hf] at this
      refine Or.inl ⟨rfl, fun j => ?_⟩
      by_cases hj : j < vfs.FileInfos.length
      · exact this j hj
      · exact hout j (by omega)
    | some k =>
      rw [hf] at this
      refine Or.inr ⟨k, rfl, this.2.1, fun j hj => ⟨fun _ => ?_, fun h => absurd rfl h⟩⟩
      by_contra hlt
      have := this.2.2 j (by omega)
      rw [hj] at this; cases this
  | some table =>
    have htb : vfs.TableBuilt := by
      rcases ht with ht | ht
      · rw [hT] at ht; cases ht
      · exact ht
    by_cases hn : 0 < vfs.FileInfos.length
    swap
    · have h0 : vfs.FileInfos.length = 0 := by omega
      have : vfs.HashTable = none := by
        unfold FPakVFS.TableBuilt FPakVFS.rehashed at htb
        rw [htb, h0]; rfl
      rw [hT] at this; cases this
    have htab := TableBuilt_table htb hn
    rw [hT] at htab
    cases htab
    simp only
    rw [hashChain_find]
    have := find_descending (vfs.nameMatches name) vfs.FileInfos.length
    cases hf : (List.range vfs.FileInfos.length).reverse.find? (vfs.nameMatches name) with
    | none =>
      rw [hf] at this
      refine Or.inl ⟨rfl, fun j => ?_⟩
      by_cases hj : j < vfs.FileInfos.length
      · exact this j hj
      · exact hout j (by omega)
    | some k =>
      rw [hf] at this
      refine Or.inr ⟨k, rfl, this.2.1, fun j hj => ⟨fun h => ?_, fun _ => ?_⟩⟩
      · cases h
      · by_contra hlt
        have := this.2.2 j (by omega) (nameMatches_lt hj)
        rw [hj] at this; cases this

theorem DistinctNames_unique {vfs : FPakVFS} (hd : DistinctNames vfs.FileInfos)
    {name : List Nat} {i j : Nat} (hi : vfs.nameMatches name i = true)
    (hj : vfs.nameMatches name j = true) : i = j := by
  obtain ⟨a, ha, hsa⟩ := (nameMatches_iff vfs name i).mp hi
  obtain ⟨b, hb, hsb⟩ := (nameMatches_iff vfs name j).mp hj
  have hab : stricmp a.Name b.Name = 0 := by
    rw [stricmp_eq_zero] at hsa hsb ⊢
    rw [hsa, hsb]
  have hba : stricmp b.Name a.Name = 0 := by
    rw [stricmp_eq_zero] at hsa hsb ⊢
    rw [hsa, hsb]
  unfold DistinctNames at hd
  rw [List.pairwise_iff_getElem] at hd
  obtain ⟨hi1, hi2⟩ := List.getElem?_eq_some_iff.mp ha
  obtain ⟨hj1, hj2⟩ := List.getElem?_eq_some_iff.mp hb
  rcases Nat.lt_trichotomy i j with h | h | h
  · have := hd i j hi1 hj1 h
    rw [hi2, hj2] at this
    exact absurd hab this
  · exact h
  · have := hd j i hj1 hi1 h
    rw [hi2, hj2] at this
    exact absurd hba this

/-- With pairwise distinct names, `FindFile` returns an entry exactly when it
is the entry that matches the name. -/
theorem FindFile_unique (vfs : FPakVFS) (name : List Nat) (hd : DistinctNames vfs.FileInfos)
    (ht : vfs.HashTable = none ∨ vfs.TableBuilt) (i : Nat) :
    (vfs.FindFile name).1 = some i ↔ vfs.nameMatches name i = true := by
  cases hl : vfs.LastInfo.filter (vfs.nameMatches name) with
  | some k =>
    have hk := filter_some_matches hl
    rw [FindFile_fst, hl]
    simp only [Option.some.injEq]
    constructor
    · intro h; rw [← h]; exact hk
    · intro h; exact DistinctNames_unique hd hk h
  | none =>
    rcases FindFile_search vfs name hl ht with ⟨h1, h2⟩ | ⟨k, h1, h2, -⟩
    · rw [h1, h2 i]; simp
    · rw [h1]
      simp only [Option.some.injEq]
      constructor
      · intro h; rw [← h]; exact h2
      · intro h; exact DistinctNames_unique hd h2 h

theorem FindFile_none_iff (vfs : FPakVFS) (name : List Nat)
    (ht : vfs.HashTable = none ∨ vfs.TableBuilt) :
    (vfs.FindFile name).1 = none ↔ ∀ i, vfs.nameMatches name i = false := by
  cases hl : vfs.LastInfo.filter (vfs.nameMatches name) with
  | some k =>
    have hk := filter_some_matches hl
    rw [FindFile_fst, hl]
    constructor
    · intro h; cases h
    · intro h; rw [h k] at hk; cases hk
  | none =>
    rcases FindFile_search vfs name hl ht with ⟨h1, h2⟩ | ⟨k, h1, h2, -⟩
    · rw [h1]; exact ⟨fun _ => h2, fun _ => rfl⟩
    · rw [h1]
      constructor
      · intro h; cases h
      · intro h; rw [h k] at h2; cases h2

theorem loadedArchive_table (t : Bool) (Ar Ar1 : FArchive) (blob : IndexBlob)
    (hb : readIndexBlob t Ar = .ok (blob, Ar1)) :
    ((loadedArchive blob Ar1).HashTable.isSome = true
        ↔ (loadedArchive blob Ar1).NumFiles ≥ MIN_PAK_SIZE_FOR_HASHING) ∧
      ((loadedArchive blob Ar1).HashTable = none ∨ (loadedArchive blob Ar1).TableBuilt) := by
  obtain ⟨hl, hn⟩ := loadedArchive_NumFiles t Ar Ar1 blob hb
  rw [hn]
  have hfi := (loadedArchive_fields blob Ar1).1
  by_cases hc : blob.count ≥ MIN_PAK_SIZE_FOR_HASHING
  · have hpos : 0 < blob.count.toNat := by
      unfold MIN_PAK_SIZE_FOR_HASHING at hc; omega
    have hT : (loadedArchive blob Ar1).HashTable
        = some (hashChain (blob.records.map (loadedEntry blob.mountPoint))
            blob.count.toNat) := by
      unfold loadedArchive
      rw [if_pos hc]
      exact (hashAll_table _ rfl blob.count.toNat).2 hpos
    refine ⟨by rw [hT]; simp [hc], Or.inr ?_⟩
    unfold FPakVFS.TableBuilt
    have hlen : (loadedArchive blob Ar1).FileInfos.length = blob.count.toNat := by
      rw [hfi, List.length_map, hl]
    have h2 : (loadedArchive blob Ar1).rehashed.HashTable
        = some (hashChain (loadedArchive blob Ar1).FileInfos
            (loadedArchive blob Ar1).FileInfos.length) :=
      (hashAll_table { loadedArchive blob Ar1 with HashTable := none } rfl _).2
        (by rw [hlen]; exact hpos)
    rw [hT, h2, hlen, hfi]
  · have hT : (loadedArchive blob Ar1).HashTable = none := by
      unfold loadedArchive
      rw [if_neg hc]
    refine ⟨by rw [hT]; simp [hc], Or.inl hT⟩

theorem nameMatches_congr_infos {v1 v2 : FPakVFS} (h : v1.FileInfos = v2.FileInfos)
    (name : List Nat) : v1.nameMatches name = v2.nameMatches name := by
  funext i
  unfold FPakVFS.nameMatches
  rw [h]

theorem GetFileSize_fst (vfs : FPakVFS) (name : List Nat) :
    (vfs.GetFileSize name).1 =
      match (vfs.FindFile name).1 with
      | some i =>
        (match (vfs.FindFile name).2.FileInfos[i]? with
          | some info => toInt32 info.UncompressedSize
          | none => 0)
      | none => 0 := by
  unfold FPakVFS.GetFileSize
  rcases hf : vfs.FindFile name with ⟨r, v⟩
  cases r <;> rfl

theorem CreateReader_fst (vfs : FPakVFS) (name : List Nat) (junk : Int) :
    (vfs.CreateReader name junk).1 =
      match (vfs.FindFile name).1 with
      | some i =>
        (match (vfs.FindFile name).2.FileInfos[i]? with
          | some info => if info.bEncrypted ≠ 0 then none else some (FPakFile.create info junk)
          | none => none)
      | none => none := by
  unfold FPakVFS.CreateReader
  rcases hf : vfs.FindFile name with ⟨r, v⟩
  cases r with
  | none => rfl
  | some i =>
    simp only
    cases v.FileInfos[i]? with
    | none => rfl
    | some info =>
      simp only
      split <;> rfl

theorem FindFile_FileInfos (vfs : FPakVFS) (name : List Nat) :
    (vfs.FindFile name).2.FileInfos = vfs.FileInfos := by
  unfold FPakVFS.FindFile
  cases vfs.LastInfo.filter (vfs.nameMatches name) with
  | some i => rfl
  | none =>
    cases vfs.HashTable with
    | some table =>
      simp only
      cases (table (GetHashForFileName name)).find? (vfs.nameMatches name) <;> rfl
    | none =>
      simp only
      cases (List.range vfs.FileInfos.length).find? (vfs.nameMatches name) <;> rfl

theorem FindFile_some_matches {vfs : FPakVFS} {name : List Nat} {i : Nat}
    (h : (vfs.FindFile name).1 = some i) : vfs.nameMatches name i = true := by
  rw [FindFile_fst] at h
  cases hl : vfs.LastInfo.filter (vfs.nameMatches name) with
  | some k =>
    rw [hl] at h
    cases h
    exact filter_some_matches hl
  | none =>
    rw [hl] at h
    cases hT : vfs.HashTable with
    | some table =>
      rw [hT] at h
      simpa using List.find?_some h
    | none =>
      rw [hT] at h
      simpa using List.find?_some h


theorem rehashed_table (vfs : FPakVFS) :
    vfs.rehashed.HashTable =
      if 0 < vfs.FileInfos.length then some (hashChain vfs.FileInfos vfs.FileInfos.length)
      else none := by
  by_cases hn : 0 < vfs.FileInfos.length
  · rw [if_pos hn]
    exact (hashAll_table { vfs with HashTable := none } rfl vfs.FileInfos.length).2 hn
  · rw [if_neg hn]
    have h0 : vfs.FileInfos.length = 0 := by omega
    unfold FPakVFS.rehashed
    rw [h0]
    rfl

theorem TableBuilt_congr {v1 v2 : FPakVFS} (hf : v1.FileInfos = v2.FileInfos)
    (hT : v1.HashTable = v2.HashTable) (h : v2.TableBuilt) : v1.TableBuilt := by
  unfold FPakVFS.TableBuilt at h ⊢
  rw [hT, h, rehashed_table, rehashed_table, hf]

/-- The state of an attached archive as far as lookups see it: whatever the
last-found cache holds, the table is absent or built over all entries. -/
theorem attached_state (t : Bool) (reader Ar1 : FArchive) (vfs0 vfs : FPakVFS)
    (h : FPakVFS.AttachReader t FPakVFS.create reader = .ok (true, vfs0, Ar1))
    (hf : vfs.FileInfos = vfs0.FileInfos) (hT : vfs.HashTable = vfs0.HashTable) :
    vfs.HashTable = none ∨ vfs.TableBuilt := by
  obtain ⟨blob, hb, rfl⟩ := AttachReader_true t reader Ar1 vfs0 h
  rcases (loadedArchive_table t _ Ar1 blob hb).2 with h1 | h1
  · exact Or.inl (hT.trans h1)
  · exact Or.inr (TableBuilt_congr hf hT h1)

/-- What `FindFile` leaves in the last-found cache: the entry found; nothing
changes when no entry is found. -/
theorem FindFile_snd (vfs : FPakVFS) (name : List Nat) :
    (vfs.FindFile name).2 =
      match (vfs.FindFile name).1 with
      | some j => { vfs with LastInfo := some j }
      | none => vfs := by
  unfold FPakVFS.FindFile
  cases hl : vfs.LastInfo.filter (vfs.nameMatches name) with
  | some i =>
    simp only
    cases hL : vfs.LastInfo with
    | none => rw [hL] at hl; cases hl
    | some k =>
      rw [hL] at hl
      simp only [Option.filter] at hl
      split at hl
      · cases hl
        cases vfs
        simp only at hL
        subst hL
        rfl
      · cases hl
  | none =>
    cases vfs.HashTable with
    | some table =>
      simp only
      cases (table (GetHashForFileName name)).find? (vfs.nameMatches name) <;> rfl
    | none =>
      simp only
      cases (List.range vfs.FileInfos.length).find? (vfs.nameMatches name) <;> rfl

/-- A name that resolves to entry `j`: the results of the three lookups. -/
theorem lookups_of_find (vfs : FPakVFS) (name : List Nat) (junk : Int) (j : Nat)
    (info : FPakEntry) (hj : vfs.FileInfos[j]? = some info)
    (h : (vfs.FindFile name).1 = some j) :
    vfs.FindFile name = (some j, { vfs with LastInfo := some j }) ∧
    vfs.GetFileSize name = (toInt32 info.UncompressedSize, { vfs with LastInfo := some j }) ∧
    vfs.CreateReader name junk
      = (if info.bEncrypted ≠ 0 then none else some (FPakFile.create info junk),
        { vfs with LastInfo := some j }) := by
  have h2 := FindFile_snd vfs name
  rw [h] at h2
  simp only at h2
  have hfind : vfs.FindFile name = (some j, { vfs with LastInfo := some j }) :=
    Prod.ext h h2
  refine ⟨hfind, ?_, ?_⟩
  · unfold FPakVFS.GetFileSize
    rw [hfind]
    simp only [hj]
  · unfold FPakVFS.CreateReader
    rw [hfind]
    simp only [hj]
    split <;> rfl

/-- The cached entry answers the lookup of a name it matches. -/
theorem FindFile_cached (vfs : FPakVFS) (name : List Nat) (i : Nat)
    (hL : vfs.LastInfo = some i) (hm : vfs.nameMatches name i = true) :
    (vfs.FindFile name).1 = some i := by
  rw [FindFile_fst, hL]
  simp only [Option.filter, hm, if_true]

/-! ## The entry codec and the layout of a record -/

theorem readBlocks_at : ∀ (n : Nat) (Ar : FArchive) (p : Nat), Ar.ArPos = p →
    p + 16 * n ≤ Ar.data.length →
    FArchive.readBlocks n Ar = .ok ((List.range n).map (fun i =>
        (⟨toInt64 (leNat ((Ar.data.drop (p + 16 * i)).take 8)),
          toInt64 (leNat ((Ar.data.drop (p + 16 * i + 8)).take 8))⟩ : FPakCompressedBlock)),
      { Ar with ArPos := (p + 16 * n : Nat) }) := by
  intro n
  induction n with
  | zero =>
    intro Ar p hp _
    simp only [FArchive.readBlocks, List.range_zero, List.map_nil, Nat.mul_zero, Nat.add_zero]
    rw [← hp]
  | succ n ih =>
    intro Ar p hp hlen
    unfold FArchive.readBlocks FPakCompressedBlock.serialize
    rw [readInt64_at Ar p hp (by omega), bind_ok]
    simp only
    rw [readInt64_at _ (p + 8) rfl (by simp only; omega), bind_ok]
    simp only [pure_eq_ok, bind_ok]
    rw [ih _ (p + 8 + 8) rfl (by simp only; omega), bind_ok]
    simp only [pure_eq_ok]
    have e1 : p + 8 + 8 + 16 * n = p + 16 * (n + 1) := by omega
    have e2 : ∀ i, p + 8 + 8 + 16 * i = p + 16 * (i + 1) := fun i => by omega
    rw [e1]
    simp only [e2]
    rw [List.range_succ_eq_map, List.map_cons, List.map_map]
    rfl

theorem skipTimestamp_at (Ar : FArchive) (p : Nat) (hp : Ar.ArPos = p)
    (h : p + recordStamp Ar ≤ Ar.data.length) :
    FPakEntry.skipTimestamp Ar = .ok { Ar with ArPos := (p + recordStamp Ar : Nat) } := by
  unfold FPakEntry.skipTimestamp recordStamp at *
  by_cases hv : Ar.PakVer < PAK_NO_TIMESTAMPS
  · rw [if_pos hv] at h ⊢
    rw [if_pos hv, readInt64_at Ar p hp h, bind_ok]
    rfl
  · rw [if_neg hv] at h ⊢
    rw [if_neg hv, pure_eq_ok, Nat.add_zero, ← hp]

theorem serializeTail_none (A : FArchive) (P : FPakEntry)
    (hv : ¬ A.PakVer ≥ PAK_COMPRESSION_ENCRYPTION) :
    FPakEntry.serializeTail A P = .ok (P, A) := by
  unfold FPakEntry.serializeTail
  rw [if_neg hv]
  rfl

theorem serializeTail_plain (A : FArchive) (P : FPakEntry) (q : Nat) (hq : A.ArPos = q)
    (hv : A.PakVer ≥ PAK_COMPRESSION_ENCRYPTION) (hm : P.CompressionMethod = 0)
    (hl : q + 5 ≤ A.data.length) :
    FPakEntry.serializeTail A P = .ok
      ({ P with bEncrypted := leNat ((A.data.drop q).take 1),
                CompressionBlockSize := toInt32 (leNat ((A.data.drop (q + 1)).take 4)) },
        { A with ArPos := (q + 5 : Nat) }) := by
  unfold FPakEntry.serializeTail
  rw [if_pos hv, if_neg (not_not.mpr hm), pure_eq_ok, bind_ok]
  simp only
  rw [readByte_at A q hq (by omega), into_ok, bind_ok]
  simp only
  rw [readInt32_at _ (q + 1) rfl (by simp only; omega), into_ok, bind_ok]
  rfl

theorem serializeTail_blocks (A : FArchive) (P : FPakEntry) (q n : Nat) (hq : A.ArPos = q)
    (hv : A.PakVer ≥ PAK_COMPRESSION_ENCRYPTION) (hm : P.CompressionMethod ≠ 0)
    (hn : toInt32 (leNat ((A.data.drop q).take 4)) = (n : Int))
    (hl : q + 4 + 16 * n + 5 ≤ A.data.length) :
    FPakEntry.serializeTail A P = .ok
      ({ P with CompressionBlocks := (List.range n).map (fun i =>
                  (⟨toInt64 (leNat ((A.data.drop (q + 4 + 16 * i)).take 8)),
                    toInt64 (leNat ((A.data.drop (q + 4 + 16 * i + 8)).take 8))⟩ :
                    FPakCompressedBlock)),
                bEncrypted := leNat ((A.data.drop (q + 4 + 16 * n)).take 1),
                CompressionBlockSize :=
                  toInt32 (leNat ((A.data.drop (q + 4 + 16 * n + 1)).take 4)) },
        { A with ArPos := (q + 4 + 16 * n + 5 : Nat) }) := by
  unfold FPakEntry.serializeTail
  rw [if_pos hv, if_pos hm]
  unfold FArchive.readBlockArray
  rw [readInt32_at A q hq (by omega), bind_ok]
  simp only
  rw [hn, if_neg (by omega), Int.toNat_ofNat,
    readBlocks_at n _ (q + 4) rfl (by simp only; omega), into_ok, bind_ok]
  simp only
  rw [readByte_at _ (q + 4 + 16 * n) rfl (by simp only; omega), into_ok, bind_ok]
  simp only
  rw [readInt32_at _ (q + 4 + 16 * n + 1) rfl (by simp only; omega), into_ok, bind_ok]
  rfl

/-- The entry codec up to its version-dependent tail: position, sizes, method,
the optional timestamp and the hash. -/
theorem serialize_of_tail (t : Bool) (Ar : FArchive) (P Q : FPakEntry) (ArT : FArchive)
    (p : Nat) (hp : Ar.ArPos = p) (hlen : p + 48 + recordStamp Ar ≤ Ar.data.length)
    (htail : FPakEntry.serializeTail
        ⟨Ar.data, (p + 8 + 8 + 8 + 4 + recordStamp Ar + 20 : Nat), Ar.ArLicenseeVer⟩
        { P with Pos := toInt64 (leNat (recordField Ar 0 8)),
                 Size := toInt64 (leNat (recordField Ar 8 8)),
                 UncompressedSize := toInt64 (leNat (recordField Ar 16 8)),
                 CompressionMethod := recordMethod Ar,
                 Hash := recordField Ar (28 + recordStamp Ar) 20 } = .ok (Q, ArT)) :
    FPakEntry.serialize t Ar P = .ok
      ({ (if t then { Q with bEncrypted := 0 } else Q) with
          StructSize := toInt32 (ArT.Tell64 - p) }, ArT) := by
  have hrf : ∀ off size, recordField Ar off size = (Ar.data.drop (p + off)).take size := by
    intro off size
    unfold recordField
    rw [hp, Int.toNat_ofNat]
  have hst : recordStamp Ar ≤ 8 := by unfold recordStamp; split <;> omega
  have hs : ∀ x : Int, recordStamp ⟨Ar.data, x, Ar.ArLicenseeVer⟩ = recordStamp Ar :=
    fun _ => rfl
  rw [hrf, hrf, hrf, hrf] at htail
  unfold recordMethod at htail
  rw [hrf] at htail
  unfold FPakEntry.serialize
  rw [readInt64_at Ar p hp (by omega), into_ok, bind_ok]
  simp only
  rw [readInt64_at _ (p + 8) rfl (by simp only; omega), into_ok, bind_ok]
  simp only
  rw [readInt64_at _ (p + 8 + 8) rfl (by simp only; omega), into_ok, bind_ok]
  simp only
  rw [readInt32_at _ (p + 8 + 8 + 8) rfl (by simp only; omega), into_ok, bind_ok]
  simp only
  rw [skipTimestamp_at _ (p + 8 + 8 + 8 + 4) rfl (by simp only [hs]; omega), into_ok, bind_ok]
  simp only [hs]
  rw [show (20 : Int) = ((20 : Nat) : Int) from rfl,
    Serialize_at _ (p + 8 + 8 + 8 + 4 + recordStamp Ar) 20 rfl (by simp only; omega), into_ok,
    bind_ok]
  simp only
  have e1 : p + (28 + recordStamp Ar) = p + 8 + 8 + 8 + 4 + recordStamp Ar := by omega
  have e2 : p + 16 = p + 8 + 8 := by omega
  have e3 : p + 24 = p + 8 + 8 + 8 := by omega
  have e0 : p + 0 = p := rfl
  rw [e0, e2, e3, e1] at htail
  rw [htail, bind_ok]
  cases t
  · simp only [pure_eq_ok, FArchive.Tell64, hp]
  · simp only [pure_eq_ok, FArchive.Tell64, hp]

/-- The entry codec reads the record that the layout of the format describes,
and consumes `recordSize` bytes. -/
theorem serialize_layout (t : Bool) (Ar : FArchive) (P : FPakEntry)
    (hp : 0 ≤ Ar.ArPos) (hc : 0 ≤ recordBlockCount Ar)
    (hlen : Ar.ArPos + recordSize Ar.PakVer (recordMethod Ar) (recordBlockCount Ar).toNat
      ≤ Ar.data.length) :
    FPakEntry.serialize t Ar P = .ok (recordAt t Ar P,
      { Ar with ArPos := Ar.ArPos
        + recordSize Ar.PakVer (recordMethod Ar) (recordBlockCount Ar).toNat }) := by
  obtain ⟨p, hpn⟩ : ∃ p : Nat, Ar.ArPos = p := ⟨Ar.ArPos.toNat, by omega⟩
  have hrf : ∀ off size, recordField Ar off size = (Ar.data.drop (p + off)).take size := by
    intro off size
    unfold recordField
    rw [hpn, Int.toNat_ofNat]
  have hst : recordStamp Ar = if Ar.PakVer < PAK_NO_TIMESTAMPS then 8 else 0 := rfl
  by_cases h3 : Ar.PakVer ≥ PAK_COMPRESSION_ENCRYPTION
  swap
  · have hsize : recordSize Ar.PakVer (recordMethod Ar) (recordBlockCount Ar).toNat
        = ((48 + recordStamp Ar : Nat) : Int) := by
      unfold recordSize
      rw [if_neg h3, hst]
      split <;> simp
    rw [hsize] at hlen ⊢
    have htail := serializeTail_none
      ⟨Ar.data, (p + 8 + 8 + 8 + 4 + recordStamp Ar + 20 : Nat), Ar.ArLicenseeVer⟩
      { P with Pos := toInt64 (leNat (recordField Ar 0 8)),
               Size := toInt64 (leNat (recordField Ar 8 8)),
               UncompressedSize := toInt64 (leNat (recordField Ar 16 8)),
               CompressionMethod := recordMethod Ar,
               Hash := recordField Ar (28 + recordStamp Ar) 20 } h3
    rw [serialize_of_tail t Ar P _ _ p hpn (by omega) htail]
    have hb : recordHasBlocks Ar = false := by
      unfold recordHasBlocks
      simp [h3]
    have hpos : ((p + 8 + 8 + 8 + 4 + recordStamp Ar + 20 : Nat) : Int)
        = Ar.ArPos + ((48 + recordStamp Ar : Nat) : Int) := by omega
    have hss : ((p + 8 + 8 + 8 + 4 + recordStamp Ar + 20 : Nat) : Int) - p
        = ((48 + recordStamp Ar : Nat) : Int) := by omega
    unfold recordAt
    rw [hsize, hb]
    have hss2 : Ar.ArPos + ((48 + recordStamp Ar : Nat) : Int) - p
        = ((48 + recordStamp Ar : Nat) : Int) := by omega
    cases t <;>
      simp only [FArchive.Tell64, hpos, hss2, h3, if_false, if_true, Bool.false_eq_true]
  by_cases hm : recordMethod Ar = 0
  · have hb : recordHasBlocks Ar = false := by
      unfold recordHasBlocks
      simp [hm]
    have hcnt : recordBlockCount Ar = 0 := by
      unfold recordBlockCount
      rw [hb]
      rfl
    have hbb : recordBlockBytes Ar = 0 := by
      unfold recordBlockBytes
      rw [hb]
      rfl
    have hsize : recordSize Ar.PakVer (recordMethod Ar) (recordBlockCount Ar).toNat
        = ((48 + recordStamp Ar + 5 : Nat) : Int) := by
      unfold recordSize
      rw [if_pos h3, hst, if_neg (not_not.mpr hm)]
      split <;> simp
    rw [hsize] at hlen ⊢
    have htail := serializeTail_plain
      ⟨Ar.data, (p + 8 + 8 + 8 + 4 + recordStamp Ar + 20 : Nat), Ar.ArLicenseeVer⟩
      { P with Pos := toInt64 (leNat (recordField Ar 0 8)),
               Size := toInt64 (leNat (recordField Ar 8 8)),
               UncompressedSize := toInt64 (leNat (recordField Ar 16 8)),
               CompressionMethod := recordMethod Ar,
               Hash := recordField Ar (28 + recordStamp Ar) 20 }
      (p + 8 + 8 + 8 + 4 + recordStamp Ar + 20) rfl h3 hm (by simp only; omega)
    rw [serialize_of_tail t Ar P _ _ p hpn (by omega) htail]
    have hpos : ((p + 8 + 8 + 8 + 4 + recordStamp Ar + 20 + 5 : Nat) : Int)
        = Ar.ArPos + ((48 + recordStamp Ar + 5 : Nat) : Int) := by omega
    have hss2 : Ar.ArPos + ((48 + recordStamp Ar + 5 : Nat) : Int) - p
        = ((48 + recordStamp Ar + 5 : Nat) : Int) := by omega
    have e1 : p + (48 + recordStamp Ar + 0) = p + 8 + 8 + 8 + 4 + recordStamp Ar + 20 := by
      omega
    have e2 : p + (49 + recordStamp Ar + 0) = p + 8 + 8 + 8 + 4 + recordStamp Ar + 20 + 1 := by
      omega
    unfold recordAt
    rw [hsize, hb, hbb, hrf (48 + recordStamp Ar + 0), hrf (49 + recordStamp Ar + 0), e1, e2]
    cases t <;>
      simp only [FArchive.Tell64, hpos, hss2, h3, if_false, if_true, Bool.false_eq_true]
  · have hb : recordHasBlocks Ar = true := by
      unfold recordHasBlocks
      simp [hm, h3]
    obtain ⟨n, hn⟩ : ∃ n : Nat, recordBlockCount Ar = n :=
      ⟨(recordBlockCount Ar).toNat, (Int.toNat_of_nonneg hc).symm⟩
    have hbb : recordBlockBytes Ar = 4 + 16 * n := by
      unfold recordBlockBytes
      rw [hb, if_pos rfl, hn, Int.toNat_ofNat]
    have hsize : recordSize Ar.PakVer (recordMethod Ar) (recordBlockCount Ar).toNat
        = ((48 + recordStamp Ar + 4 + 16 * n + 5 : Nat) : Int) := by
      unfold recordSize
      rw [if_pos h3, hst, if_pos hm, hn, Int.toNat_ofNat]
      split <;> push_cast <;> ring
    rw [hsize] at hlen ⊢
    have hq : p + (48 + recordStamp Ar) = p + 8 + 8 + 8 + 4 + recordStamp Ar + 20 := by omega
    have hl1 : p + 48 + recordStamp Ar ≤ Ar.data.length := by omega
    have hl2 : p + 8 + 8 + 8 + 4 + recordStamp Ar + 20 + 4 + 16 * n + 5 ≤ Ar.data.length := by
      omega
    have hpos : ((p + 8 + 8 + 8 + 4 + recordStamp Ar + 20 + 4 + 16 * n + 5 : Nat) : Int)
        = Ar.ArPos + ((48 + recordStamp Ar + 4 + 16 * n + 5 : Nat) : Int) := by omega
    have hss2 : Ar.ArPos + ((48 + recordStamp Ar + 4 + 16 * n + 5 : Nat) : Int) - p
        = ((48 + recordStamp Ar + 4 + 16 * n + 5 : Nat) : Int) := by omega
    have e1 : p + (48 + recordStamp Ar + (4 + 16 * n))
        = p + 8 + 8 + 8 + 4 + recordStamp Ar + 20 + 4 + 16 * n := by omega
    have e2 : p + (49 + recordStamp Ar + (4 + 16 * n))
        = p + 8 + 8 + 8 + 4 + recordStamp Ar + 20 + 4 + 16 * n + 1 := by omega
    have e3 : ∀ i, p + (52 + recordStamp Ar + 16 * i)
        = p + 8 + 8 + 8 + 4 + recordStamp Ar + 20 + 4 + 16 * i := fun i => by omega
    have e4 : ∀ i, p + (52 + recordStamp Ar + 16 * i + 8)
        = p + 8 + 8 + 8 + 4 + recordStamp Ar + 20 + 4 + 16 * i + 8 := fun i => by omega
    have hcount : toInt32 (leNat ((Ar.data.drop
        (p + 8 + 8 + 8 + 4 + recordStamp Ar + 20)).take 4)) = (n : Int) := by
      rw [← hn, ← hq, ← hrf]
      unfold recordBlockCount
      rw [hb, if_pos rfl]
    have htail := serializeTail_blocks
      ⟨Ar.data, (p + 8 + 8 + 8 + 4 + recordStamp Ar + 20 : Nat), Ar.ArLicenseeVer⟩
      { P with Pos := toInt64 (leNat (recordField Ar 0 8)),
               Size := toInt64 (leNat (recordField Ar 8 8)),
               UncompressedSize := toInt64 (leNat (recordField Ar 16 8)),
               CompressionMethod := recordMethod Ar,
               Hash := recordField Ar (28 + recordStamp Ar) 20 }
      (p + 8 + 8 + 8 + 4 + recordStamp Ar + 20) n rfl h3 hm hcount hl2
    rw [serialize_of_tail t Ar P _ _ p hpn hl1 htail]
    have hblocks : blocksAt Ar (52 + recordStamp Ar) n = (List.range n).map (fun i =>
        (⟨toInt64 (leNat ((Ar.data.drop
            (p + 8 + 8 + 8 + 4 + recordStamp Ar + 20 + 4 + 16 * i)).take 8)),
          toInt64 (leNat ((Ar.data.drop
            (p + 8 + 8 + 8 + 4 + recordStamp Ar + 20 + 4 + 16 * i + 8)).take 8))⟩ :
          FPakCompressedBlock)) := by
      unfold blocksAt
      simp only [hrf, e3, e4]
    unfold recordAt
    rw [hsize, hb, hbb, hn, Int.toNat_ofNat, hblocks,
      hrf (48 + recordStamp Ar + (4 + 16 * n)), hrf (49 + recordStamp Ar + (4 + 16 * n)), e1, e2]
    cases t <;>
      simp only [FArchive.Tell64, hpos, hss2, h3, if_false, if_true, Bool.false_eq_true]

theorem recordAt_blocks_length (t : Bool) (Ar : FArchive) (P : FPakEntry)
    (hb : recordHasBlocks Ar = true) :
    (recordAt t Ar P).CompressionBlocks.length = (recordBlockCount Ar).toNat := by
  show (if recordHasBlocks Ar then blocksAt Ar (52 + recordStamp Ar)
    (recordBlockCount Ar).toNat else P.CompressionBlocks).length = _
  rw [hb, if_pos rfl]
  unfold blocksAt
  rw [List.length_map, List.length_range]

/-! ## A record of more than 2 GiB -/

theorem hugeRecord_length : hugeRecord.length = 2147483705 := by
  unfold hugeRecord
  rw [List.length_append, List.length_replicate]
  rfl

theorem hugeRecord_field (off size : Nat) (h : off + size ≤ 52) :
    recordField ⟨hugeRecord, 0, 3⟩ off size = (hugeHead.drop off).take size := by
  have hl : hugeHead.length = 52 := rfl
  unfold recordField hugeRecord
  show ((hugeHead ++ List.replicate 2147483653 0).drop (0 + off)).take size = _
  rw [Nat.zero_add, List.drop_append_of_le_length (by omega),
    List.take_append_of_le_length (by rw [List.length_drop]; omega)]

theorem hugeRecord_method : recordMethod ⟨hugeRecord, 0, 3⟩ = 1 := by
  unfold recordMethod
  rw [hugeRecord_field 24 4 (by decide)]
  decide

theorem hugeRecord_hasBlocks : recordHasBlocks ⟨hugeRecord, 0, 3⟩ = true := by
  unfold recordHasBlocks
  rw [hugeRecord_method]
  rfl

theorem hugeRecord_count : recordBlockCount ⟨hugeRecord, 0, 3⟩ = 134217728 := by
  unfold recordBlockCount
  rw [hugeRecord_hasBlocks, if_pos rfl]
  have hs : recordStamp ⟨hugeRecord, 0, 3⟩ = 0 := rfl
  rw [hs, hugeRecord_field 48 4 (by decide)]
  decide

theorem hugeRecord_size :
    recordSize (FArchive.PakVer ⟨hugeRecord, 0, 3⟩) (recordMethod ⟨hugeRecord, 0, 3⟩)
      (recordBlockCount ⟨hugeRecord, 0, 3⟩).toNat = 2147483705 := by
  rw [hugeRecord_method, hugeRecord_count]
  decide

theorem hugeRecord_serialize :
    FPakEntry.serialize false ⟨hugeRecord, 0, 3⟩ FPakEntry.zeroed
      = .ok (recordAt false ⟨hugeRecord, 0, 3⟩ FPakEntry.zeroed, ⟨hugeRecord, 2147483705, 3⟩) := by
  have h := serialize_layout false ⟨hugeRecord, 0, 3⟩ FPakEntry.zeroed (le_refl _)
    (by rw [hugeRecord_count]; decide)
    (by
      rw [hugeRecord_size]
      show (0 : Int) + 2147483705 ≤ (hugeRecord.length : Int)
      rw [hugeRecord_length]
      decide)
  rw [hugeRecord_size] at h
  exact h

/-! ## Reads and the cursor of the shared source -/

theorem content_Seek64 {R1 R2 : FArchive} (h : R1.content = R2.content) (s : Int) :
    R1.Seek64 s = R2.Seek64 s := by
  cases R1; cases R2
  simp only [FArchive.content, FArchive.Seek64, FArchive.mk.injEq, true_and] at h ⊢
  exact h

theorem content_Seek64_self (R : FArchive) (s : Int) : (R.Seek64 s).content = R.content := rfl

theorem source_Serialize_content {Ar Ar1 : FArchive} {n : Int} {c : List Nat}
    (h : Ar.Serialize n = .ok (c, Ar1)) : Ar1.content = Ar.content := by
  obtain ⟨-, -, -, -, rfl⟩ := source_Serialize_ok h
  rfl

theorem source_Serialize_fatal {Ar Ar1 : FArchive} {n : Int}
    (h : Ar.Serialize n = .fatal Ar1) : Ar1 = Ar := by
  unfold FArchive.Serialize at h
  split at h
  · cases h
  · cases h; rfl

/-- The refill of the buffer sees the source only through its content. -/
theorem fetchBlock_cursor (env : Env) (f : FPakFile) {R1 R2 : FArchive}
    (hc : R1.content = R2.content) :
    (f.fetchBlock env R1).mapBoth (fun p => (p.1, p.2.content)) (fun p => (p.1, p.2.content))
      = (f.fetchBlock env R2).mapBoth (fun p => (p.1, p.2.content))
          (fun p => (p.1, p.2.content)) := by
  unfold FPakFile.fetchBlock
  simp only
  by_cases h0 : f.Info.CompressionBlockSize = 0
  · rw [if_pos h0, if_pos h0]
    simp only [Outcome.mapBoth, hc]
  rw [if_neg h0, if_neg h0]
  by_cases hk : Int.tdiv f.ArPos f.Info.CompressionBlockSize < 0
  · rw [if_pos hk, if_pos hk]
    simp only [Outcome.mapBoth, hc]
  rw [if_neg hk, if_neg hk]
  cases hB : f.Info.CompressionBlocks[(Int.tdiv f.ArPos f.Info.CompressionBlockSize).toNat]? with
  | none =>
    simp only [Outcome.mapBoth, hc]
  | some B =>
    simp only
    rw [content_Seek64 hc B.CompressedStart]

theorem pair_cursor_cases {x y : Outcome (FPakFile × FArchive) (FPakFile × FArchive)}
    (h : x.mapBoth (fun p => (p.1, p.2.content)) (fun p => (p.1, p.2.content))
      = y.mapBoth (fun p => (p.1, p.2.content)) (fun p => (p.1, p.2.content))) :
    (∃ f1 r1 r2, x = .ok (f1, r1) ∧ y = .ok (f1, r2) ∧ r1.content = r2.content) ∨
    (∃ f1 r1 r2, x = .fatal (f1, r1) ∧ y = .fatal (f1, r2) ∧ r1.content = r2.content) := by
  cases x with
  | ok p =>
    cases y with
    | ok q =>
      simp only [Outcome.mapBoth, Outcome.ok.injEq, Prod.mk.injEq] at h
      obtain ⟨f1, r1⟩ := p
      obtain ⟨f2, r2⟩ := q
      simp only at h
      obtain ⟨rfl, hr⟩ := h
      exact Or.inl ⟨f1, r1, r2, rfl, rfl, hr⟩
    | fatal q => simp only [Outcome.mapBoth] at h; cases h
  | fatal p =>
    cases y with
    | ok q => simp only [Outcome.mapBoth] at h; cases h
    | fatal q =>
      simp only [Outcome.mapBoth, Outcome.fatal.injEq, Prod.mk.injEq] at h
      obtain ⟨f1, r1⟩ := p
      obtain ⟨f2, r2⟩ := q
      simp only at h
      obtain ⟨rfl, hr⟩ := h
      exact Or.inr ⟨f1, r1, r2, rfl, rfl, hr⟩

theorem prepareBuffer_cursor (env : Env) (f : FPakFile) {R1 R2 : FArchive}
    (hc : R1.content = R2.content) :
    (f.prepareBuffer env R1).mapBoth (fun p => (p.1, p.2.content)) (fun p => (p.1, p.2.content))
      = (f.prepareBuffer env R2).mapBoth (fun p => (p.1, p.2.content))
          (fun p => (p.1, p.2.content)) := by
  unfold FPakFile.prepareBuffer
  by_cases hn : f.bufferNotReady = true
  · rw [if_pos hn, if_pos hn]
    exact fetchBlock_cursor env f hc
  · rw [if_neg hn, if_neg hn]
    simp only [Outcome.mapBoth, hc]

theorem loopBody_cursor (env : Env) (f : FPakFile) {R1 R2 : FArchive}
    (hc : R1.content = R2.content) (size : Int) :
    (∃ res1 res2 size1, f.loopBody env R1 size = .ok (res1, size1) ∧
      f.loopBody env R2 size = .ok (res2, size1) ∧ res1.data = res2.data ∧
      res1.file = res2.file ∧ res1.reader.content = res2.reader.content) ∨
    (∃ res1 res2, f.loopBody env R1 size = .fatal res1 ∧
      f.loopBody env R2 size = .fatal res2 ∧ res1.data = res2.data ∧
      res1.file = res2.file ∧ res1.reader.content = res2.reader.content) := by
  rcases pair_cursor_cases (prepareBuffer_cursor env f hc) with
    ⟨f1, r1, r2, h1, h2, hr⟩ | ⟨f1, r1, r2, h1, h2, hr⟩
  · unfold FPakFile.loopBody
    rw [h1, h2]
    simp only
    generalize (if toInt32 (toInt32 (f1.UncompressedBufferPos + f1.Info.CompressionBlockSize)
        - f1.ArPos) > size then size
      else toInt32 (toInt32 (f1.UncompressedBufferPos + f1.Info.CompressionBlockSize)
        - f1.ArPos)) = btc
    by_cases hb : btc > 0
    · rw [if_pos hb, if_pos hb]
      generalize memcpyFrom (f1.UncompressedBuffer.getD [])
        (toInt32 (f1.ArPos - f1.UncompressedBufferPos)) btc = m
      cases m with
      | none => exact Or.inr ⟨_, _, rfl, rfl, rfl, rfl, hr⟩
      | some bytes => exact Or.inl ⟨_, _, _, rfl, rfl, rfl, rfl, hr⟩
    · rw [if_neg hb, if_neg hb]
      exact Or.inr ⟨_, _, rfl, rfl, rfl, rfl, hr⟩
  · unfold FPakFile.loopBody
    rw [h1, h2]
    exact Or.inr ⟨_, _, rfl, rfl, rfl, rfl, hr⟩

theorem forgetCursor_prepend (b : List Nat) (x : Outcome ReadResult ReadResult) :
    forgetCursor (ReadResult.prepend b x) = ReadResult.prepend b (forgetCursor x) := by
  cases x <;> rfl

theorem forgetCursor_eq {r1 r2 : ReadResult} (hd : r1.data = r2.data) (hf : r1.file = r2.file)
    (hr : r1.reader.content = r2.reader.content) : r1.forgetCursor = r2.forgetCursor := by
  cases r1; cases r2
  simp only at hd hf hr
  simp only [ReadResult.forgetCursor, hd, hf, hr]

theorem SerializeCompressed_cursor (env : Env) :
    ∀ (fuel : Nat) (f : FPakFile) (R1 R2 : FArchive) (size : Int),
      R1.content = R2.content →
      forgetCursor (f.SerializeCompressed env fuel R1 size)
        = forgetCursor (f.SerializeCompressed env fuel R2 size) := by
  intro fuel
  induction fuel with
  | zero =>
    intro f R1 R2 size hc
    unfold FPakFile.SerializeCompressed
    by_cases hs : size > 0
    · rw [if_pos hs, if_pos hs]
      exact congrArg Outcome.fatal (forgetCursor_eq rfl rfl hc)
    · rw [if_neg hs, if_neg hs]
      exact congrArg Outcome.ok (forgetCursor_eq rfl rfl hc)
  | succ fuel ih =>
    intro f R1 R2 size hc
    unfold FPakFile.SerializeCompressed
    by_cases hs : size > 0
    · rw [if_pos hs, if_pos hs]
      rcases loopBody_cursor env f hc size with
        ⟨res1, res2, size1, h1, h2, hd, hf, hr⟩ | ⟨res1, res2, h1, h2, hd, hf, hr⟩
      · rw [h1, h2]
        simp only
        rw [forgetCursor_prepend, forgetCursor_prepend, hd, hf,
          ih res2.file res1.reader res2.reader size1 hr]
      · rw [h1, h2]
        exact congrArg Outcome.fatal (forgetCursor_eq hd hf hr)
    · rw [if_neg hs, if_neg hs]
      exact congrArg Outcome.ok (forgetCursor_eq rfl rfl hc)

theorem SerializeUncompressed_cursor (f : FPakFile) {R1 R2 : FArchive}
    (hc : R1.content = R2.content) (size : Int) :
    f.SerializeUncompressed R1 size = f.SerializeUncompressed R2 size := by
  unfold FPakFile.SerializeUncompressed
  simp only
  rw [content_Seek64 hc]

/-- A read sees the shared source only through its content: the cursor the
source happens to have makes no difference to the bytes, to the reader, to the
content of the source, or to whether the read stops fatally. -/
theorem Serialize_cursor (env : Env) (f : FPakFile) {R1 R2 : FArchive}
    (hc : R1.content = R2.content) (size : Int) :
    forgetCursor (f.Serialize env R1 size) = forgetCursor (f.Serialize env R2 size) := by
  unfold FPakFile.Serialize
  by_cases hst : f.ArStopper > 0 ∧ toInt32 (f.ArPos + size) > f.ArStopper
  · rw [if_pos hst, if_pos hst]
    exact congrArg Outcome.fatal (forgetCursor_eq rfl rfl hc)
  rw [if_neg hst, if_neg hst]
  by_cases hm : f.Info.CompressionMethod ≠ 0
  · rw [if_pos hm, if_pos hm]
    exact SerializeCompressed_cursor env _ f R1 R2 size hc
  · rw [if_neg hm, if_neg hm, SerializeUncompressed_cursor f hc]

theorem prepareBuffer_content {env : Env} {f f1 : FPakFile} {r r1 : FArchive}
    (h : f.prepareBuffer env r = .ok (f1, r1)) : r1.content = r.content := by
  unfold FPakFile.prepareBuffer at h
  split at h
  · obtain ⟨B, c, out, -, -, -, hs, -, -⟩ := fetchBlock_ok h
    have := source_Serialize_content hs
    exact this
  · cases h; rfl

theorem loopBody_reader {env : Env} {f : FPakFile} {r : FArchive} {size size1 : Int}
    {res : ReadResult} (h : f.loopBody env r size = .ok (res, size1)) :
    res.reader.content = r.content := by
  unfold FPakFile.loopBody at h
  cases hp : f.prepareBuffer env r with
  | fatal x => rw [hp] at h; cases h
  | ok p =>
    obtain ⟨f1, r1⟩ := p
    rw [hp] at h
    simp only at h
    generalize (if toInt32 (toInt32 (f1.UncompressedBufferPos + f1.Info.CompressionBlockSize)
        - f1.ArPos) > size then size
      else toInt32 (toInt32 (f1.UncompressedBufferPos + f1.Info.CompressionBlockSize)
        - f1.ArPos)) = btc at h
    by_cases hb : btc > 0
    · rw [if_pos hb] at h
      generalize memcpyFrom (f1.UncompressedBuffer.getD [])
        (toInt32 (f1.ArPos - f1.UncompressedBufferPos)) btc = m at h
      cases m with
      | none => cases h
      | some bytes =>
        cases h
        exact prepareBuffer_content hp
    · rw [if_neg hb] at h
      cases h

theorem SerializeCompressed_reader (env : Env) :
    ∀ (fuel : Nat) (f : FPakFile) (r : FArchive) (size : Int) (res : ReadResult),
      f.SerializeCompressed env fuel r size = .ok res → res.reader.content = r.content := by
  intro fuel
  induction fuel with
  | zero =>
    intro f r size res h
    unfold FPakFile.SerializeCompressed at h
    split at h
    · cases h
    · cases h; rfl
  | succ fuel ih =>
    intro f r size res h
    unfold FPakFile.SerializeCompressed at h
    split at h
    · cases hl : f.loopBody env r size with
      | fatal x => rw [hl] at h; cases h
      | ok p =>
        obtain ⟨res1, size1⟩ := p
        rw [hl] at h
        simp only at h
        cases hn : res1.file.SerializeCompressed env fuel res1.reader size1 with
        | fatal x => rw [hn] at h; cases h
        | ok res2 =>
          rw [hn] at h
          cases h
          exact (ih _ _ _ _ hn).trans (loopBody_reader hl)
    · cases h; rfl

/-- A successful read leaves the content of the source as it was. -/
theorem Serialize_reader {env : Env} {f : FPakFile} {r : FArchive} {size : Int}
    {res : ReadResult} (h : f.Serialize env r size = .ok res) :
    res.reader.content = r.content := by
  unfold FPakFile.Serialize at h
  split at h
  · cases h
  · split at h
    · exact SerializeCompressed_reader env _ f r size res h
    · unfold FPakFile.SerializeUncompressed at h
      simp only at h
      split at h
      · cases h
      · rename_i bytes r1 hs
        have hcont := source_Serialize_content hs
        cases h
        exact hcont

theorem forgetCursor_cases {x y : Outcome ReadResult ReadResult}
    (h : forgetCursor x = forgetCursor y) :
    (∃ r1 r2, x = .ok r1 ∧ y = .ok r2 ∧ r1.data = r2.data ∧ r1.file = r2.file ∧
      r1.reader.content = r2.reader.content) ∨
    (∃ r1 r2, x = .fatal r1 ∧ y = .fatal r2 ∧ r1.data = r2.data ∧ r1.file = r2.file ∧
      r1.reader.content = r2.reader.content) := by
  have key : ∀ r1 r2 : ReadResult, r1.forgetCursor = r2.forgetCursor →
      r1.data = r2.data ∧ r1.file = r2.file ∧ r1.reader.content = r2.reader.content := by
    intro r1 r2 e
    cases r1; cases r2
    simp only [ReadResult.forgetCursor, ReadResult.mk.injEq] at e
    exact e
  cases x with
  | ok r1 =>
    cases y with
    | ok r2 =>
      simp only [forgetCursor, Outcome.mapBoth, Outcome.ok.injEq] at h
      exact Or.inl ⟨r1, r2, rfl, rfl, key r1 r2 h⟩
    | fatal r2 => simp only [forgetCursor, Outcome.mapBoth] at h; cases h
  | fatal r1 =>
    cases y with
    | ok r2 => simp only [forgetCursor, Outcome.mapBoth] at h; cases h
    | fatal r2 =>
      simp only [forgetCursor, Outcome.mapBoth, Outcome.fatal.injEq] at h
      exact Or.inr ⟨r1, r2, rfl, rfl, key r1 r2 h⟩

/-- A sequence of reads of one reader gives the same bytes and the same reader
whatever cursor the source has at the start. -/
theorem readAll_cursor (env : Env) : ∀ (ns : List Int) (f : FPakFile) (R1 R2 : FArchive),
    R1.content = R2.content →
    (FPakFile.readAll env f R1 ns = none ∧ FPakFile.readAll env f R2 ns = none) ∨
    ∃ out f1 r1 r2, FPakFile.readAll env f R1 ns = some (out, f1, r1) ∧
      FPakFile.readAll env f R2 ns = some (out, f1, r2) := by
  intro ns
  induction ns with
  | nil =>
    intro f R1 R2 _
    exact Or.inr ⟨[], f, R1, R2, rfl, rfl⟩
  | cons n ns ih =>
    intro f R1 R2 hc
    unfold FPakFile.readAll
    rcases forgetCursor_cases (Serialize_cursor env f hc n) with
      ⟨x1, x2, h1, h2, hd, hf, hr⟩ | ⟨x1, x2, h1, h2, -, -, -⟩
    · rw [h1, h2]
      simp only
      rw [hd, hf]
      rcases ih x2.file x1.reader x2.reader hr with ⟨g1, g2⟩ | ⟨out, f1, r1, r2, g1, g2⟩
      · rw [g1, g2]
        exact Or.inl ⟨rfl, rfl⟩
      · rw [g1, g2]
        exact Or.inr ⟨_, _, _, _, rfl, rfl⟩
    · rw [h1, h2]
      exact Or.inl ⟨rfl, rfl⟩

theorem sideBySide_cursor_right (env : Env) (a : Option (List (List Nat) × FPakFile × FArchive))
    (ns : List Int) (f : FPakFile) {R1 R2 : FArchive} (hc : R1.content = R2.content) :
    sideBySide a (FPakFile.readAll env f R1 ns) = sideBySide a (FPakFile.readAll env f R2 ns) := by
  rcases readAll_cursor env ns f R1 R2 hc with ⟨g1, g2⟩ | ⟨out, f1, r1, r2, g1, g2⟩
  · rw [g1, g2]
  · rw [g1, g2]
    cases a with
    | none => rfl
    | some x => rfl

theorem sideBySide_cursor_left (env : Env) (b : Option (List (List Nat) × FPakFile × FArchive))
    (ns : List Int) (f : FPakFile) {R1 R2 : FArchive} (hc : R1.content = R2.content) :
    sideBySide (FPakFile.readAll env f R1 ns) b = sideBySide (FPakFile.readAll env f R2 ns) b := by
  rcases readAll_cursor env ns f R1 R2 hc with ⟨g1, g2⟩ | ⟨out, f1, r1, r2, g1, g2⟩
  · rw [g1, g2]
  · rw [g1, g2]
    cases b with
    | none => rfl
    | some x => rfl

/-- Interleaving the reads of two readers on one source gives each reader what
it gets when it runs alone. -/
theorem readInterleaved_eq (env : Env) :
    ∀ (steps : List (Bool × Int)) (fa fb : FPakFile) (R : FArchive),
      readInterleaved env fa fb R steps =
        sideBySide (FPakFile.readAll env fa R (callsOf true steps))
          (FPakFile.readAll env fb R (callsOf false steps)) := by
  intro steps
  induction steps with
  | nil => intro fa fb R; rfl
  | cons s steps ih =>
    intro fa fb R
    obtain ⟨who, n⟩ := s
    cases who with
    | true =>
      have e1 : callsOf true ((true, n) :: steps) = n :: callsOf true steps := rfl
      have e2 : callsOf false ((true, n) :: steps) = callsOf false steps := rfl
      rw [e1, e2]
      unfold readInterleaved
      cases hS : fa.Serialize env R n with
      | fatal x =>
        simp only
        have : FPakFile.readAll env fa R (n :: callsOf true steps) = none := by
          unfold FPakFile.readAll
          rw [hS]
        rw [this]
        rfl
      | ok res =>
        simp only
        have : FPakFile.readAll env fa R (n :: callsOf true steps) =
            (match FPakFile.readAll env res.file res.reader (callsOf true steps) with
              | some (out, f1, r1) => some (res.data :: out, f1, r1)
              | none => none) := by
          rw [FPakFile.readAll, hS]
        rw [this, ih, ← sideBySide_cursor_right env _ _ fb (Serialize_reader hS)]
        cases FPakFile.readAll env res.file res.reader (callsOf true steps) with
        | none => rfl
        | some x =>
          cases FPakFile.readAll env fb res.reader (callsOf false steps) with
          | none => rfl
          | some y => rfl
    | false =>
      have e1 : callsOf true ((false, n) :: steps) = callsOf true steps := rfl
      have e2 : callsOf false ((false, n) :: steps) = n :: callsOf false steps := rfl
      rw [e1, e2]
      unfold readInterleaved
      cases hS : fb.Serialize env R n with
      | fatal x =>
        simp only
        have : FPakFile.readAll env fb R (n :: callsOf false steps) = none := by
          unfold FPakFile.readAll
          rw [hS]
        rw [this]
        cases FPakFile.readAll env fa R (callsOf true steps) <;> rfl
      | ok res =>
        simp only
        have : FPakFile.readAll env fb R (n :: callsOf false steps) =
            (match FPakFile.readAll env res.file res.reader (callsOf false steps) with
              | some (out, f1, r1) => some (res.data :: out, f1, r1)
              | none => none) := by
          rw [FPakFile.readAll, hS]
        rw [this, ih, ← sideBySide_cursor_left env _ _ fa (Serialize_reader hS)]
        cases FPakFile.readAll env fa res.reader (callsOf true steps) with
        | none => rfl
        | some x =>
          cases FPakFile.readAll env res.file res.reader (callsOf false steps) with
          | none => rfl
          | some y => rfl

/-! ## Safety of the compressed read loop -/

theorem writePrefix_length (out buf : List Nat) (h : out.length ≤ buf.length) :
    (writePrefix out buf).length = buf.length := by
  unfold writePrefix
  rw [List.length_append, List.length_drop]
  omega

theorem appMalloc_length (env : Env) (n : Int) (hn : 0 ≤ n) :
    ((env.appMalloc n).length : Int) = n := by
  unfold Env.appMalloc
  rw [List.length_map, List.length_range]
  omega

theorem fetchBlock_shape {env : Env} {f f1 : FPakFile} {r r1 : FArchive}
    (hbs : 0 < f.Info.CompressionBlockSize) (hbs' : f.Info.CompressionBlockSize ≤ 2147483647)
    (hpos : 0 ≤ f.ArPos) (hpos' : f.ArPos ≤ 2147483647)
    (hlen : ∀ buf, f.UncompressedBuffer = some buf →
      (buf.length : Int) = f.Info.CompressionBlockSize)
    (h : f.fetchBlock env r = .ok (f1, r1)) : f1.CacheShape := by
  obtain ⟨B, c, out, -, hk, -, -, hd, rfl⟩ := fetchBlock_ok h
  obtain ⟨t0, t1, t2⟩ := tdiv_block hpos hbs
  have hout := decompress_length hd
  have hb : ((f.UncompressedBuffer.getD (env.appMalloc f.Info.CompressionBlockSize)).length : Int)
      = f.Info.CompressionBlockSize := by
    cases hbuf : f.UncompressedBuffer with
    | none => exact appMalloc_length env _ (by omega)
    | some buf => exact hlen buf hbuf
  intro buf hbuf
  simp only [Option.some.injEq] at hbuf
  subst hbuf
  constructor
  · rw [writePrefix_length _ _ (by
      have : (out.length : Int) ≤ f.Info.CompressionBlockSize := by
        rw [hout]; exact min_le_left _ _
      omega)]
    exact hb
  · refine ⟨(Int.tdiv f.ArPos f.Info.CompressionBlockSize).toNat, ?_⟩
    show toInt32 (f.Info.CompressionBlockSize * Int.tdiv f.ArPos f.Info.CompressionBlockSize) = _
    rw [Int.toNat_of_nonneg hk]
    exact toInt32_eq_self (by
      have := mul_nonneg (le_of_lt hbs) hk
      omega) (by omega)

theorem prepareBuffer_shape {env : Env} {f f1 : FPakFile} {r r1 : FArchive}
    (hbs : 0 < f.Info.CompressionBlockSize) (hbs' : f.Info.CompressionBlockSize ≤ 2147483647)
    (hpos : 0 ≤ f.ArPos) (hpos' : f.ArPos ≤ 2147483647) (hsh : f.CacheShape)
    (h : f.prepareBuffer env r = .ok (f1, r1)) : f1.CacheShape := by
  unfold FPakFile.prepareBuffer at h
  split at h
  · exact fetchBlock_shape hbs hbs' hpos hpos' (fun buf hb => (hsh buf hb).1) h
  · cases h
    exact hsh

/-- One iteration of the loop on a state that satisfies the invariant, once
the buffer has been made ready: the assertion holds, the copy stays within the
decompressed length of the cached block, and the iteration returns. -/
theorem loopBody_safe {env : Env} {E : FPakEntry} {f f1 : FPakFile} {r r1 : FArchive}
    {size : Int} (hbs : 0 < E.CompressionBlockSize) (hbs' : E.CompressionBlockSize ≤ 2147483647)
    (hU : E.UncompressedSize ≤ 2147483647) (hinv : f.LoopInv E size) (hsize : 0 < size)
    (h : f.prepareBuffer env r = .ok (f1, r1)) :
    f1.BytesToCopy size
        = min (f1.UncompressedBufferPos + E.CompressionBlockSize - f.ArPos) size ∧
      f1.OffsetInBuffer = f.ArPos - f1.UncompressedBufferPos ∧
      0 < f1.BytesToCopy size ∧ 0 ≤ f1.OffsetInBuffer ∧
      f1.OffsetInBuffer + f1.BytesToCopy size
        ≤ min E.CompressionBlockSize (E.UncompressedSize - f1.UncompressedBufferPos) ∧
      (∃ k : Nat, f1.UncompressedBufferPos = E.CompressionBlockSize * k) ∧
      ∃ bytes, f.loopBody env r size
          = .ok (⟨bytes, { f1 with ArPos := f.ArPos + f1.BytesToCopy size }, r1⟩,
            size - f1.BytesToCopy size) ∧
        FPakFile.LoopInv E { f1 with ArPos := f.ArPos + f1.BytesToCopy size }
          (size - f1.BytesToCopy size) := by
  obtain ⟨hI, hpos, hbp, hsh, hs0, hend⟩ := hinv
  have hbsf : 0 < f.Info.CompressionBlockSize := by rw [hI]; exact hbs
  have hbsf' : f.Info.CompressionBlockSize ≤ 2147483647 := by rw [hI]; exact hbs'
  obtain ⟨e1, e2, -, ⟨buf, hbuf⟩, hbp1, h1, h2, -, -⟩ :=
    prepareBuffer_ok hbsf hbsf' hbp hpos (by omega) h
  have hsh1 := prepareBuffer_shape hbsf hbsf' hpos (by omega) hsh h
  obtain ⟨hlen, k, hk⟩ := hsh1 buf hbuf
  rw [e1, hI] at hlen hk
  rw [hI] at h2
  have hB : f1.BytesToCopy size
      = min (f1.UncompressedBufferPos + E.CompressionBlockSize - f.ArPos) size := by
    unfold FPakFile.BytesToCopy
    rw [e1, hI, e2]
    have hR : toInt32 (toInt32 (f1.UncompressedBufferPos + E.CompressionBlockSize) - f.ArPos)
        = f1.UncompressedBufferPos + E.CompressionBlockSize - f.ArPos := by
      unfold toInt32; omega
    simp only [hR]
    split
    · rw [min_eq_right (by omega)]
    · rw [min_eq_left (by omega)]
  have hO : f1.OffsetInBuffer = f.ArPos - f1.UncompressedBufferPos := by
    unfold FPakFile.OffsetInBuffer
    rw [e2]
    unfold toInt32; omega
  have hle1 : min (f1.UncompressedBufferPos + E.CompressionBlockSize - f.ArPos) size
      ≤ f1.UncompressedBufferPos + E.CompressionBlockSize - f.ArPos := min_le_left _ _
  have hle2 : min (f1.UncompressedBufferPos + E.CompressionBlockSize - f.ArPos) size ≤ size :=
    min_le_right _ _
  have hpos1 : 0 < min (f1.UncompressedBufferPos + E.CompressionBlockSize - f.ArPos) size :=
    lt_min (by omega) hsize
  refine ⟨hB, hO, by rw [hB]; exact hpos1, by rw [hO]; omega, ?_, ⟨k, hk⟩, ?_⟩
  · rw [hO, hB]
    exact le_min (by omega) (by omega)
  · have hmem : memcpyFrom (f1.UncompressedBuffer.getD []) (f.ArPos - f1.UncompressedBufferPos)
        (min (f1.UncompressedBufferPos + E.CompressionBlockSize - f.ArPos) size)
        = some (((f1.UncompressedBuffer.getD []).drop
            (f.ArPos - f1.UncompressedBufferPos).toNat).take
            (min (f1.UncompressedBufferPos + E.CompressionBlockSize - f.ArPos) size).toNat) := by
      unfold memcpyFrom
      rw [hbuf, Option.getD_some, if_pos ⟨by omega, by omega, by omega⟩]
    have hl := loopBody_eq hbsf hbsf' hbp hpos hsize (by omega) h
    rw [hI, hmem] at hl
    refine ⟨((f1.UncompressedBuffer.getD []).drop
        (f.ArPos - f1.UncompressedBufferPos).toNat).take
        (min (f1.UncompressedBufferPos + E.CompressionBlockSize - f.ArPos) size).toNat, ?_, ?_⟩
    · rw [hl, hB]
    · rw [hB]
      refine ⟨e1.trans hI, by show 0 ≤ f.ArPos + _; omega, hbp1, ?_, by omega, ?_⟩
      · intro b hb
        exact hsh1 b hb
      · show f.ArPos + _ + _ ≤ _
        omega

theorem cover_of_blocks {U bs : Int} {N : Nat} (hbs : 0 < bs)
    (h : (N : Int) = (U + bs - 1) / bs) : U ≤ bs * N := by
  have h1 := Int.emod_add_ediv (U + bs - 1) bs
  have h2 := Int.emod_lt_of_pos (U + bs - 1) hbs
  rw [← h] at h1
  omega

theorem BlockIndex_valid {f : FPakFile} {E : FPakEntry} {size : Int}
    (hbs : 0 < E.CompressionBlockSize)
    (hcover : E.UncompressedSize ≤ E.CompressionBlockSize * E.CompressionBlocks.length)
    (hinv : f.LoopInv E size) (hsize : 0 < size) :
    0 ≤ f.BlockIndex ∧ f.BlockIndex < E.CompressionBlocks.length ∧
      ∃ B, f.Info.CompressionBlocks[f.BlockIndex.toNat]? = some B := by
  obtain ⟨hI, hpos, -, -, -, hend⟩ := hinv
  unfold FPakFile.BlockIndex
  rw [hI]
  obtain ⟨t0, t1, -⟩ := tdiv_block hpos hbs
  have hlt : (Int.tdiv f.ArPos E.CompressionBlockSize).toNat < E.CompressionBlocks.length := by
    apply block_index_lt hbs _ (show f.ArPos < E.UncompressedSize by omega) hcover
    rw [Int.toNat_of_nonneg t0]
    exact t1
  refine ⟨t0, by omega, ?_⟩
  exact ⟨E.CompressionBlocks[(Int.tdiv f.ArPos E.CompressionBlockSize).toNat],
    List.getElem?_eq_getElem hlt⟩

/-- When the refill of the buffer stops fatally although the block size is
not zero and the block index is valid, it is the byte source or the
decompressor that stopped it. -/
theorem prepareBuffer_fatal_cause {env : Env} {f : FPakFile} {r : FArchive}
    {x : FPakFile × FArchive} {B : FPakCompressedBlock}
    (hbs : f.Info.CompressionBlockSize ≠ 0) (hk : 0 ≤ f.BlockIndex)
    (hB : f.Info.CompressionBlocks[f.BlockIndex.toNat]? = some B)
    (h : f.prepareBuffer env r = .fatal x) :
    f.bufferNotReady = true ∧
    ((∃ r1, (r.Seek64 B.CompressedStart).Serialize
        (toInt32 (B.CompressedEnd - B.CompressedStart)) = .fatal r1) ∨
      ∃ c r1, (r.Seek64 B.CompressedStart).Serialize
          (toInt32 (B.CompressedEnd - B.CompressedStart)) = .ok (c, r1) ∧
        env.decompress c
          (min f.Info.CompressionBlockSize
            (toInt32 (toInt32 f.Info.UncompressedSize -
              toInt32 (f.Info.CompressionBlockSize * f.BlockIndex))))
          f.Info.CompressionMethod = none) := by
  unfold FPakFile.BlockIndex at hk hB ⊢
  unfold FPakFile.prepareBuffer at h
  by_cases hn : f.bufferNotReady = true
  swap
  · rw [if_neg hn] at h; cases h
  refine ⟨hn, ?_⟩
  rw [if_pos hn] at h
  unfold FPakFile.fetchBlock at h
  simp only at h
  rw [if_neg hbs, if_neg (not_lt.mpr hk), hB] at h
  simp only at h
  cases hs : (r.Seek64 B.CompressedStart).Serialize
      (toInt32 (B.CompressedEnd - B.CompressedStart)) with
  | fatal r1 => exact Or.inl ⟨r1, rfl⟩
  | ok p =>
    obtain ⟨c, r1⟩ := p
    rw [hs] at h
    simp only at h
    refine Or.inr ⟨c, r1, rfl, ?_⟩
    cases hd : env.decompress c
        (min f.Info.CompressionBlockSize
          (toInt32 (toInt32 f.Info.UncompressedSize -
            toInt32 (f.Info.CompressionBlockSize *
              Int.tdiv f.ArPos f.Info.CompressionBlockSize))))
        f.Info.CompressionMethod with
    | none => rfl
    | some out => rw [hd] at h; cases h

/-- An iteration that returns leaves a state that satisfies the invariant. -/
theorem loopBody_inv {env : Env} {E : FPakEntry} {f : FPakFile} {r : FArchive}
    {size size1 : Int} {res : ReadResult}
    (hbs : 0 < E.CompressionBlockSize) (hbs' : E.CompressionBlockSize ≤ 2147483647)
    (hU : E.UncompressedSize ≤ 2147483647) (hinv : f.LoopInv E size) (hsize : 0 < size)
    (h : f.loopBody env r size = .ok (res, size1)) :
    res.file.LoopInv E size1 ∧
      ∃ f1 r1, f.prepareBuffer env r = .ok (f1, r1) ∧
        res.file.ArPos = f.ArPos + f1.BytesToCopy size ∧ size1 = size - f1.BytesToCopy size ∧
        f1.BytesToCopy size
          = min (f1.UncompressedBufferPos + E.CompressionBlockSize - f.ArPos) size ∧
        f1.UncompressedBufferPos ≤ f.ArPos ∧
        f.ArPos < f1.UncompressedBufferPos + E.CompressionBlockSize ∧
        ∃ k : Nat, f1.UncompressedBufferPos = E.CompressionBlockSize * k := by
  obtain ⟨f1, r1, hp⟩ := loopBody_ok_prepare h
  obtain ⟨hB, hO, h0, h1, -, hk, bytes, hl, hinv1⟩ := loopBody_safe hbs hbs' hU hinv hsize hp
  rw [hl] at h
  simp only [Outcome.ok.injEq, Prod.mk.injEq] at h
  obtain ⟨rfl, rfl⟩ := h
  refine ⟨hinv1, f1, r1, hp, rfl, rfl, hB, by omega, ?_, hk⟩
  have := min_le_left (f1.UncompressedBufferPos + E.CompressionBlockSize - f.ArPos) size
  omega

theorem InLoop_inv {env : Env} {E : FPakEntry} {f0 f : FPakFile} {R0 R : FArchive}
    {n0 size : Int} (hbs : 0 < E.CompressionBlockSize)
    (hbs' : E.CompressionBlockSize ≤ 2147483647) (hU : E.UncompressedSize ≤ 2147483647)
    (h0 : f0.LoopInv E n0) (h : InLoop env f0 R0 n0 f R size) : f.LoopInv E size := by
  induction h with
  | start => exact h0
  | next f R size res size1 _ hs hb ih => exact (loopBody_inv hbs hbs' hU ih hs hb).1

theorem ediv_block {p bs : Int} {k : Nat} (hbs : 0 < bs) (h1 : bs * k ≤ p)
    (h2 : p < bs * k + bs) : p / bs = k := by
  have := (Int.ediv_emod_unique (a := p) (r := p - bs * k) (q := k) hbs).mpr
    ⟨by omega, by omega, by omega⟩
  exact this.1

theorem ediv_next_block {bs : Int} {k : Nat} (hbs : 0 < bs) : (bs * k + bs) / bs = k + 1 := by
  have := (Int.ediv_emod_unique (a := bs * k + bs) (r := 0) (q := k + 1) hbs).mpr
    ⟨by ring, le_refl _, hbs⟩
  exact this.1

/-- The loop ends within `floor((p + n - 1) / bs) - floor(p / bs) + 1`
iterations. -/
theorem loopEnds_bound (env : Env) {E : FPakEntry} (hbs : 0 < E.CompressionBlockSize)
    (hbs' : E.CompressionBlockSize ≤ 2147483647) (hU : E.UncompressedSize ≤ 2147483647) :
    ∀ (fuel : Nat) (f : FPakFile) (R : FArchive) (size : Int), f.LoopInv E size →
      (0 < size → (f.ArPos + size - 1) / E.CompressionBlockSize
        - f.ArPos / E.CompressionBlockSize + 1 ≤ fuel) →
      f.loopEnds env fuel R size = true := by
  have hge : ∀ p s : Int, 0 < s →
      p / E.CompressionBlockSize ≤ (p + s - 1) / E.CompressionBlockSize :=
    fun p s hs => Int.ediv_le_ediv hbs (by omega)
  intro fuel
  induction fuel with
  | zero =>
    intro f R size hinv hb
    unfold FPakFile.loopEnds
    by_cases hs : 0 < size
    · have := hb hs
      have := hge f.ArPos size hs
      omega
    · exact decide_eq_true (by omega)
  | succ fuel ih =>
    intro f R size hinv hb
    unfold FPakFile.loopEnds
    by_cases hs : size > 0
    swap
    · rw [if_neg hs]
    rw [if_pos hs]
    cases hl : f.loopBody env R size with
    | fatal x => rfl
    | ok p =>
      obtain ⟨res, size1⟩ := p
      simp only
      obtain ⟨hinv1, f1, r1, -, ha, hs1, hB, hlo, hhi, k, hk⟩ :=
        loopBody_inv hbs hbs' hU hinv hs hl
      apply ih _ _ _ hinv1
      intro hpos1
      have hb1 := hb hs
      have hc : f1.BytesToCopy size
          = f1.UncompressedBufferPos + E.CompressionBlockSize - f.ArPos := by
        rw [hB]
        apply min_eq_left
        by_contra hcon
        rw [hB, min_eq_right (by omega)] at hs1
        omega
      have e1 : res.file.ArPos = E.CompressionBlockSize * k + E.CompressionBlockSize := by
        rw [ha, hc, hk]; ring
      have e2 : res.file.ArPos + size1 - 1 = f.ArPos + size - 1 := by
        rw [ha, hs1]; ring
      have e3 : f.ArPos / E.CompressionBlockSize = k :=
        ediv_block hbs (by rw [← hk]; exact hlo) (by rw [← hk]; exact hhi)
      rw [e2, e1, ediv_next_block hbs]
      rw [e3] at hb1
      push_cast at hb1 ⊢
      omega

/-- Once the loop ends within `fuel` iterations, more fuel changes nothing. -/
theorem loopEnds_fuel (env : Env) : ∀ (fuel : Nat) (f : FPakFile) (R : FArchive) (size : Int),
    f.loopEnds env fuel R size = true → ∀ more : Nat,
      f.SerializeCompressed env (fuel + more) R size = f.SerializeCompressed env fuel R size := by
  intro fuel
  induction fuel with
  | zero =>
    intro f R size h more
    unfold FPakFile.loopEnds at h
    have hs : size ≤ 0 := of_decide_eq_true h
    rw [SerializeCompressed_nonpos env _ f R hs, SerializeCompressed_nonpos env _ f R hs]
  | succ fuel ih =>
    intro f R size h more
    have e : fuel + 1 + more = (fuel + more) + 1 := by omega
    rw [e]
    unfold FPakFile.loopEnds at h
    unfold FPakFile.SerializeCompressed
    by_cases hs : size > 0
    swap
    · rw [if_neg hs, if_neg hs]
    rw [if_pos hs] at h
    rw [if_pos hs, if_pos hs]
    cases hl : f.loopBody env R size with
    | fatal x => rfl
    | ok p =>
      obtain ⟨res, size1⟩ := p
      rw [hl] at h
      simp only at h ⊢
      rw [ih res.file res.reader size1 h more]

theorem SerializeCompressed_inv (env : Env) {E : FPakEntry} (hbs : 0 < E.CompressionBlockSize)
    (hbs' : E.CompressionBlockSize ≤ 2147483647) (hU : E.UncompressedSize ≤ 2147483647) :
    ∀ (fuel : Nat) (f : FPakFile) (R : FArchive) (size : Int) (res : ReadResult),
      f.LoopInv E size → f.SerializeCompressed env fuel R size = .ok res →
      res.file.CacheShape := by
  intro fuel
  induction fuel with
  | zero =>
    intro f R size res hinv h
    unfold FPakFile.SerializeCompressed at h
    split at h
    · cases h
    · cases h; exact hinv.2.2.2.1
  | succ fuel ih =>
    intro f R size res hinv h
    unfold FPakFile.SerializeCompressed at h
    by_cases hs : size > 0
    swap
    · rw [if_neg hs] at h
      cases h
      exact hinv.2.2.2.1
    rw [if_pos hs] at h
    cases hl : f.loopBody env R size with
    | fatal x => rw [hl] at h; cases h
    | ok p =>
      obtain ⟨res1, size1⟩ := p
      rw [hl] at h
      simp only at h
      cases hn : res1.file.SerializeCompressed env fuel res1.reader size1 with
      | fatal x => rw [hn] at h; cases h
      | ok res2 =>
        rw [hn] at h
        cases h
        exact ih res1.file res1.reader size1 res2 (loopBody_inv hbs hbs' hU hinv hs hl).1 hn

/-- Every reachable reader of a compressed entry has the cache in shape. -/
theorem Reachable_shape {env : Env} {src : List Nat} {E : FPakEntry}
    (hm : E.CompressionMethod ≠ 0) (hbs : 0 < E.CompressionBlockSize)
    (hbs' : E.CompressionBlockSize ≤ 2147483647) (hU0 : 0 ≤ E.UncompressedSize)
    (hU : E.UncompressedSize ≤ 2147483647) {f : FPakFile} (hf : Reachable env src E f) :
    f.CacheShape := by
  induction hf with
  | create junk hj =>
    intro buf hb
    cases hb
  | seek f f1 Pos hf h ih =>
    obtain ⟨-, -, rfl⟩ := Seek_ok h
    exact ih
  | read f Reader size res hf hsrc hsize hend h ih =>
    obtain ⟨hI, hst, hpos, -, hbp, -⟩ := Reachable_position hU0 hU ⟨by omega, hbs'⟩ hf
    rw [Serialize_compressed_eq env f Reader size (by rw [hI]; exact hm)
      (by rw [hst]; omega)] at h
    exact SerializeCompressed_inv env hbs hbs' hU _ f Reader size res
      ⟨hI, hpos, hbp, ih, hsize, hend⟩ h
/-! # The claims -/

/-- C1 (as amended): for every compressed entry (compression method non-zero,
block size positive, blocks covering `[0, uncompressedSize)`, every block
decompressible) whose uncompressed size and compressed block lengths fit the
reader's 32-bit `int`, for every reader state reachable by earlier seeks and
reads, and every count `n ≥ 0` with `position + n ≤ uncompressedSize`,
`Serialize` returns normally, writes exactly the bytes
`[position, position + n)` of the concatenation of the decompressed blocks, and
leaves the position at `position + n`. -/
theorem C1_compressed_read_delivers_content (env : Env) (src : List Nat) (E : FPakEntry)
    (content : List Nat) (hm : E.CompressionMethod ≠ 0) (hbs : 0 < E.CompressionBlockSize)
    (hbs' : IsInt32 E.CompressionBlockSize) (hU : E.UncompressedSize ≤ 2147483647)
    (hcover : E.UncompressedSize ≤ E.CompressionBlockSize * E.CompressionBlocks.length)
    (hspans : ∀ B ∈ E.CompressionBlocks, B.CompressedEnd - B.CompressedStart ≤ 2147483647)
    (hcontent : entryContent env src E = some content)
    (f : FPakFile) (hf : Reachable env src E f) (Reader : FArchive) (hr : Reader.data = src)
    (n : Int) (hn : 0 ≤ n) (hend : f.ArPos + n ≤ E.UncompressedSize) :
    ∃ res, f.Serialize env Reader n = .ok res ∧
      res.data = (content.drop f.ArPos.toNat).take n.toNat ∧
      (res.data.length : Int) = n ∧
      res.file.ArPos = f.ArPos + n := by
  have V : ValidCompressed env src E content :=
    ⟨hm, hbs, hbs'.2, hU, hcover, hspans, hcontent⟩
  obtain ⟨i1, i2, i3, i4, i5⟩ := Reachable_valid V hf
  have hst : ¬ (f.ArStopper > 0 ∧ toInt32 (f.ArPos + n) > f.ArStopper) := by
    rw [i2]; omega
  rw [Serialize_compressed_eq env f Reader n (by rw [i1]; exact hm) hst]
  obtain ⟨res, h1, h2, -⟩ := SerializeCompressed_content V n.toNat f Reader n (le_refl _)
    i1 hr i3 i4 i5 hn hend
  obtain ⟨-, -, g3, g4, -, -, -⟩ := SerializeCompressed_ok_state env _ f Reader n res (le_refl _)
    (by rw [i1]; exact hbs) (by rw [i1]; exact hbs'.2) i4 i5 hn (by omega) h1
  exact ⟨res, h1, h2, g4, g3⟩

/-- Witness of C1: a reader that has read 3 bytes reads the next 6, across a
block boundary. -/
theorem C1_witness :
    Reachable demoEnv demoSrc demoEntry demoFirst.file ∧
    ∃ res, demoFirst.file.Serialize demoEnv demoReader 6 = .ok res ∧
      res.data = ((demoSrc.take 11).drop demoFirst.file.ArPos.toNat).take (6 : Int).toNat ∧
      (res.data.length : Int) = 6 ∧
      res.file.ArPos = demoFirst.file.ArPos + 6 :=
  ⟨demoFirst_reachable,
    C1_compressed_read_delivers_content demoEnv demoSrc demoEntry (demoSrc.take 11)
      (by decide) (by decide) (by decide) (by decide) (by decide) (by decide) (by decide)
      demoFirst.file demoFirst_reachable demoReader rfl 6 (by decide) (by decide)⟩

/-- Counterexample to C1 as stated: a compressed entry of exactly 2 GiB in two
decompressible blocks of 1 GiB. The reader computes the length of block 0 from
`(int)UncompressedSize = -2147483648`, asks the decompressor for a negative
number of bytes, and the read of the first byte stops fatally instead of
delivering it. -/
theorem C1_counterexample :
    bigEntry.CompressionMethod ≠ 0 ∧ 0 < bigEntry.CompressionBlockSize ∧
    bigEntry.UncompressedSize
      ≤ bigEntry.CompressionBlockSize * bigEntry.CompressionBlocks.length ∧
    entryContent bigEnv bigSrc bigEntry
      = some (([] ++ List.replicate (1073741824 : Int).toNat 7)
          ++ List.replicate (1073741824 : Int).toNat 9) ∧
    Reachable bigEnv bigSrc bigEntry (FPakFile.create bigEntry 0) ∧
    (FPakFile.create bigEntry 0).ArPos + 1 ≤ bigEntry.UncompressedSize ∧
    ((FPakFile.create bigEntry 0).Serialize bigEnv ⟨bigSrc, 0, 0⟩ 1).toOption = none :=
  ⟨by decide, by decide, by decide, bigEntry_content, Reachable.create 0 (by decide), by decide,
    by decide⟩

/-- C2: for every compressed entry (compression method non-zero, block size
positive), every reader state, every start position `p` and all `a, b ≥ 0`
whose end position `p + a + b` is a value of the reader's `int` position,
`seek(p)` followed by one read of `a + b` bytes and `seek(p)` followed by a read
of `a` bytes and a read of `b` bytes agree: either both stop fatally, or both
return the same bytes and leave the same reader (position and cache) and the
same source. Block boundaries inside `[p, p + a + b)` make no difference, and
the bound by `uncompressedSize` is not needed. -/
theorem C2_split_read_agrees (env : Env) (f0 : FPakFile) (r : FArchive) (p a b : Int)
    (hm : f0.Info.CompressionMethod ≠ 0) (hbs : 0 < f0.Info.CompressionBlockSize)
    (hbs' : IsInt32 f0.Info.CompressionBlockSize) (hbp : IsInt32 f0.UncompressedBufferPos)
    (ha : 0 ≤ a) (hb : 0 ≤ b) (hend : IsInt32 (p + a + b)) :
    (f0.seekThen r p (fun f r => f.Serialize env r (a + b))).toOption =
      (f0.seekThen r p (fun f r =>
        ReadResult.andThen (f.Serialize env r a) (fun f1 r1 => f1.Serialize env r1 b))).toOption := by
  unfold FPakFile.seekThen
  cases hs : f0.Seek p with
  | fatal x => rfl
  | ok f =>
    obtain ⟨h1, -, h3⟩ := Seek_ok hs
    subst h3
    exact Serialize_split env _ r a b hm hbs hbs'.2 hbp h1 ha hb hend.2

/-- Witness of C2: `seek(compressionBlockSize - 3)`, then `read(10)` against
`read(3)` and `read(7)`; both deliver the bytes 1 to 10 of the entry. -/
theorem C2_witness :
    (demoFirst.file.seekThen demoReader 1 (fun f r => f.Serialize demoEnv r (3 + 7))).toOption =
      (demoFirst.file.seekThen demoReader 1 (fun f r =>
        ReadResult.andThen (f.Serialize demoEnv r 3)
          (fun f1 r1 => f1.Serialize demoEnv r1 7))).toOption ∧
    ((demoFirst.file.seekThen demoReader 1 (fun f r =>
        ReadResult.andThen (f.Serialize demoEnv r 3)
          (fun f1 r1 => f1.Serialize demoEnv r1 7))).toOption.map (fun res => res.data))
      = some [11, 12, 13, 14, 15, 16, 17, 18, 19, 20] :=
  ⟨C2_split_read_agrees demoEnv demoFirst.file demoReader 1 3 7 (by decide) (by decide)
    (by decide) (by decide) (by decide) (by decide) (by decide), by decide⟩

/-- C3 (as amended): for every uncompressed entry (compression method 0) that
is not empty, whose size fits the `int` count of a read and whose payload
`[Pos + StructSize, Pos + StructSize + uncompressedSize)` lies inside the
source, reading `uncompressedSize` bytes from position 0 (no stopper set)
yields exactly the `uncompressedSize` source bytes starting at
`Pos + StructSize`, and a subsequent `seek(0)` followed by the same read
succeeds and yields identical bytes. -/
theorem C3_uncompressed_round_trip (env : Env) (f : FPakFile) (Reader : FArchive)
    (hm : f.Info.CompressionMethod = 0) (hpos : f.ArPos = 0) (hst : f.ArStopper = 0)
    (hne : 0 < f.Info.UncompressedSize) (hU : f.Info.UncompressedSize ≤ 2147483647)
    (hlo : 0 ≤ f.Info.Pos + f.Info.StructSize)
    (hhi : f.Info.Pos + f.Info.StructSize + f.Info.UncompressedSize ≤ Reader.data.length) :
    ∃ res1 f2 res2,
      f.Serialize env Reader f.Info.UncompressedSize = .ok res1 ∧
      res1.data = (Reader.data.drop (f.Info.Pos + f.Info.StructSize).toNat).take
        f.Info.UncompressedSize.toNat ∧
      (res1.data.length : Int) = f.Info.UncompressedSize ∧
      res1.file.Seek 0 = .ok f2 ∧
      f2.Serialize env res1.reader f.Info.UncompressedSize = .ok res2 ∧
      res2.data = res1.data := by
  have hs1 : ¬ (f.ArStopper > 0 ∧ toInt32 (f.ArPos + f.Info.UncompressedSize) > f.ArStopper) := by
    rw [hst]; omega
  have e1 := (Serialize_uncompressed_eq env f Reader f.Info.UncompressedSize hm hs1).trans
    (SerializeUncompressed_of (by rw [hpos]; omega) (by omega) (by rw [hpos]; omega))
  have e2 := (Serialize_uncompressed_eq env { f with ArPos := 0 }
      { Reader with ArPos := f.Info.Pos + f.Info.StructSize + f.ArPos + f.Info.UncompressedSize }
      f.Info.UncompressedSize hm (by show ¬ (f.ArStopper > 0 ∧ _); rw [hst]; omega)).trans
    (SerializeUncompressed_of (by show 0 ≤ f.Info.Pos + f.Info.StructSize + 0; omega) (by omega)
      (by show f.Info.Pos + f.Info.StructSize + 0 + _ ≤ (Reader.data.length : Int); omega))
  refine ⟨_, { f with ArPos := 0 }, _, e1, ?_, ?_, ?_, e2, ?_⟩
  · simp only [hpos, add_zero]
  · simp only [List.length_take, List.length_drop, hpos]
    omega
  · unfold FPakFile.Seek
    rw [if_pos ⟨le_refl _, hne⟩]
  · simp only [hpos, add_zero]

/-- Witness of C3 on the 5-byte stored entry. -/
theorem C3_witness :
    ∃ res1 f2 res2,
      (FPakFile.create storedEntry 0).Serialize demoEnv demoReader 5 = .ok res1 ∧
      res1.data = (demoSrc.drop 3).take 5 ∧
      (res1.data.length : Int) = 5 ∧
      res1.file.Seek 0 = .ok f2 ∧
      f2.Serialize demoEnv res1.reader 5 = .ok res2 ∧
      res2.data = res1.data :=
  C3_uncompressed_round_trip demoEnv (FPakFile.create storedEntry 0) demoReader rfl rfl rfl
    (by decide) (by decide) (by decide) (by decide)

/-- Counterexample to C3 as stated: for an empty uncompressed entry the read of
`uncompressedSize = 0` bytes succeeds, but the subsequent `seek(0)` stops
fatally. -/
theorem C3_counterexample :
    emptyEntry.CompressionMethod = 0 ∧
    (FPakFile.create emptyEntry 0).Serialize demoEnv demoReader emptyEntry.UncompressedSize
      = .ok ⟨[], FPakFile.create emptyEntry 0, { demoReader with ArPos := 3 }⟩ ∧
    (FPakFile.create emptyEntry 0).Seek 0 = .fatal (FPakFile.create emptyEntry 0) := by
  decide

/-- C4: for every reader and every integer `pos`, `Seek(pos)` succeeds if and
only if `0 ≤ pos < uncompressedSize`; on success the position is `pos` and the
decompression cache (buffer and cached block start), the entry and the stopper
are unchanged; otherwise it stops fatally (failed assertion) with the reader
unchanged, in particular without changing the position. -/
theorem C4_seek_succeeds_iff_in_range (f : FPakFile) (pos : Int) :
    ((∃ f1, f.Seek pos = .ok f1) ↔ (0 ≤ pos ∧ pos < f.Info.UncompressedSize)) ∧
    (∀ f1, f.Seek pos = .ok f1 →
      f1.ArPos = pos ∧ f1.UncompressedBuffer = f.UncompressedBuffer ∧
      f1.UncompressedBufferPos = f.UncompressedBufferPos ∧ f1.Info = f.Info ∧
      f1.ArStopper = f.ArStopper) ∧
    (¬ (0 ≤ pos ∧ pos < f.Info.UncompressedSize) → f.Seek pos = .fatal f) := by
  refine ⟨⟨?_, ?_⟩, ?_, ?_⟩
  · rintro ⟨f1, h⟩
    obtain ⟨h1, h2, -⟩ := Seek_ok h
    exact ⟨h1, h2⟩
  · intro h
    refine ⟨{ f with ArPos := pos }, ?_⟩
    unfold FPakFile.Seek
    rw [if_pos ⟨h.1, h.2⟩]
  · intro f1 h
    obtain ⟨-, -, rfl⟩ := Seek_ok h
    exact ⟨rfl, rfl, rfl, rfl, rfl⟩
  · intro h
    unfold FPakFile.Seek
    rw [if_neg (by simpa using h)]

/-- C5 (as amended): for every entry whose size is non-negative and fits the
reader's `int` position, in every state of a reader reachable from its creation
by successful seeks and reads that stay within the entry, the position
satisfies `0 ≤ position ≤ uncompressedSize`. -/
theorem C5_position_within_entry (env : Env) (src : List Nat) (E : FPakEntry)
    (hU0 : 0 ≤ E.UncompressedSize) (hU : E.UncompressedSize ≤ 2147483647)
    (hbs : IsInt32 E.CompressionBlockSize) (f : FPakFile) (hf : Reachable env src E f) :
    0 ≤ f.ArPos ∧ f.ArPos ≤ E.UncompressedSize := by
  obtain ⟨-, -, h1, h2, -, -⟩ := Reachable_position hU0 hU hbs hf
  exact ⟨h1, h2⟩

/-- Witness of C5 on the reader that has read the whole stored entry. -/
theorem C5_witness :
    Reachable demoEnv demoSrc storedEntry storedAll.file ∧
    0 ≤ storedAll.file.ArPos ∧ storedAll.file.ArPos ≤ storedEntry.UncompressedSize :=
  ⟨storedAll_reachable,
    C5_position_within_entry demoEnv demoSrc storedEntry (by decide) (by decide) (by decide)
      storedAll.file storedAll_reachable⟩

/-- Counterexample to C5 as stated: after reading an entry to its end the
position equals `uncompressedSize`. -/
theorem C5_counterexample :
    Reachable demoEnv demoSrc storedEntry storedAll.file ∧
    ¬ (storedAll.file.ArPos < storedEntry.UncompressedSize) :=
  ⟨storedAll_reachable, by decide⟩

/-- C6: for every archive state (with or without the hash table, whatever the
last-found cache holds) and every two names that differ only in ASCII letter
case, `GetHashForFileName` gives the same hash and `FindFile` returns the same
entry (or null for both) and leaves the same state; hence `CreateReader` and
`GetFileSize` give the same result for the two names. -/
theorem C6_lookup_ignores_letter_case (vfs : FPakVFS) (n1 n2 : List Nat) (junk : Int)
    (h : SameModCase n1 n2) :
    GetHashForFileName n1 = GetHashForFileName n2 ∧
    vfs.FindFile n1 = vfs.FindFile n2 ∧
    vfs.CreateReader n1 junk = vfs.CreateReader n2 junk ∧
    vfs.GetFileSize n1 = vfs.GetFileSize n2 := by
  have hf := FindFile_congr vfs h
  refine ⟨GetHashForFileName_congr h, hf, ?_, ?_⟩
  · unfold FPakVFS.CreateReader
    rw [hf]
  · unfold FPakVFS.GetFileSize
    rw [hf]

set_option maxRecDepth 1000000 in
/-- Witness of C6: `"/A/B.bin"` and `"/a/b.BIN"` resolve to the same entry of
the archive of `demoArchive`, its entry 0. -/
theorem C6_witness :
    SameModCase [47, 65, 47, 66, 46, 98, 105, 110] [47, 97, 47, 98, 46, 66, 73, 78] ∧
    (demoVFS.FindFile [47, 65, 47, 66, 46, 98, 105, 110]).1 = some 0 ∧
    (GetHashForFileName [47, 65, 47, 66, 46, 98, 105, 110]
      = GetHashForFileName [47, 97, 47, 98, 46, 66, 73, 78] ∧
    demoVFS.FindFile [47, 65, 47, 66, 46, 98, 105, 110]
      = demoVFS.FindFile [47, 97, 47, 98, 46, 66, 73, 78] ∧
    demoVFS.CreateReader [47, 65, 47, 66, 46, 98, 105, 110] 0
      = demoVFS.CreateReader [47, 97, 47, 98, 46, 66, 73, 78] 0 ∧
    demoVFS.GetFileSize [47, 65, 47, 66, 46, 98, 105, 110]
      = demoVFS.GetFileSize [47, 97, 47, 98, 46, 66, 73, 78]) :=
  ⟨by decide, by decide,
    C6_lookup_ignores_letter_case demoVFS [47, 65, 47, 66, 46, 98, 105, 110]
      [47, 97, 47, 98, 46, 66, 73, 78] 0 (by decide)⟩

/-- C7 (as amended): when `AttachReader` on a fresh archive returns true, the
index blob of the source was readable, `NumFiles()` equals the entry count
declared in it, and for every i below that count `FileName(i)` is the
normalized mount point followed by the i-th raw name in on-disk order. In
every state of the last-found cache that name is found by the lookup: it
resolves to an entry j whose name equals it up to letter case, `GetFileSize`
gives `(int)` of the uncompressed size of entry j (the size itself when it is
between 0 and 2147483647), and `CreateReader` gives a reader on entry j exactly
when entry j is not encrypted, null when it is. Entry j is entry i whenever no
other entry has the same name up to letter case, which is so for every entry
when the names are pairwise distinct under `stricmp`, and also whenever the
cache holds entry i, as right after `FileName(i)`. -/
theorem C7_enumeration_consistent (t : Bool) (reader Ar1 : FArchive)
    (vfs0 vfs : FPakVFS) (junk : Int)
    (h : FPakVFS.AttachReader t FPakVFS.create reader = .ok (true, vfs0, Ar1))
    (hf : vfs.FileInfos = vfs0.FileInfos) (hT : vfs.HashTable = vfs0.HashTable) :
    ∃ blob : IndexBlob, readIndexBlob t (indexCursor reader) = .ok (blob, Ar1) ∧
      vfs.NumFiles = blob.count ∧ blob.records.length = blob.count.toNat ∧
      ∀ (i : Nat) (name : List Nat) (E : FPakEntry), blob.records[i]? = some (name, E) →
        vfs.FileName i = .ok (ProcessMountPoint blob.mountPoint ++ name,
          { vfs with LastInfo := some i }) ∧
        (0 ≤ E.UncompressedSize ∧ E.UncompressedSize ≤ 2147483647 →
          toInt32 E.UncompressedSize = E.UncompressedSize) ∧
        (DistinctNames vfs0.FileInfos →
          ∀ k, vfs.nameMatches (ProcessMountPoint blob.mountPoint ++ name) k = true → k = i) ∧
        ∃ (j : Nat) (name2 : List Nat) (E2 : FPakEntry),
          blob.records[j]? = some (name2, E2) ∧
          stricmp (ProcessMountPoint blob.mountPoint ++ name2)
            (ProcessMountPoint blob.mountPoint ++ name) = 0 ∧
          vfs.FindFile (ProcessMountPoint blob.mountPoint ++ name)
            = (some j, { vfs with LastInfo := some j }) ∧
          vfs.GetFileSize (ProcessMountPoint blob.mountPoint ++ name)
            = (toInt32 E2.UncompressedSize, { vfs with LastInfo := some j }) ∧
          vfs.CreateReader (ProcessMountPoint blob.mountPoint ++ name) junk
            = (if E2.bEncrypted ≠ 0 then none
                else some (FPakFile.create (loadedEntry blob.mountPoint (name2, E2)) junk),
              { vfs with LastInfo := some j }) ∧
          ((vfs.LastInfo = some i ∨
              ∀ k, vfs.nameMatches (ProcessMountPoint blob.mountPoint ++ name) k = true → k = i) →
            j = i ∧ name2 = name ∧ E2 = E) := by
  have ht := attached_state t reader Ar1 vfs0 vfs h hf hT
  obtain ⟨blob, hb, rfl⟩ := AttachReader_true t reader Ar1 vfs0 h
  obtain ⟨hl, hn⟩ := loadedArchive_NumFiles t _ Ar1 blob hb
  have hinfos : vfs.FileInfos = blob.records.map (loadedEntry blob.mountPoint) :=
    hf.trans (loadedArchive_fields blob Ar1).1
  refine ⟨blob, hb, ?_, hl, ?_⟩
  · unfold FPakVFS.NumFiles at hn ⊢
    rw [hf]
    exact hn
  intro i name E hi
  have hinfo : vfs.FileInfos[i]? = some (loadedEntry blob.mountPoint (name, E)) := by
    rw [hinfos, List.getElem?_map, hi]
    rfl
  have hname : (loadedEntry blob.mountPoint (name, E)).Name
      = ProcessMountPoint blob.mountPoint ++ name := rfl
  have hm : vfs.nameMatches (ProcessMountPoint blob.mountPoint ++ name) i = true :=
    (nameMatches_iff vfs _ i).mpr ⟨_, hinfo, by rw [hname]; exact stricmp_self _⟩
  refine ⟨?_, ?_, ?_, ?_⟩
  · unfold FPakVFS.FileName
    rw [if_neg (by omega)]
    simp only [Int.toNat_ofNat, hinfo, hname]
  · intro hU
    exact toInt32_eq_self (by omega) hU.2
  · intro hd k hk
    have hd1 : DistinctNames vfs.FileInfos := by rw [hf]; exact hd
    exact DistinctNames_unique hd1 hk hm
  cases hr : (vfs.FindFile (ProcessMountPoint blob.mountPoint ++ name)).1 with
  | none =>
    have := (FindFile_none_iff vfs _ ht).mp hr i
    rw [this] at hm
    cases hm
  | some j =>
    have hmj := FindFile_some_matches hr
    obtain ⟨info, hj, hs⟩ := (nameMatches_iff vfs _ j).mp hmj
    have hj2 := hj
    rw [hinfos, List.getElem?_map] at hj2
    cases hrec : blob.records[j]? with
    | none => rw [hrec] at hj2; cases hj2
    | some r =>
      obtain ⟨name2, E2⟩ := r
      rw [hrec] at hj2
      simp only [Option.map_some', Option.some.injEq] at hj2
      subst hj2
      obtain ⟨h1, h2, h3⟩ := lookups_of_find vfs _ junk j _ hj hr
      refine ⟨j, name2, E2, hrec, hs, h1, h2, h3, ?_⟩
      intro hc
      have hji : j = i := by
        rcases hc with hL | hu
        · have := FindFile_cached vfs _ i hL hm
          rw [hr] at this
          exact Option.some.inj this
        · exact hu j hmj
      subst hji
      rw [hi] at hrec
      cases hrec
      exact ⟨rfl, rfl, rfl⟩

set_option maxRecDepth 1000000 in
/-- Witness of C7 on the archive of `demoArchive`, whose names are pairwise
distinct, in the state that `FileName(1)` leaves: the cache holds entry 1. -/
theorem C7_witness :
    FPakVFS.AttachReader false FPakVFS.create ⟨demoArchive, 0, 0⟩
      = .ok (true, loadedArchive demoIndex.1 demoIndex.2, demoIndex.2) ∧
    ((loadedArchive demoIndex.1 demoIndex.2).afterFileName 1).FileInfos
      = (loadedArchive demoIndex.1 demoIndex.2).FileInfos ∧
    ((loadedArchive demoIndex.1 demoIndex.2).afterFileName 1).HashTable
      = (loadedArchive demoIndex.1 demoIndex.2).HashTable ∧
    ((loadedArchive demoIndex.1 demoIndex.2).afterFileName 1).LastInfo = some 1 ∧
    DistinctNames (loadedArchive demoIndex.1 demoIndex.2).FileInfos ∧
    ∃ blob : IndexBlob,
      readIndexBlob false (indexCursor ⟨demoArchive, 0, 0⟩) = .ok (blob, demoIndex.2) ∧
      ((loadedArchive demoIndex.1 demoIndex.2).afterFileName 1).NumFiles = blob.count ∧
      blob.records.length = blob.count.toNat ∧
      ∀ (i : Nat) (name : List Nat) (E : FPakEntry), blob.records[i]? = some (name, E) →
        ((loadedArchive demoIndex.1 demoIndex.2).afterFileName 1).FileName i
          = .ok (ProcessMountPoint blob.mountPoint ++ name,
            { (loadedArchive demoIndex.1 demoIndex.2).afterFileName 1 with
              LastInfo := some i }) ∧
        (0 ≤ E.UncompressedSize ∧ E.UncompressedSize ≤ 2147483647 →
          toInt32 E.UncompressedSize = E.UncompressedSize) ∧
        (DistinctNames (loadedArchive demoIndex.1 demoIndex.2).FileInfos →
          ∀ k, ((loadedArchive demoIndex.1 demoIndex.2).afterFileName 1).nameMatches
            (ProcessMountPoint blob.mountPoint ++ name) k = true → k = i) ∧
        ∃ (j : Nat) (name2 : List Nat) (E2 : FPakEntry),
          blob.records[j]? = some (name2, E2) ∧
          stricmp (ProcessMountPoint blob.mountPoint ++ name2)
            (ProcessMountPoint blob.mountPoint ++ name) = 0 ∧
          ((loadedArchive demoIndex.1 demoIndex.2).afterFileName 1).FindFile
              (ProcessMountPoint blob.mountPoint ++ name)
            = (some j, { (loadedArchive demoIndex.1 demoIndex.2).afterFileName 1 with
                LastInfo := some j }) ∧
          ((loadedArchive demoIndex.1 demoIndex.2).afterFileName 1).GetFileSize
              (ProcessMountPoint blob.mountPoint ++ name)
            = (toInt32 E2.UncompressedSize,
              { (loadedArchive demoIndex.1 demoIndex.2).afterFileName 1 with
                LastInfo := some j }) ∧
          ((loadedArchive demoIndex.1 demoIndex.2).afterFileName 1).CreateReader
              (ProcessMountPoint blob.mountPoint ++ name) 0
            = (if E2.bEncrypted ≠ 0 then none
                else some (FPakFile.create (loadedEntry blob.mountPoint (name2, E2)) 0),
              { (loadedArchive demoIndex.1 demoIndex.2).afterFileName 1 with
                LastInfo := some j }) ∧
          ((((loadedArchive demoIndex.1 demoIndex.2).afterFileName 1).LastInfo = some i ∨
              ∀ k, ((loadedArchive demoIndex.1 demoIndex.2).afterFileName 1).nameMatches
                (ProcessMountPoint blob.mountPoint ++ name) k = true → k = i) →
            j = i ∧ name2 = name ∧ E2 = E) :=
  ⟨demoArchive_attach, by decide, rfl, by decide, by decide,
    C7_enumeration_consistent false ⟨demoArchive, 0, 0⟩ demoIndex.2
      (loadedArchive demoIndex.1 demoIndex.2)
      ((loadedArchive demoIndex.1 demoIndex.2).afterFileName 1) 0 demoArchive_attach
      (by decide) rfl⟩

set_option maxRecDepth 1000000 in
/-- Counterexample to C7 as stated: `mixedArchive` attaches with three names.
The name `"/s"` of its encrypted entry gets a null result from `CreateReader`,
also right after `FileName(2)` returned it; the name `"/A"` of entry 1, whose
uncompressed size is 4294967303, gets size 5 from `GetFileSize` (entry 0 has
the same name up to letter case), and size 7 right after `FileName(1)`. -/
theorem C7_counterexample :
    (FPakVFS.AttachReader false FPakVFS.create ⟨mixedArchive, 0, 0⟩).toOption.map Prod.fst
      = some true ∧
    mixedVFS.NumFiles = 3 ∧
    (mixedVFS.FileName 2).toOption.map Prod.fst = some [47, 115] ∧
    (mixedVFS.CreateReader [47, 115] 0).1 = none ∧
    ((mixedVFS.afterFileName 2).CreateReader [47, 115] 0).1 = none ∧
    (mixedVFS.FileName 1).toOption.map Prod.fst = some [47, 65] ∧
    mixedVFS.FileInfos[1]?.map FPakEntry.UncompressedSize = some 4294967303 ∧
    (mixedVFS.GetFileSize [47, 65]).1 = 5 ∧
    ((mixedVFS.afterFileName 1).GetFileSize [47, 65]).1 = 7 := by
  decide

/-- C8: the source `strangerFile` has a footer magic different from
`PAK_FILE_MAGIC` and a version field that reads 5; on it `AttachReader` does
not return false: it stops fatally in the footer codec, which checks the
version before `AttachReader` looks at the magic. -/
theorem C8_wrong_magic_fatal_on_high_version (t : Bool) (vfs : FPakVFS) :
    storedMagic strangerFile ≠ PAK_FILE_MAGIC ∧ storedVersion strangerFile = 5 ∧
    FPakVFS.AttachReader t vfs ⟨strangerFile, 0, 0⟩ = .fatal (vfs, ⟨strangerFile, 45, 0⟩) :=
  ⟨by decide, by decide,
    AttachReader_unsupported_version t vfs ⟨strangerFile, 0, 0⟩ (by decide) (by decide)⟩

/-- C9: `PAK_LATEST` is 4, the value of `PAK_INDEX_ENCRYPTION`. Attaching a
source whose footer version is greater than `PAK_LATEST` stops fatally in the
footer codec: the archive is as it was and the byte source stands at the end of
the footer, the index not visited. Attaching to a fresh archive a source with
version `PAK_LATEST`, the right magic, the encrypted-index byte clear and a
readable index blob returns true and leaves the archive with all records of
the blob loaded, in order. -/
theorem C9_version_bound (t : Bool) (reader : FArchive) (h45 : 45 ≤ reader.data.length) :
    PAK_LATEST = 4 ∧ PAK_LATEST = PAK_INDEX_ENCRYPTION ∧
    (storedVersion reader.data > PAK_LATEST → ∀ vfs : FPakVFS,
      FPakVFS.AttachReader t vfs reader
        = .fatal (vfs, { reader with ArPos := reader.data.length })) ∧
    (storedVersion reader.data = PAK_LATEST → storedMagic reader.data = PAK_FILE_MAGIC →
      storedEncryptedIndex reader.data = 0 →
      ∀ (blob : IndexBlob) (Ar1 : FArchive),
        readIndexBlob t (indexCursor reader) = .ok (blob, Ar1) →
        ∃ vfs, FPakVFS.AttachReader t FPakVFS.create reader = .ok (true, vfs, Ar1) ∧
          vfs.FileInfos = blob.records.map (loadedEntry blob.mountPoint) ∧
          vfs.NumFiles = blob.count ∧ vfs.Reader = some Ar1) := by
  refine ⟨rfl, rfl, ?_, ?_⟩
  · intro hv vfs
    exact AttachReader_unsupported_version t vfs reader h45 hv
  · intro hv hm he blob Ar1 hb
    have hv2 : ¬ storedVersion reader.data > PAK_LATEST := by rw [hv]; exact lt_irrefl _
    refine ⟨loadedArchive blob Ar1,
      AttachReader_index_ok t reader Ar1 blob h45 hv2 hm (Or.inr he) hb,
      (loadedArchive_fields blob Ar1).1, (loadedArchive_NumFiles t _ Ar1 blob hb).2,
      (loadedArchive_fields blob Ar1).2.2⟩

set_option maxRecDepth 1000000 in
/-- Witness of C9: `futureArchive` (version 5) stops the attach fatally,
`demoArchive` (version 4) attaches with its two entries. -/
theorem C9_witness :
    (storedVersion futureArchive > PAK_LATEST ∧
      FPakVFS.AttachReader false FPakVFS.create ⟨futureArchive, 0, 0⟩
        = .fatal (FPakVFS.create, ⟨futureArchive, 45, 0⟩)) ∧
    (storedVersion demoArchive = PAK_LATEST ∧
      ∃ vfs, FPakVFS.AttachReader false FPakVFS.create ⟨demoArchive, 0, 0⟩
          = .ok (true, vfs, demoIndex.2) ∧
        vfs.FileInfos = demoIndex.1.records.map (loadedEntry demoIndex.1.mountPoint) ∧
        vfs.NumFiles = demoIndex.1.count ∧ vfs.Reader = some demoIndex.2) :=
  ⟨⟨by decide,
      (C9_version_bound false ⟨futureArchive, 0, 0⟩ (by decide)).2.2.1 (by decide)
        FPakVFS.create⟩,
    ⟨by decide,
      (C9_version_bound false ⟨demoArchive, 0, 0⟩ (by decide)).2.2.2 (by decide) (by decide)
        (by decide) demoIndex.1 demoIndex.2 (by decide)⟩⟩

/-- C10 (as amended): for every source whose footer has the right magic, a
supported version that has the encrypted-index field (`PAK_INDEX_ENCRYPTION ≤
version ≤ PAK_LATEST`) and a non-zero encrypted-index byte, `AttachReader`
returns false without a fatal stop and leaves the archive as it was; attached
to a fresh archive, `NumFiles()` is 0 afterwards and no reader is stored. -/
theorem C10_encrypted_index_rejected (t : Bool) (reader : FArchive)
    (h45 : 45 ≤ reader.data.length) (hm : storedMagic reader.data = PAK_FILE_MAGIC)
    (hv4 : PAK_INDEX_ENCRYPTION ≤ storedVersion reader.data)
    (hv : storedVersion reader.data ≤ PAK_LATEST)
    (he : storedEncryptedIndex reader.data ≠ 0) :
    (∀ vfs : FPakVFS, FPakVFS.AttachReader t vfs reader
      = .ok (false, vfs, { reader with ArPos := reader.data.length })) ∧
    ∃ vfs1 r, FPakVFS.AttachReader t FPakVFS.create reader = .ok (false, vfs1, r) ∧
      vfs1.NumFiles = 0 ∧ vfs1.Reader = none := by
  have h : ∀ vfs : FPakVFS, FPakVFS.AttachReader t vfs reader
      = .ok (false, vfs, { reader with ArPos := reader.data.length }) :=
    fun vfs => AttachReader_encrypted_index t vfs reader h45 (not_lt.mpr hv) hm
      (not_lt.mpr hv4) he
  exact ⟨h, FPakVFS.create, _, h FPakVFS.create, rfl, rfl⟩

set_option maxRecDepth 1000000 in
/-- Witness of C10 on `encryptedArchive`. -/
theorem C10_witness :
    (storedMagic encryptedArchive = PAK_FILE_MAGIC ∧
      storedVersion encryptedArchive = 4 ∧ storedEncryptedIndex encryptedArchive ≠ 0) ∧
    (∀ vfs : FPakVFS, FPakVFS.AttachReader false vfs ⟨encryptedArchive, 0, 0⟩
      = .ok (false, vfs, ⟨encryptedArchive, 187, 0⟩)) ∧
    ∃ vfs1 r, FPakVFS.AttachReader false FPakVFS.create ⟨encryptedArchive, 0, 0⟩
        = .ok (false, vfs1, r) ∧
      vfs1.NumFiles = 0 ∧ vfs1.Reader = none :=
  ⟨by decide,
    C10_encrypted_index_rejected false ⟨encryptedArchive, 0, 0⟩ (by decide) (by decide)
      (by decide) (by decide) (by decide)⟩

set_option maxRecDepth 1000000 in
/-- Counterexample to C10 as stated: `oldArchive` has the right magic, the
supported version 3 and the stored byte 1 in front of the magic, and
`AttachReader` returns true on it, with two entries loaded and the reader
stored. -/
theorem C10_counterexample :
    storedMagic oldArchive = PAK_FILE_MAGIC ∧ storedVersion oldArchive ≤ PAK_LATEST ∧
    storedEncryptedIndex oldArchive ≠ 0 ∧
    (FPakVFS.AttachReader false FPakVFS.create ⟨oldArchive, 0, 0⟩).toOption.map
      (fun p => (p.1, p.2.1.NumFiles, p.2.1.Reader.isSome)) = some (true, 2, true) := by
  decide

/-- C11 (as amended): for every attached archive whose entry names are pairwise
distinct under case-insensitive comparison, in every state of the last-found
cache, and for every entry with `bEncrypted` set: `FileName(i)` still returns
the entry's name, `GetFileSize(name)` still returns `(int)` of its uncompressed
size (the size itself when it is a value of `int`), and `CreateReader(name)`
returns null; more generally `CreateReader(name)` returns null if and only if
no entry matches the name or the matched entry is encrypted. -/
theorem C11_encrypted_entry_not_opened (t : Bool) (reader Ar1 : FArchive)
    (vfs0 vfs : FPakVFS) (junk : Int)
    (h : FPakVFS.AttachReader t FPakVFS.create reader = .ok (true, vfs0, Ar1))
    (hd : DistinctNames vfs0.FileInfos)
    (hf : vfs.FileInfos = vfs0.FileInfos) (hT : vfs.HashTable = vfs0.HashTable) :
    (∀ (i : Nat) (info : FPakEntry), vfs0.FileInfos[i]? = some info → info.bEncrypted ≠ 0 →
      (vfs.FileName i).toOption.map Prod.fst = some info.Name ∧
      (vfs.GetFileSize info.Name).1 = toInt32 info.UncompressedSize ∧
      (IsInt32 info.UncompressedSize →
        (vfs.GetFileSize info.Name).1 = info.UncompressedSize) ∧
      (vfs.CreateReader info.Name junk).1 = none) ∧
    (∀ name : List Nat, (vfs.CreateReader name junk).1 = none ↔
      ((∀ j, vfs.nameMatches name j = false) ∨
        ∃ (j : Nat) (info : FPakEntry), vfs.nameMatches name j = true ∧
          vfs0.FileInfos[j]? = some info ∧ info.bEncrypted ≠ 0)) := by
  have ht := attached_state t reader Ar1 vfs0 vfs h hf hT
  have hd1 : DistinctNames vfs.FileInfos := by rw [hf]; exact hd
  constructor
  · intro i info hi he
    have hi1 : vfs.FileInfos[i]? = some info := by rw [hf]; exact hi
    have hm : vfs.nameMatches info.Name i = true :=
      (nameMatches_iff vfs info.Name i).mpr ⟨info, hi1, stricmp_self _⟩
    have hfind := (FindFile_unique vfs info.Name hd1 ht i).mpr hm
    have hsize : (vfs.GetFileSize info.Name).1 = toInt32 info.UncompressedSize := by
      rw [GetFileSize_fst, hfind, FindFile_FileInfos]
      simp only [hi1]
    refine ⟨?_, hsize, ?_, ?_⟩
    · unfold FPakVFS.FileName
      rw [if_neg (by omega)]
      simp only [Int.toNat_ofNat, hi1]
      rfl
    · intro hU
      rw [hsize]
      exact toInt32_eq_self hU.1 hU.2
    · rw [CreateReader_fst, hfind, FindFile_FileInfos]
      simp only [hi1, if_pos he]
  · intro name
    rw [CreateReader_fst, FindFile_FileInfos]
    cases hr : (vfs.FindFile name).1 with
    | none =>
      simp only [true_iff]
      exact Or.inl ((FindFile_none_iff vfs name ht).mp hr)
    | some j =>
      have hm := FindFile_some_matches hr
      obtain ⟨info, hj, -⟩ := (nameMatches_iff vfs name j).mp hm
      simp only [hj]
      constructor
      · intro hn
        refine Or.inr ⟨j, info, hm, by rw [← hf]; exact hj, ?_⟩
        intro he
        rw [if_neg (by simpa using he)] at hn
        cases hn
      · rintro (hno | ⟨k, e, hk, hke, hee⟩)
        · rw [hno j] at hm; cases hm
        · have hkj := DistinctNames_unique hd1 hk hm
          subst hkj
          rw [← hf, hj] at hke
          cases hke
          rw [if_pos hee]

set_option maxRecDepth 1000000 in
/-- Witness of C11 on the archive of `demoArchive`, whose entry `"/s"` is
encrypted. -/
theorem C11_witness :
    DistinctNames (loadedArchive demoIndex.1 demoIndex.2).FileInfos ∧
    ((∀ (i : Nat) (info : FPakEntry),
      (loadedArchive demoIndex.1 demoIndex.2).FileInfos[i]? = some info →
      info.bEncrypted ≠ 0 →
      ((loadedArchive demoIndex.1 demoIndex.2).FileName i).toOption.map Prod.fst
        = some info.Name ∧
      ((loadedArchive demoIndex.1 demoIndex.2).GetFileSize info.Name).1
        = toInt32 info.UncompressedSize ∧
      (IsInt32 info.UncompressedSize →
        ((loadedArchive demoIndex.1 demoIndex.2).GetFileSize info.Name).1
          = info.UncompressedSize) ∧
      ((loadedArchive demoIndex.1 demoIndex.2).CreateReader info.Name 0).1 = none) ∧
    (∀ name : List Nat,
      ((loadedArchive demoIndex.1 demoIndex.2).CreateReader name 0).1 = none ↔
      ((∀ j, (loadedArchive demoIndex.1 demoIndex.2).nameMatches name j = false) ∨
        ∃ (j : Nat) (info : FPakEntry),
          (loadedArchive demoIndex.1 demoIndex.2).nameMatches name j = true ∧
          (loadedArchive demoIndex.1 demoIndex.2).FileInfos[j]? = some info ∧
          info.bEncrypted ≠ 0))) :=
  ⟨by decide,
    C11_encrypted_entry_not_opened false ⟨demoArchive, 0, 0⟩ demoIndex.2
      (loadedArchive demoIndex.1 demoIndex.2) (loadedArchive demoIndex.1 demoIndex.2) 0
      demoArchive_attach (by decide) rfl rfl⟩

set_option maxRecDepth 1000000 in
/-- Counterexample to C11 as stated: `shadowArchive` attaches with the entries
`"/a"` (5 bytes), `"/A"` (7 bytes, encrypted) and `"/s"` (4294967303 bytes,
encrypted). `FileName(1)` returns `"/A"`, but `CreateReader("/A")` returns a
reader (on entry 0) and `GetFileSize("/A")` returns 5; `GetFileSize("/s")`
returns 7. -/
theorem C11_counterexample :
    (FPakVFS.AttachReader false FPakVFS.create ⟨shadowArchive, 0, 0⟩).toOption.map Prod.fst
      = some true ∧
    shadowVFS.FileInfos.map (fun e => (e.Name, e.UncompressedSize, e.bEncrypted))
      = [([47, 97], 5, 0), ([47, 65], 7, 1), ([47, 115], 4294967303, 1)] ∧
    (shadowVFS.FileName 1).toOption.map Prod.fst = some [47, 65] ∧
    (shadowVFS.CreateReader [47, 65] 0).1.map (fun f => f.Info.Name) = some [47, 97] ∧
    (shadowVFS.GetFileSize [47, 65]).1 = 5 ∧
    (shadowVFS.GetFileSize [47, 115]).1 = 7 := by
  decide

/-- C12 (as amended): for every stored mount-point string `m`, the mount point
used for entry names is the rest `r` of `m` after the 8 characters of the
prefix `"../../.."` when
`m` starts with that prefix and `r` is non-empty, starts with `'/'` and does
not have `'.'` as its second character; it is `"/"` in every other case, in
particular whenever `m` does not start with the prefix. So
`"../../../Game/Content"` gives `"/Game/Content"`, `"weird"` gives `"/"`, and
the result always starts with `'/'`. -/
theorem C12_mount_point_normalization (m : List Nat) :
    ProcessMountPoint m =
      (if parentPrefix.isPrefixOf m = true ∧ m.drop 8 ≠ [] ∧ (m.drop 8).head? = some 47 ∧
          (m.drop 8)[1]? ≠ some 46
        then m.drop 8 else [47]) ∧
    parentPrefix.length = 8 ∧
    (ProcessMountPoint m).head? = some 47 ∧
    ProcessMountPoint [46, 46, 47, 46, 46, 47, 46, 46, 47, 71, 97, 109, 101, 47, 67, 111, 110,
      116, 101, 110, 116] = [47, 71, 97, 109, 101, 47, 67, 111, 110, 116, 101, 110, 116] ∧
    ProcessMountPoint [119, 101, 105, 114, 100] = [47] := by
  have key : ProcessMountPoint m =
      (if parentPrefix.isPrefixOf m = true ∧ m.drop 8 ≠ [] ∧ (m.drop 8).head? = some 47 ∧
          (m.drop 8)[1]? ≠ some 46
        then m.drop 8 else [47]) := by
    unfold ProcessMountPoint RemoveFromStart
    by_cases hp : parentPrefix.isPrefixOf m = true
    · rw [if_pos hp]
      have hlen : parentPrefix.length = 8 := rfl
      simp only [hlen, hp, true_and]
      generalize m.drop 8 = r
      cases r with
      | nil => simp
      | cons a r1 =>
        cases r1 with
        | nil => by_cases ha : a = 47 <;> simp [ha]
        | cons b r2 =>
          by_cases ha : a = 47 <;> by_cases hb : b = 46 <;> simp [ha, hb]
    · rw [if_neg hp]
      simp [hp]
  refine ⟨key, rfl, ?_, by decide, by decide⟩
  rw [key]
  split
  · rename_i h
    exact h.2.2.1
  · rfl

/-- Counterexample to C12 as stated: the mount point `"/Game"` does not start
with `"../../.."`, so stripping the prefix leaves it as it is: non-empty,
starting with `'/'`, its second character not `'.'`. The mount point used is
`"/"` all the same, not `"/Game"`. -/
theorem C12_counterexample :
    (RemoveFromStart [47, 71, 97, 109, 101] parentPrefix).2 = [47, 71, 97, 109, 101] ∧
    ([47, 71, 97, 109, 101] : List Nat).head? = some 47 ∧
    ([47, 71, 97, 109, 101] : List Nat)[1]? ≠ some 46 ∧
    ProcessMountPoint [47, 71, 97, 109, 101] = [47] ∧
    ProcessMountPoint [47, 71, 97, 109, 101] ≠ [47, 71, 97, 109, 101] := by
  decide

/-- C13 (as amended): for every format version `v` (the `PakVer` of the byte
source) and every entry record that the source holds in full, the entry codec
reads, in order, `pos:8`, `size:8`, `uncompressedSize:8`,
`compressionMethod:4`, then an 8-byte discarded timestamp iff
`v < PAK_NO_TIMESTAMPS`, then `hash:20`, then iff
`v >= PAK_COMPRESSION_ENCRYPTION` a count-prefixed block list (only when
`compressionMethod != 0`) followed by `encrypted:1` and
`compressionBlockSize:4`; it consumes
`48 + (8 if v < 2) + (if v >= 3: 5 + (4 + 16*blockCount if compressionMethod != 0))`
bytes, and the recorded `StructSize` is that number converted to `int32`: the
number itself whenever it is at most 2147483647. -/
theorem C13_entry_record_layout (t : Bool) (Ar : FArchive) (P : FPakEntry)
    (hp : 0 ≤ Ar.ArPos) (hc : 0 ≤ recordBlockCount Ar)
    (hlen : Ar.ArPos + recordSize Ar.PakVer (recordMethod Ar) (recordBlockCount Ar).toNat
      ≤ Ar.data.length) :
    FPakEntry.serialize t Ar P = .ok (recordAt t Ar P,
      { Ar with ArPos := Ar.ArPos
        + recordSize Ar.PakVer (recordMethod Ar) (recordBlockCount Ar).toNat }) ∧
    (recordAt t Ar P).StructSize
      = toInt32 (recordSize Ar.PakVer (recordMethod Ar) (recordBlockCount Ar).toNat) ∧
    (recordSize Ar.PakVer (recordMethod Ar) (recordBlockCount Ar).toNat ≤ 2147483647 →
      (recordAt t Ar P).StructSize
        = recordSize Ar.PakVer (recordMethod Ar) (recordBlockCount Ar).toNat) ∧
    (recordHasBlocks Ar = true →
      (recordAt t Ar P).CompressionBlocks.length = (recordBlockCount Ar).toNat) ∧
    (∀ (v method : Int) (n : Nat), recordSize v method n
      = 48 + (if v < 2 then 8 else 0)
        + (if v ≥ 3 then 5 + (if method ≠ 0 then 4 + 16 * (n : Int) else 0) else 0)) := by
  refine ⟨serialize_layout t Ar P hp hc hlen, rfl, ?_, ?_, fun _ _ _ => rfl⟩
  · intro hmax
    have h48 : 48 ≤ recordSize Ar.PakVer (recordMethod Ar) (recordBlockCount Ar).toNat := by
      unfold recordSize
      by_cases h2 : Ar.PakVer < PAK_NO_TIMESTAMPS <;>
        by_cases h3 : Ar.PakVer ≥ PAK_COMPRESSION_ENCRYPTION <;>
        by_cases hm : recordMethod Ar ≠ 0 <;>
        simp only [h2, h3, hm, if_true, if_false] <;> omega
    exact toInt32_eq_self (by omega) hmax
  · exact recordAt_blocks_length t Ar P

set_option maxRecDepth 1000000 in
/-- Witness of C13: the record of the first entry of `demoArchive`, 53 bytes
from offset 30 in version 4. -/
theorem C13_witness :
    (FPakEntry.serialize false ⟨demoArchive, 30, 4⟩ FPakEntry.zeroed).toOption.map
      (fun r => (r.1.UncompressedSize, r.1.bEncrypted, r.1.StructSize, r.2.ArPos))
      = some (5, 0, 53, 83) ∧
    recordSize 4 0 0 = 53 :=
  ⟨by
    rw [(C13_entry_record_layout false ⟨demoArchive, 30, 4⟩ FPakEntry.zeroed (by decide)
      (by decide) (by decide)).1]
    decide, by decide⟩

/-- Counterexample to C13 as stated: the version 3 record `hugeRecord` has a
non-zero compression method and 134217728 compression blocks. The codec
consumes `48 + 5 + (4 + 16*134217728) = 2147483705` bytes and records
`StructSize = -2147483591`. -/
theorem C13_counterexample :
    ∃ E Ar1, FPakEntry.serialize false ⟨hugeRecord, 0, 3⟩ FPakEntry.zeroed = .ok (E, Ar1) ∧
      E.CompressionMethod = 1 ∧ E.CompressionBlocks.length = 134217728 ∧
      Ar1.ArPos - 0 = 48 + 5 + (4 + 16 * 134217728) ∧
      E.StructSize = -2147483591 ∧ E.StructSize ≠ Ar1.ArPos - 0 := by
  have hs : (recordAt false ⟨hugeRecord, 0, 3⟩ FPakEntry.zeroed).StructSize = -2147483591 := by
    show toInt32 (recordSize (FArchive.PakVer ⟨hugeRecord, 0, 3⟩)
      (recordMethod ⟨hugeRecord, 0, 3⟩) (recordBlockCount ⟨hugeRecord, 0, 3⟩).toNat) = _
    rw [hugeRecord_size]
    decide
  refine ⟨recordAt false ⟨hugeRecord, 0, 3⟩ FPakEntry.zeroed, ⟨hugeRecord, 2147483705, 3⟩,
    hugeRecord_serialize, hugeRecord_method, ?_, by decide, hs, ?_⟩
  · rw [recordAt_blocks_length _ _ _ hugeRecord_hasBlocks, hugeRecord_count]
    exact Int.toNat_ofNat 134217728
  · rw [hs]
    decide

/-- C14: `FPakInfo::Size` is 45 and the footer is read from offset
`fileSize - 45`; on a source of at least 45 bytes the footer codec consumes
exactly these 45 bytes, decoding little-endian `bEncryptedIndex` (1 byte at
offset 0), `Magic` (4 at 1), `Version` (4 at 5), `IndexOffset` (8 at 9),
`IndexSize` (8 at 17) and `IndexHash` (20 at 25); the decoded `bEncryptedIndex`
is 0 whenever the version is below `PAK_INDEX_ENCRYPTION`, whatever the stored
byte; a version above `PAK_LATEST` is a fatal stop after the 45 bytes. -/
theorem C14_footer_decoding (reader : FArchive) (h : 45 ≤ reader.data.length) :
    FPakInfo.Size = 45 ∧
    (reader.Seek64 (reader.GetFileSize64 - FPakInfo.Size)).ArPos = reader.data.length - 45 ∧
    FPakInfo.serialize (reader.Seek64 (reader.GetFileSize64 - FPakInfo.Size)) =
      (if toInt32 (leNat (footerField reader.data 5 4)) > PAK_LATEST then
        .fatal { reader with ArPos := reader.data.length - 45 + 45 }
      else
        .ok ({ Magic := toInt32 (leNat (footerField reader.data 1 4))
               Version := toInt32 (leNat (footerField reader.data 5 4))
               IndexOffset := toInt64 (leNat (footerField reader.data 9 8))
               IndexSize := toInt64 (leNat (footerField reader.data 17 8))
               IndexHash := footerField reader.data 25 20
               bEncryptedIndex :=
                 if toInt32 (leNat (footerField reader.data 5 4)) < PAK_INDEX_ENCRYPTION then 0
                 else leNat (footerField reader.data 0 1) },
          { reader with ArPos := reader.data.length - 45 + 45 })) ∧
    (∀ off size : Nat, footerField reader.data off size
      = (reader.data.drop (reader.data.length - 45 + off)).take size) ∧
    (∀ b0 b1 b2 b3 : Nat, leNat [b0, b1, b2, b3]
      = b0 % 256 + 256 * (b1 % 256) + 65536 * (b2 % 256) + 16777216 * (b3 % 256)) := by
  refine ⟨rfl, ?_, ?_, ?_, ?_⟩
  · simp only [FArchive.Seek64, FArchive.GetFileSize64, FPakInfo.Size]
    norm_num
  · rw [FPakInfo_serialize_footer reader h]
    have e : (reader.data.length : Int) - 45 + 45 = reader.data.length := by omega
    rw [e]
    rfl
  · intro off size
    unfold footerField footerBlock
    rw [List.drop_drop]
  · intro b0 b1 b2 b3
    simp only [leNat]
    omega

set_option maxRecDepth 1000000 in
/-- Witness of C14: the footer of `demoArchive`. -/
theorem C14_witness :
    (45 ≤ demoArchive.length ∧ footerField demoArchive 1 4 = [225, 18, 111, 90]) ∧
    FPakInfo.serialize
        (FArchive.Seek64 ⟨demoArchive, 0, 0⟩ (FArchive.GetFileSize64 ⟨demoArchive, 0, 0⟩
          - FPakInfo.Size))
      = .ok (⟨PAK_FILE_MAGIC, 4, 0, 142, List.replicate 20 0, 0⟩, ⟨demoArchive, 187, 0⟩) :=
  ⟨by decide,
    ((C14_footer_decoding ⟨demoArchive, 0, 0⟩ (by decide)).2.2.1).trans (by decide)⟩

/-- C15: for every entry list whose names are pairwise distinct under
case-insensitive comparison, every query name and every state of the
last-found cache, `FindFile` by linear scan (no hash table) and `FindFile` with
the table built by `AddFileToHash` over all entries return the same result: the
one entry whose name equals the query case-insensitively, or null when there
is none. An attach builds the table if and only if the entry count is at least
`MIN_PAK_SIZE_FOR_HASHING` (256), and otherwise leaves it absent. -/
theorem C15_hash_and_scan_agree (vfs : FPakVFS) (name : List Nat)
    (hd : DistinctNames vfs.FileInfos) :
    (FPakVFS.FindFile { vfs with HashTable := none } name).1 = (vfs.rehashed.FindFile name).1 ∧
    (∀ i, (vfs.rehashed.FindFile name).1 = some i ↔
      ∃ info, vfs.FileInfos[i]? = some info ∧ stricmp info.Name name = 0) ∧
    ((vfs.rehashed.FindFile name).1 = none ↔
      ∀ (i : Nat) (info : FPakEntry), vfs.FileInfos[i]? = some info →
        stricmp info.Name name ≠ 0) ∧
    (∀ (i j : Nat) (a b : FPakEntry), vfs.FileInfos[i]? = some a → vfs.FileInfos[j]? = some b →
      stricmp a.Name name = 0 → stricmp b.Name name = 0 → i = j) ∧
    MIN_PAK_SIZE_FOR_HASHING = 256 ∧
    (∀ (t : Bool) (reader Ar1 : FArchive) (vfs1 : FPakVFS),
      FPakVFS.AttachReader t FPakVFS.create reader = .ok (true, vfs1, Ar1) →
      (vfs1.HashTable.isSome = true ↔ vfs1.NumFiles ≥ MIN_PAK_SIZE_FOR_HASHING) ∧
      (vfs1.HashTable = none ∨ vfs1.TableBuilt)) := by
  have hfr : vfs.rehashed.FileInfos = vfs.FileInfos := (hashAll_fields _ _).1
  have hdr : DistinctNames vfs.rehashed.FileInfos := by rw [hfr]; exact hd
  have hu := FindFile_unique vfs.rehashed name hdr (Or.inr (rehashed_TableBuilt vfs))
  have hs := FindFile_unique { vfs with HashTable := none } name hd (Or.inl rfl)
  have hnm : FPakVFS.nameMatches { vfs with HashTable := none } name
      = vfs.rehashed.nameMatches name := nameMatches_congr_infos hfr.symm name
  have hmi : ∀ i, vfs.rehashed.nameMatches name i = true ↔
      ∃ info, vfs.FileInfos[i]? = some info ∧ stricmp info.Name name = 0 := by
    intro i
    rw [nameMatches_iff, hfr]
  refine ⟨?_, ?_, ?_, ?_, rfl, ?_⟩
  · cases hr : (vfs.rehashed.FindFile name).1 with
    | some i => exact (hs i).mpr (by rw [hnm]; exact (hu i).mp hr)
    | none =>
      have hno := (FindFile_none_iff vfs.rehashed name (Or.inr (rehashed_TableBuilt vfs))).mp hr
      exact (FindFile_none_iff { vfs with HashTable := none } name (Or.inl rfl)).mpr
        (by rw [hnm]; exact hno)
  · intro i
    rw [hu i, hmi i]
  · rw [FindFile_none_iff vfs.rehashed name (Or.inr (rehashed_TableBuilt vfs))]
    constructor
    · intro hno i info hi hz
      have := (hmi i).mpr ⟨info, hi, hz⟩
      rw [hno i] at this; cases this
    · intro hno i
      cases hm : vfs.rehashed.nameMatches name i with
      | false => rfl
      | true =>
        obtain ⟨info, hi, hz⟩ := (hmi i).mp hm
        exact absurd hz (hno i info hi)
  · intro i j a b hi hj ha hb
    exact DistinctNames_unique hdr ((hmi i).mpr ⟨a, hi, ha⟩) ((hmi j).mpr ⟨b, hj, hb⟩)
  · intro t reader Ar1 vfs1 h
    obtain ⟨blob, hb, rfl⟩ := AttachReader_true t reader Ar1 vfs1 h
    exact loadedArchive_table t _ Ar1 blob hb

set_option maxRecDepth 1000000 in
/-- Witness of C15 on the entries of `demoArchive`: with and without the table
the name `"/a/b.BIN"` resolves to entry 0. -/
theorem C15_witness :
    DistinctNames demoVFS.FileInfos ∧
    (demoVFS.rehashed.FindFile [47, 97, 47, 98, 46, 66, 73, 78]).1 = some 0 ∧
    (FPakVFS.FindFile { demoVFS with HashTable := none } [47, 97, 47, 98, 46, 66, 73, 78]).1
      = (demoVFS.rehashed.FindFile [47, 97, 47, 98, 46, 66, 73, 78]).1 :=
  ⟨by decide, by decide,
    (C15_hash_and_scan_agree demoVFS [47, 97, 47, 98, 46, 66, 73, 78] (by decide)).1⟩

/-- C16: when the hash table has been built (the entries added in index order,
each put at the head of its bucket chain) and the last-found cache does not
match the query, `FindFile` on a name that matches at least one entry
case-insensitively returns the matching entry with the greatest index. -/
theorem C16_most_recent_duplicate_wins (vfs : FPakVFS) (name : List Nat)
    (ht : vfs.TableBuilt)
    (hl : vfs.LastInfo.filter (vfs.nameMatches name) = none)
    (i : Nat) (hi : vfs.nameMatches name i = true) :
    ∃ k, (vfs.FindFile name).1 = some k ∧ vfs.nameMatches name k = true ∧
      ∀ j, vfs.nameMatches name j = true → j ≤ k := by
  have hne : vfs.HashTable ≠ none := by
    rw [TableBuilt_table ht (by have := nameMatches_lt hi; omega)]
    exact Option.some_ne_none _
  rcases FindFile_search vfs name hl (Or.inr ht) with ⟨-, h2⟩ | ⟨k, h1, h2, h3⟩
  · rw [h2 i] at hi; cases hi
  · exact ⟨k, h1, h2, fun j hj => (h3 j hj).2 hne⟩

set_option maxRecDepth 1000000 in
/-- Witness of C16: with the table built over the entries `"/a"`, `"/A"` and
`"/s"` of `mixedArchive`, the name `"/a"` resolves to entry 1, while the linear
scan resolves it to entry 0. -/
theorem C16_witness :
    mixedVFS.rehashed.nameMatches [47, 97] 0 = true ∧
    mixedVFS.rehashed.nameMatches [47, 97] 1 = true ∧
    (mixedVFS.rehashed.FindFile [47, 97]).1 = some 1 ∧
    (mixedVFS.FindFile [47, 97]).1 = some 0 ∧
    ∃ k, (mixedVFS.rehashed.FindFile [47, 97]).1 = some k ∧
      mixedVFS.rehashed.nameMatches [47, 97] k = true ∧
      ∀ j, mixedVFS.rehashed.nameMatches [47, 97] j = true → j ≤ k :=
  ⟨by decide, by decide, by decide, by decide,
    C16_most_recent_duplicate_wins mixedVFS.rehashed [47, 97] (rehashed_TableBuilt mixedVFS)
      (by decide) 0 (by decide)⟩

/-- C17 (as amended): for every archive state and every name,
`FPakVFS::GetFileSize(name)` is `(int)` of the 64-bit `UncompressedSize` field of
the entry `FindFile` resolves the name to: the field itself whenever it is a
value of `int`, its 32-bit wrap otherwise; it is 0 when no entry is found, and
the call always returns. `FPakFile::GetFileSize` converts in the same way. -/
theorem C17_size_query (vfs : FPakVFS) (name : List Nat) :
    (∀ (i : Nat) (info : FPakEntry), (vfs.FindFile name).1 = some i →
      vfs.FileInfos[i]? = some info →
      (vfs.GetFileSize name).1 = toInt32 info.UncompressedSize ∧
      (IsInt32 info.UncompressedSize → (vfs.GetFileSize name).1 = info.UncompressedSize)) ∧
    ((vfs.FindFile name).1 = none → (vfs.GetFileSize name).1 = 0) ∧
    (∀ f : FPakFile, f.GetFileSize = toInt32 f.Info.UncompressedSize ∧
      (IsInt32 f.Info.UncompressedSize → f.GetFileSize = f.Info.UncompressedSize)) := by
  refine ⟨?_, ?_, ?_⟩
  · intro i info hfind hi
    have hsize : (vfs.GetFileSize name).1 = toInt32 info.UncompressedSize := by
      rw [GetFileSize_fst, hfind, FindFile_FileInfos]
      simp only [hi]
    exact ⟨hsize, fun hU => by rw [hsize]; exact toInt32_eq_self hU.1 hU.2⟩
  · intro hfind
    rw [GetFileSize_fst, hfind]
  · intro f
    exact ⟨rfl, fun hU => toInt32_eq_self hU.1 hU.2⟩

set_option maxRecDepth 1000000 in
/-- Counterexample to C17 as stated: in the archive of `shadowArchive` the name
`"/s"` resolves to entry 2, whose `UncompressedSize` field is 4294967303, and
`GetFileSize("/s")` returns 7. -/
theorem C17_counterexample :
    (shadowVFS.FindFile [47, 115]).1 = some 2 ∧
    shadowVFS.FileInfos[2]?.map FPakEntry.UncompressedSize = some 4294967303 ∧
    (shadowVFS.GetFileSize [47, 115]).1 = 7 := by
  decide

/-- C18: for every reader (compressed or uncompressed), every state of the
shared byte source, every other cursor position `c` of that source and every
count `n`, the read of `n` bytes with the cursor at `c` and the read with the
cursor as it was agree: both stop fatally, or both return, with the same bytes,
the same reader state and the same source content. Consequently every
interleaving of the read calls of two readers that share one source gives each
reader the bytes and the final state it gets when it runs alone, and stops
fatally exactly when one of the two runs alone does. -/
theorem C18_reads_ignore_source_cursor (env : Env) (f : FPakFile) (R : FArchive) (c n : Int) :
    forgetCursor (f.Serialize env (R.Seek64 c) n) = forgetCursor (f.Serialize env R n) ∧
    (∀ res, f.Serialize env R n = .ok res →
      ∃ res1, f.Serialize env (R.Seek64 c) n = .ok res1 ∧ res1.data = res.data ∧
        res1.file = res.file ∧ res1.reader.data = res.reader.data) ∧
    (∀ res, f.Serialize env R n = .fatal res →
      ∃ res1, f.Serialize env (R.Seek64 c) n = .fatal res1) ∧
    (∀ (fa fb : FPakFile) (steps : List (Bool × Int)),
      readInterleaved env fa fb R steps =
        sideBySide (fa.readAll env R (callsOf true steps))
          (fb.readAll env R (callsOf false steps))) := by
  have h := Serialize_cursor env f (content_Seek64_self R c) n
  refine ⟨h, ?_, ?_, fun fa fb steps => readInterleaved_eq env steps fa fb R⟩
  · intro res hres
    rcases forgetCursor_cases h with ⟨r1, r2, h1, h2, hd, hf, hr⟩ | ⟨r1, r2, -, h2, -⟩
    · rw [hres] at h2
      cases h2
      have hdata : r1.reader.content.data = res.reader.content.data :=
        congrArg FArchive.data hr
      exact ⟨r1, h1, hd, hf, hdata⟩
    · rw [hres] at h2
      cases h2
  · intro res hres
    rcases forgetCursor_cases h with ⟨r1, r2, -, h2, -⟩ | ⟨r1, r2, h1, -, -⟩
    · rw [hres] at h2
      cases h2
    · exact ⟨r1, h1⟩

/-- C19 (as amended): for every reader with a stopper `S` set by the caller
(`ArStopper = S > 0`), every position `p` and every count `n` whose sum
`p + n` is a value of `int`: a read with `p + n > S` stops fatally before
delivering a byte, touching the source or changing position and cache, and a
read with `p + n <= S` is not rejected by the stopper check: it is the read of
the compressed or the uncompressed branch. -/
theorem C19_stopper_enforced (env : Env) (f : FPakFile) (Reader : FArchive) (n : Int)
    (hS : f.ArStopper > 0) (hsum : IsInt32 (f.ArPos + n)) :
    (f.ArPos + n > f.ArStopper → f.Serialize env Reader n = .fatal ⟨[], f, Reader⟩) ∧
    (f.ArPos + n ≤ f.ArStopper →
      f.Serialize env Reader n =
        if f.Info.CompressionMethod ≠ 0 then f.SerializeCompressed env n.toNat Reader n
        else f.SerializeUncompressed Reader n) := by
  have hw : toInt32 (f.ArPos + n) = f.ArPos + n := toInt32_eq_self hsum.1 hsum.2
  constructor
  · intro h
    exact Serialize_stopper env f Reader n ⟨hS, by rw [hw]; exact h⟩
  · intro h
    unfold FPakFile.Serialize
    rw [if_neg (by rw [hw]; omega)]

/-- Witness of C19: the reader `stoppedReader` (position 1, stopper 3) refuses
a read of 5 bytes and serves a read of 2 bytes. -/
theorem C19_witness :
    (stoppedReader.ArStopper > 0 ∧ IsInt32 (stoppedReader.ArPos + 5) ∧
      stoppedReader.Serialize demoEnv demoReader 5 = .fatal ⟨[], stoppedReader, demoReader⟩) ∧
    (IsInt32 (stoppedReader.ArPos + 2) ∧
      stoppedReader.Serialize demoEnv demoReader 2
        = .ok ⟨[14, 15], { stoppedReader with ArPos := 3 }, ⟨demoSrc, 6, 4⟩⟩) :=
  ⟨⟨by decide, by decide,
      (C19_stopper_enforced demoEnv stoppedReader demoReader 5 (by decide) (by decide)).1
        (by decide)⟩,
    ⟨by decide,
      ((C19_stopper_enforced demoEnv stoppedReader demoReader 2 (by decide) (by decide)).2
        (by decide)).trans (by decide)⟩⟩

/-- Counterexample to C19 as stated: on the reader `stoppedReader` (position 1,
stopper 3) a read of 2147483647 bytes has `p + n = 2147483648 > S`, but the sum
wraps to a negative `int`, the stopper check lets the read pass, and the
uncompressed branch moves the cursor of the source to 4 before the source stops
the read. -/
theorem C19_counterexample :
    stoppedReader.ArStopper > 0 ∧
    stoppedReader.ArPos + 2147483647 > stoppedReader.ArStopper ∧
    stoppedReader.Serialize demoEnv demoReader 2147483647
      = stoppedReader.SerializeUncompressed demoReader 2147483647 ∧
    stoppedReader.Serialize demoEnv demoReader 2147483647
      = .fatal ⟨[], stoppedReader, ⟨demoSrc, 4, 4⟩⟩ ∧
    stoppedReader.Serialize demoEnv demoReader 2147483647
      ≠ .fatal ⟨[], stoppedReader, demoReader⟩ := by
  decide

/-- C20: for every compressed entry with a positive block size, exactly
`ceil(uncompressedSize / compressionBlockSize)` compression blocks and sizes
within `int`, every reachable reader at position `p` and every read of
`n >= 0` bytes with `p + n <= uncompressedSize`: at the head of every iteration
of the loop the block size is not zero and `BlockIndex` is a valid index into
`CompressionBlocks`; once the buffer is ready, `BytesToCopy > 0`, the copy
starts at an offset `>= 0` and stays within the decompressed length of the
cached block, and the iteration returns; an iteration can stop fatally only
because the byte source or the decompressor fails on the block; and the loop
ends within `floor((p + n - 1) / bs) - floor(p / bs) + 1` iterations, so that
the read is the loop run with this number of iterations. -/
theorem C20_compressed_loop_safe (env : Env) (src : List Nat) (E : FPakEntry)
    (hm : E.CompressionMethod ≠ 0) (hbs : 0 < E.CompressionBlockSize)
    (hbs' : E.CompressionBlockSize ≤ 2147483647) (hU0 : 0 ≤ E.UncompressedSize)
    (hU : E.UncompressedSize ≤ 2147483647)
    (hblocks : (E.CompressionBlocks.length : Int)
      = (E.UncompressedSize + E.CompressionBlockSize - 1) / E.CompressionBlockSize)
    (f0 : FPakFile) (hf : Reachable env src E f0) (R0 : FArchive) (n : Int) (hn : 0 ≤ n)
    (hend : f0.ArPos + n ≤ E.UncompressedSize) :
    (∀ (f : FPakFile) (R : FArchive) (size : Int), InLoop env f0 R0 n f R size → 0 < size →
      f.Info.CompressionBlockSize ≠ 0 ∧
      (0 ≤ f.BlockIndex ∧ f.BlockIndex < E.CompressionBlocks.length) ∧
      (∀ f1 r1, f.prepareBuffer env R = .ok (f1, r1) →
        0 < f1.BytesToCopy size ∧ 0 ≤ f1.OffsetInBuffer ∧
        f1.OffsetInBuffer + f1.BytesToCopy size
          ≤ min E.CompressionBlockSize (E.UncompressedSize - f1.UncompressedBufferPos) ∧
        ∃ res, f.loopBody env R size = .ok (res, size - f1.BytesToCopy size)) ∧
      (∀ x, f.prepareBuffer env R = .fatal x →
        ∃ B, f.Info.CompressionBlocks[f.BlockIndex.toNat]? = some B ∧
          ((∃ r1, (R.Seek64 B.CompressedStart).Serialize
              (toInt32 (B.CompressedEnd - B.CompressedStart)) = .fatal r1) ∨
            ∃ c r1, (R.Seek64 B.CompressedStart).Serialize
                (toInt32 (B.CompressedEnd - B.CompressedStart)) = .ok (c, r1) ∧
              env.decompress c
                (min f.Info.CompressionBlockSize
                  (toInt32 (toInt32 f.Info.UncompressedSize -
                    toInt32 (f.Info.CompressionBlockSize * f.BlockIndex))))
                f.Info.CompressionMethod = none))) ∧
    f0.loopEnds env ((f0.ArPos + n - 1) / E.CompressionBlockSize
      - f0.ArPos / E.CompressionBlockSize + 1).toNat R0 n = true ∧
    f0.Serialize env R0 n = f0.SerializeCompressed env ((f0.ArPos + n - 1) / E.CompressionBlockSize
      - f0.ArPos / E.CompressionBlockSize + 1).toNat R0 n := by
  have hcover := cover_of_blocks hbs hblocks
  obtain ⟨hI, hst, hpos, -, hbp, -⟩ := Reachable_position hU0 hU ⟨by omega, hbs'⟩ hf
  have hinv0 : f0.LoopInv E n := ⟨hI, hpos, hbp, Reachable_shape hm hbs hbs' hU0 hU hf, hn, hend⟩
  have hends := loopEnds_bound env hbs hbs' hU _ f0 R0 n hinv0 (fun _ => Int.self_le_toNat _)
  refine ⟨?_, hends, ?_⟩
  · intro f R size hin hsize
    have hinv := InLoop_inv hbs hbs' hU hinv0 hin
    have hbsf : f.Info.CompressionBlockSize ≠ 0 := by rw [hinv.1]; omega
    obtain ⟨k0, k1, B, hB⟩ := BlockIndex_valid hbs hcover hinv hsize
    refine ⟨hbsf, ⟨k0, k1⟩, ?_, ?_⟩
    · intro f1 r1 hp
      obtain ⟨-, -, h0, h1, h2, -, bytes, hl, -⟩ := loopBody_safe hbs hbs' hU hinv hsize hp
      exact ⟨h0, h1, h2, _, hl⟩
    · intro x hx
      exact ⟨B, hB, (prepareBuffer_fatal_cause hbsf k0 hB hx).2⟩
  · rw [Serialize_compressed_eq env f0 R0 n (by rw [hI]; exact hm) (by rw [hst]; omega)]
    generalize ((f0.ArPos + n - 1) / E.CompressionBlockSize
      - f0.ArPos / E.CompressionBlockSize + 1).toNat = fuel at hends ⊢
    by_cases hle : fuel ≤ n.toNat
    · obtain ⟨more, hmore⟩ : ∃ more, n.toNat = fuel + more := ⟨n.toNat - fuel, by omega⟩
      rw [hmore]
      exact loopEnds_fuel env fuel f0 R0 n hends more
    · exact SerializeCompressed_fuel env _ _ f0 R0 n (by omega) (le_refl _) (by omega)

/-- Witness of C20: the reader of `demoEntry` (11 bytes in 3 blocks of 4) that
has read 3 bytes reads the next 6 in 3 iterations. -/
theorem C20_witness :
    Reachable demoEnv demoSrc demoEntry demoFirst.file ∧
    demoFirst.file.loopEnds demoEnv ((demoFirst.file.ArPos + 6 - 1)
        / demoEntry.CompressionBlockSize
      - demoFirst.file.ArPos / demoEntry.CompressionBlockSize + 1).toNat demoReader 6 = true ∧
    demoFirst.file.Serialize demoEnv demoReader 6
      = demoFirst.file.SerializeCompressed demoEnv ((demoFirst.file.ArPos + 6 - 1)
          / demoEntry.CompressionBlockSize
        - demoFirst.file.ArPos / demoEntry.CompressionBlockSize + 1).toNat demoReader 6 :=
  ⟨demoFirst_reachable,
    (C20_compressed_loop_safe demoEnv demoSrc demoEntry (by decide) (by decide) (by decide)
      (by decide) (by decide) (by decide) demoFirst.file demoFirst_reachable demoReader 6
      (by decide) (by decide)).2⟩
end UModel
